import Mathlib

/-!
Shallow embedding of the graph-algorithm step-generation engine of the
graph_algo_visualizer repository (src/algorithms, src/core/graph/graphUtils.ts,
src/types/index.ts), together with proofs about the claims of its
specification.

Modelling conventions:
* JavaScript numbers are modelled by `ℚ` for graph data (weights, positions)
  and by `Nat` for the metrics counters (which are only ever incremented).
  The distinguished value `Infinity` used by the shortest-path / MST
  executors is modelled by the type `Jv` (`Jv.q _` finite, `Jv.inf`).
* JavaScript `Map` objects are modelled by insertion-ordered association
  lists (`AList`); `Map.set` on an existing key replaces the value in place,
  a new key is appended (this matches JS iteration order).  JavaScript `Set`
  objects are insertion-ordered duplicate-free lists.
* Arrays are Lean lists in the same element order.  `push` appends,
  `shift` takes the head.  The explicit DFS stack is represented
  top-first: the source pushes/pops at the *end* of a JS array and displays
  `[...stack].reverse()`, which is exactly this list.
* JS truthiness of the `x || d` idiom on numbers (`0` and `undefined` are
  falsy, `Infinity` truthy) and of optional string parameters (`undefined`
  and `""` falsy) is modelled explicitly (`jsOrInf`, `jsOr0`, string guards).
* `Math.sqrt` (used only by the A* heuristic) is modelled by `mathSqrt`;
  the theorems below only ever rely on its value at `0`, where it is exact.
-/

namespace GV

/-- Node visual states (src/types/index.ts, enum NodeState). -/
inductive NodeState where
  | unvisited
  | visiting
  | visited
  | in_path
  | in_solution
  | current
deriving DecidableEq, Repr

/-- Edge visual states (src/types/index.ts, enum EdgeState). -/
inductive EdgeState where
  | unexamined
  | examining
  | in_solution
  | rejected
deriving DecidableEq, Repr

/-- The four metrics counters (src/types/index.ts, AlgorithmMetrics). -/
structure AlgorithmMetrics where
  nodesVisited : Nat
  edgesExamined : Nat
  operationsCount : Nat
  comparisons : Nat
deriving DecidableEq, Repr

/-- Componentwise order on metrics (used to state monotonicity). -/
def mleB (a b : AlgorithmMetrics) : Bool :=
  decide (a.nodesVisited ≤ b.nodesVisited) && decide (a.edgesExamined ≤ b.edgesExamined) &&
  decide (a.operationsCount ≤ b.operationsCount) && decide (a.comparisons ≤ b.comparisons)

/-- A JS number that is either finite or `Infinity`. -/
inductive Jv where
  | q (v : ℚ)
  | inf
deriving DecidableEq, Repr

/-- Addition on `Jv` (`Infinity + x = Infinity`). -/
def jvAdd : Jv → Jv → Jv
  | Jv.q a, Jv.q b => Jv.q (a + b)
  | _, _ => Jv.inf

/-- Strict `<` on `Jv` as in JS (`x < Infinity` true for finite x, `Infinity < x` false). -/
def jvLtB : Jv → Jv → Bool
  | Jv.q a, Jv.q b => decide (a < b)
  | Jv.q _, Jv.inf => true
  | Jv.inf, _ => false

/-- Comparator order used by the priority-queue sorts: ascending by priority,
`Infinity` entries last, equal priorities kept stable (the JS comparator
`a - b` yields `NaN` on two `Infinity` entries, which the sort treats as 0). -/
def jvLeB : Jv → Jv → Bool
  | Jv.q a, Jv.q b => decide (a ≤ b)
  | Jv.q _, Jv.inf => true
  | Jv.inf, Jv.q _ => false
  | Jv.inf, Jv.inf => true

/-- JS falsiness of a number (`0` is falsy, `Infinity` truthy). -/
def jvFalsy : Jv → Bool
  | Jv.q a => a == 0
  | Jv.inf => false

/-- The JS idiom `m.get(k) || Infinity`. -/
def jsOrInf (o : Option Jv) : Jv :=
  match o with
  | some v => if jvFalsy v then Jv.inf else v
  | none => Jv.inf

/-- The JS idiom `m.get(k) || 0`. -/
def jsOr0 (o : Option Jv) : Jv :=
  match o with
  | some v => if jvFalsy v then Jv.q 0 else v
  | none => Jv.q 0

/-- String form of a finite JS number.  Exact for integral values (all values
formatted in the runs analysed here are integral). -/
def jsNumToString (v : ℚ) : String :=
  if v.den = 1 then toString v.num else toString v

/-- String interpolation of a `Jv` (`${x}` prints `Infinity` for the infinite value). -/
def jvToString : Jv → String
  | Jv.q v => jsNumToString v
  | Jv.inf => "Infinity"

/-- Insertion-ordered association list modelling a JS `Map` keyed by strings. -/
abbrev AList (α : Type) : Type := List (String × α)

/-- `Map.get`. -/
def aget {κ α : Type} [BEq κ] (m : List (κ × α)) (k : κ) : Option α :=
  (List.find? (fun p => p.1 == k) m).map (fun p => p.2)

/-- `Map.set`: replace in place when the key exists, append otherwise. -/
def aset {κ α : Type} [BEq κ] (m : List (κ × α)) (k : κ) (v : α) : List (κ × α) :=
  if (List.find? (fun p => p.1 == k) m).isSome then
    List.map (fun p => if p.1 == k then (k, v) else p) m
  else m ++ [(k, v)]

/-- `m.get(k)?.push(v)`: append to the stored list when the key exists, no-op otherwise. -/
def apush {κ α : Type} [BEq κ] (m : List (κ × List α)) (k : κ) (v : α) : List (κ × List α) :=
  List.map (fun p => if p.1 == k then (p.1, p.2 ++ [v]) else p) m

/-- `Set.add` on an insertion-ordered JS set. -/
def sadd (s : List String) (x : String) : List String :=
  if s.contains x then s else s ++ [x]

/-- Display values stored in a step record's `dataStructures` map
(`Record<string, unknown>` in the source). -/
inductive DSVal where
  | s (v : String)
  | n (v : ℚ)
  | b (v : Bool)
  | undef
  | arr (l : List (Option String))
  | ss (l : List String)
  | obj (l : List (String × String))
  | objN (l : List (String × ℚ))
  | objL (l : List (String × List String))
deriving DecidableEq, Repr

/-- One trace record (src/types/index.ts, AlgorithmStep). -/
structure AlgorithmStep where
  stepNumber : Nat
  description : String
  pseudocodeLine : Nat
  nodeStates : AList NodeState
  edgeStates : AList EdgeState
  dataStructures : List (String × DSVal)
  currentOperation : String
  metrics : AlgorithmMetrics
deriving DecidableEq, Repr

/-- Graph node (src/types/index.ts). -/
structure Node where
  id : String
  label : String
  x : ℚ
  y : ℚ
deriving DecidableEq, Repr

/-- Graph edge (src/types/index.ts). -/
structure Edge where
  id : String
  source : String
  target : String
  weight : ℚ
deriving DecidableEq, Repr

/-- Graph snapshot (src/types/index.ts). -/
structure Graph where
  nodes : List Node
  edges : List Edge
  directed : Bool
  weighted : Bool
deriving DecidableEq, Repr

/-- A* heuristic choice. -/
inductive HeurKind where
  | manhattan
  | euclidean
deriving DecidableEq, Repr

/-- Executor parameters (src/types/index.ts, AlgorithmParams). -/
structure AlgorithmParams where
  startNodeId : Option String := none
  endNodeId : Option String := none
  heuristic : Option HeurKind := none
deriving DecidableEq, Repr

/-- src/core/graph/graphUtils.ts, getNode. -/
def getNode (g : Graph) (nodeId : String) : Option Node :=
  g.nodes.find? (fun n => n.id == nodeId)

/-- src/core/graph/graphUtils.ts, getEdgeBetween. -/
def getEdgeBetween (g : Graph) (source target : String) : Option Edge :=
  g.edges.find? (fun e =>
    if g.directed then e.source == source && e.target == target
    else (e.source == source && e.target == target) ||
      (e.source == target && e.target == source))

/-- One adjacency entry `{nodeId, weight}`. -/
structure AdjEntry where
  nodeId : String
  weight : ℚ
deriving DecidableEq, Repr

/-- src/core/graph/graphUtils.ts, toAdjacencyList. -/
def toAdjacencyList (g : Graph) : AList (List AdjEntry) :=
  let init := g.nodes.foldl (fun m n => aset m n.id []) []
  g.edges.foldl (fun m e =>
    let m := apush m e.source { nodeId := e.target, weight := e.weight }
    if g.directed then m else apush m e.target { nodeId := e.source, weight := e.weight }) init

/-- Model of `Math.sqrt` on the rational embedding of JS numbers.  The proofs
below rely on its value only at perfect squares of naturals (in fact only at
`0`, where `Math.sqrt` is exact). -/
def mathSqrt (v : ℚ) : ℚ :=
  Rat.sqrt v

/-- src/core/graph/graphUtils.ts, calculateDistance (A* heuristic feed). -/
def calculateDistance (node1 node2 : Node) (t : HeurKind) : ℚ :=
  let dx := |node1.x - node2.x|
  let dy := |node1.y - node2.y|
  match t with
  | HeurKind.manhattan => dx + dy
  | HeurKind.euclidean => mathSqrt (dx * dx + dy * dy)

/-- The label of `graph.nodes.find(n => n.id === id)?.label` as it appears
inside a template string (`undefined` when the node is missing). -/
def jsLabel (g : Graph) (nodeId : String) : String :=
  match getNode g nodeId with
  | some n => n.label
  | none => "undefined"

/-- The same lookup as an optional value (for label arrays in dataStructures). -/
def mapLabel (g : Graph) (nodeId : String) : Option String :=
  (getNode g nodeId).map (fun n => n.label)

/-- Initial node-state map: every node id set to `unvisited`. -/
def initNodeStates (g : Graph) : AList NodeState :=
  g.nodes.foldl (fun m n => aset m n.id NodeState.unvisited) []

/-- Initial edge-state map: every edge id set to `unexamined`. -/
def initEdgeStates (g : Graph) : AList EdgeState :=
  g.edges.foldl (fun m e => aset m e.id EdgeState.unexamined) []

/-- Zero metrics. -/
def zeroMetrics : AlgorithmMetrics :=
  { nodesVisited := 0, edgesExamined := 0, operationsCount := 0, comparisons := 0 }

/-- JS guard `!startNodeId` on an optional string parameter
(`undefined` and the empty string are falsy). -/
def strFalsy : Option String → Bool
  | none => true
  | some s => s == ""

/-! ## Breadth-first search (src/algorithms/traversal/bfs.ts) -/

/-- Mutable state of the BFS run. -/
structure BfsSt where
  queue : List String
  visited : List String
  nodeStates : AList NodeState
  edgeStates : AList EdgeState
  metrics : AlgorithmMetrics
  steps : List AlgorithmStep
deriving Repr

/-- The `queue` / `visited` display maps shared by every BFS step. -/
def bfsDS (g : Graph) (queue visited : List String) : List (String × DSVal) :=
  [("queue", DSVal.arr (queue.map (mapLabel g))),
   ("visited", DSVal.arr (visited.map (mapLabel g)))]

/-- Body of the BFS neighbor loop (bfs.ts lines 93-140). -/
def bfsVisit (g : Graph) (currentId : String) (st : BfsSt) (nb : AdjEntry) : BfsSt :=
  let neighborId := nb.nodeId
  let nlbl := jsLabel g neighborId
  let clbl := jsLabel g currentId
  let edge := getEdgeBetween g currentId neighborId
  let m := { st.metrics with
    edgesExamined := st.metrics.edgesExamined + 1,
    comparisons := st.metrics.comparisons + 1,
    operationsCount := st.metrics.operationsCount + 1 }
  let es := match edge with
    | some e => aset st.edgeStates e.id EdgeState.examining
    | none => st.edgeStates
  let examStep : AlgorithmStep := {
    stepNumber := st.steps.length + 1,
    description := "Examine edge from " ++ clbl ++ " to " ++ nlbl ++ ".",
    pseudocodeLine := 7,
    nodeStates := st.nodeStates,
    edgeStates := es,
    dataStructures := bfsDS g st.queue st.visited,
    currentOperation := "Check neighbor " ++ nlbl,
    metrics := m }
  let st := { st with metrics := m, edgeStates := es, steps := st.steps ++ [examStep] }
  if st.visited.contains neighborId then
    match edge with
    | some e =>
      if aget st.edgeStates e.id != some EdgeState.in_solution then
        { st with edgeStates := aset st.edgeStates e.id EdgeState.rejected }
      else st
    | none => st
  else
    let visited := st.visited ++ [neighborId]
    let queue := st.queue ++ [neighborId]
    let ns := aset st.nodeStates neighborId NodeState.visiting
    let m := { st.metrics with nodesVisited := st.metrics.nodesVisited + 1 }
    let es := match edge with
      | some e => aset st.edgeStates e.id EdgeState.in_solution
      | none => st.edgeStates
    let discStep : AlgorithmStep := {
      stepNumber := st.steps.length + 1,
      description := "Node " ++ nlbl ++ " not visited. Mark as visited and add to queue.",
      pseudocodeLine := 9,
      nodeStates := ns,
      edgeStates := es,
      dataStructures := bfsDS g queue visited,
      currentOperation := "Enqueue " ++ nlbl,
      metrics := m }
    { st with
      visited := visited
      queue := queue
      nodeStates := ns
      metrics := m
      edgeStates := es
      steps := st.steps ++ [discStep] }

/-- The BFS while-loop (bfs.ts lines 74-154), with fuel for termination. -/
def bfsLoop (g : Graph) (adjList : AList (List AdjEntry)) : Nat → BfsSt → BfsSt
  | 0, st => st
  | fuel + 1, st =>
    match st.queue with
    | [] => st
    | currentId :: rest =>
      let clbl := jsLabel g currentId
      let ns := aset st.nodeStates currentId NodeState.current
      let m := { st.metrics with operationsCount := st.metrics.operationsCount + 1 }
      let dqStep : AlgorithmStep := {
        stepNumber := st.steps.length + 1,
        description := "Dequeue node " ++ clbl ++ " from queue.",
        pseudocodeLine := 5,
        nodeStates := ns,
        edgeStates := st.edgeStates,
        dataStructures := bfsDS g rest st.visited,
        currentOperation := "Dequeue " ++ clbl,
        metrics := m }
      let st := { st with
        queue := rest
        nodeStates := ns
        metrics := m
        steps := st.steps ++ [dqStep] }
      let neighbors := (aget adjList currentId).getD []
      let st := neighbors.foldl (bfsVisit g currentId) st
      let ns2 := aset st.nodeStates currentId NodeState.visited
      let doneStep : AlgorithmStep := {
        stepNumber := st.steps.length + 1,
        description := "Finished processing node " ++ clbl ++ ".",
        pseudocodeLine := 6,
        nodeStates := ns2,
        edgeStates := st.edgeStates,
        dataStructures := bfsDS g st.queue st.visited,
        currentOperation := "Complete " ++ clbl,
        metrics := st.metrics }
      bfsLoop g adjList fuel { st with nodeStates := ns2, steps := st.steps ++ [doneStep] }

/-- Fuel bound: the loop dequeues at most once per enqueue, and at most
`1 + 2·|E|` ids are ever enqueued. -/
def stdFuel (g : Graph) : Nat :=
  g.nodes.length + 2 * g.edges.length + 1

/-- src/algorithms/traversal/bfs.ts, executeBFS. -/
def executeBFS (g : Graph) (params : AlgorithmParams) : List AlgorithmStep :=
  if strFalsy params.startNodeId then [] else
  match params.startNodeId with
  | none => []
  | some startNodeId =>
    if (getNode g startNodeId).isNone then [] else
    let adjList := toAdjacencyList g
    let visited := [startNodeId]
    let queue := [startNodeId]
    let nodeStates := aset (initNodeStates g) startNodeId NodeState.visiting
    let metrics : AlgorithmMetrics :=
      { nodesVisited := 1, edgesExamined := 0, operationsCount := 1, comparisons := 0 }
    let step1 : AlgorithmStep := {
      stepNumber := 1,
      description := "Start BFS from node " ++ jsLabel g startNodeId ++ ". Add to queue.",
      pseudocodeLine := 3,
      nodeStates := nodeStates,
      edgeStates := initEdgeStates g,
      dataStructures := bfsDS g queue visited,
      currentOperation := "Initialize",
      metrics := metrics }
    let st : BfsSt := {
      queue := queue
      visited := visited
      nodeStates := nodeStates
      edgeStates := initEdgeStates g
      metrics := metrics
      steps := [step1] }
    let st := bfsLoop g adjList (stdFuel g) st
    let nsFinal := st.visited.foldl (fun m id => aset m id NodeState.in_solution) st.nodeStates
    let finalStep : AlgorithmStep := {
      stepNumber := st.steps.length + 1,
      description := "BFS complete. Visited " ++ toString st.visited.length ++ " nodes.",
      pseudocodeLine := 10,
      nodeStates := nsFinal,
      edgeStates := st.edgeStates,
      dataStructures := [("queue", DSVal.arr []),
        ("visited", DSVal.arr (st.visited.map (mapLabel g)))],
      currentOperation := "Complete",
      metrics := st.metrics }
    st.steps ++ [finalStep]

/-! ## Depth-first search (src/algorithms/traversal/dfs.ts)

The JS stack is an array pushed/popped at its end; here it is the list with
head = top of stack, so that the displayed `[...stack].reverse()` is the
list itself. -/

/-- Mutable state of the DFS run. -/
structure DfsSt where
  stack : List String
  visited : List String
  nodeStates : AList NodeState
  edgeStates : AList EdgeState
  metrics : AlgorithmMetrics
  steps : List AlgorithmStep
deriving Repr

/-- The `stack` / `visited` display maps shared by every DFS step. -/
def dfsDS (g : Graph) (stack visited : List String) : List (String × DSVal) :=
  [("stack", DSVal.arr (stack.map (mapLabel g))),
   ("visited", DSVal.arr (visited.map (mapLabel g)))]

/-- Body of the DFS neighbor loop (dfs.ts lines 108-146); the source iterates
the adjacency list backwards, so the fold below runs over the reversed list. -/
def dfsVisit (g : Graph) (currentId : String) (st : DfsSt) (nb : AdjEntry) : DfsSt :=
  let neighborId := nb.nodeId
  let nlbl := jsLabel g neighborId
  let edge := getEdgeBetween g currentId neighborId
  let m := { st.metrics with
    edgesExamined := st.metrics.edgesExamined + 1
    operationsCount := st.metrics.operationsCount + 1 }
  let es :=
    match edge with
    | some e =>
      if st.visited.contains neighborId then st.edgeStates
      else aset st.edgeStates e.id EdgeState.examining
    | none => st.edgeStates
  let st := { st with metrics := m, edgeStates := es }
  if st.visited.contains neighborId then
    match edge with
    | some e =>
      if aget st.edgeStates e.id != some EdgeState.in_solution then
        { st with edgeStates := aset st.edgeStates e.id EdgeState.rejected }
      else st
    | none => st
  else
    let stack := neighborId :: st.stack
    let ns :=
      if aget st.nodeStates neighborId == some NodeState.unvisited then
        aset st.nodeStates neighborId NodeState.visiting
      else st.nodeStates
    let es :=
      match edge with
      | some e => aset st.edgeStates e.id EdgeState.in_solution
      | none => st.edgeStates
    let pushStep : AlgorithmStep := {
      stepNumber := st.steps.length + 1,
      description := "Push neighbor " ++ nlbl ++ " onto stack.",
      pseudocodeLine := 9,
      nodeStates := ns,
      edgeStates := es,
      dataStructures := dfsDS g stack st.visited,
      currentOperation := "Push " ++ nlbl,
      metrics := st.metrics }
    { st with
      stack := stack
      nodeStates := ns
      edgeStates := es
      steps := st.steps ++ [pushStep] }

/-- The DFS while-loop (dfs.ts lines 70-149), with fuel for termination. -/
def dfsLoop (g : Graph) (adjList : AList (List AdjEntry)) : Nat → DfsSt → DfsSt
  | 0, st => st
  | fuel + 1, st =>
    match st.stack with
    | [] => st
    | currentId :: rest =>
      let clbl := jsLabel g currentId
      let m := { st.metrics with
        operationsCount := st.metrics.operationsCount + 1
        comparisons := st.metrics.comparisons + 1 }
      let st := { st with stack := rest, metrics := m }
      if st.visited.contains currentId then
        let skipStep : AlgorithmStep := {
          stepNumber := st.steps.length + 1,
          description := "Node " ++ clbl ++ " already visited. Skip.",
          pseudocodeLine := 5,
          nodeStates := st.nodeStates,
          edgeStates := st.edgeStates,
          dataStructures := dfsDS g st.stack st.visited,
          currentOperation := "Skip " ++ clbl,
          metrics := st.metrics }
        dfsLoop g adjList fuel { st with steps := st.steps ++ [skipStep] }
      else
        let visited := st.visited ++ [currentId]
        let m := { st.metrics with nodesVisited := st.metrics.nodesVisited + 1 }
        let ns := aset st.nodeStates currentId NodeState.current
        let visitStep : AlgorithmStep := {
          stepNumber := st.steps.length + 1,
          description := "Pop node " ++ clbl ++ " from stack. Mark as visited.",
          pseudocodeLine := 6,
          nodeStates := ns,
          edgeStates := st.edgeStates,
          dataStructures := dfsDS g st.stack visited,
          currentOperation := "Visit " ++ clbl,
          metrics := m }
        let st := { st with
          visited := visited
          metrics := m
          nodeStates := ns
          steps := st.steps ++ [visitStep] }
        let neighbors := (aget adjList currentId).getD []
        let st := neighbors.reverse.foldl (dfsVisit g currentId) st
        dfsLoop g adjList fuel
          { st with nodeStates := aset st.nodeStates currentId NodeState.visited }

/-- src/algorithms/traversal/dfs.ts, executeDFS. -/
def executeDFS (g : Graph) (params : AlgorithmParams) : List AlgorithmStep :=
  if strFalsy params.startNodeId then [] else
  match params.startNodeId with
  | none => []
  | some startNodeId =>
    if (getNode g startNodeId).isNone then [] else
    let adjList := toAdjacencyList g
    let stack := [startNodeId]
    let nodeStates := aset (initNodeStates g) startNodeId NodeState.visiting
    let metrics : AlgorithmMetrics :=
      { nodesVisited := 0, edgesExamined := 0, operationsCount := 1, comparisons := 0 }
    let step1 : AlgorithmStep := {
      stepNumber := 1,
      description := "Start DFS from node " ++ jsLabel g startNodeId ++ ". Push to stack.",
      pseudocodeLine := 2,
      nodeStates := nodeStates,
      edgeStates := initEdgeStates g,
      dataStructures := dfsDS g stack [],
      currentOperation := "Initialize",
      metrics := metrics }
    let st : DfsSt := {
      stack := stack
      visited := []
      nodeStates := nodeStates
      edgeStates := initEdgeStates g
      metrics := metrics
      steps := [step1] }
    let st := dfsLoop g adjList (stdFuel g) st
    let nsFinal := st.visited.foldl (fun m id => aset m id NodeState.in_solution) st.nodeStates
    let finalStep : AlgorithmStep := {
      stepNumber := st.steps.length + 1,
      description := "DFS complete. Visited " ++ toString st.visited.length ++ " nodes.",
      pseudocodeLine := 9,
      nodeStates := nsFinal,
      edgeStates := st.edgeStates,
      dataStructures := [("stack", DSVal.arr []),
        ("visited", DSVal.arr (st.visited.map (mapLabel g)))],
      currentOperation := "Complete",
      metrics := st.metrics }
    st.steps ++ [finalStep]

/-! ## Priority queues

Dijkstra and A* use the simple push-then-sort queue (duplicate entries
allowed); Prim uses the variant that updates an existing entry in place.
JS `Array.prototype.sort` is stable and treats the `NaN` produced by
comparing two `Infinity` priorities as 0, which `jvLeB` reflects. -/

/-- One priority-queue entry `{priority, value}`. -/
structure PQItem where
  priority : Jv
  value : String
deriving DecidableEq, Repr

/-- Stable re-sort of the backing list by ascending priority. -/
def pqSort (items : List PQItem) : List PQItem :=
  items.mergeSort (fun a b => jvLeB a.priority b.priority)

/-- `PriorityQueue.enqueue` of dijkstra.ts / astar.ts: push then sort. -/
def pqEnqueue (items : List PQItem) (value : String) (priority : Jv) : List PQItem :=
  pqSort (items ++ [{ priority := priority, value := value }])

/-- Replace the priority of the first entry holding `value`. -/
def pqUpdFirst (items : List PQItem) (value : String) (priority : Jv) : List PQItem :=
  match items with
  | [] => []
  | it :: rest =>
    if it.value == value then { it with priority := priority } :: rest
    else it :: pqUpdFirst rest value priority

/-- `PriorityQueue.enqueue` of the Prim section of cycleDetection.ts: update an
existing entry in place (only when the new priority is strictly smaller,
re-sorting), never push a second entry for the same value. -/
def pqEnqueueUpd (items : List PQItem) (value : String) (priority : Jv) : List PQItem :=
  match items.find? (fun it => it.value == value) with
  | some it =>
    if jvLtB priority it.priority then pqSort (pqUpdFirst items value priority)
    else items
  | none => pqSort (items ++ [{ priority := priority, value := value }])

/-! ## Dijkstra (src/algorithms/shortestPath/dijkstra.ts) -/

/-- Mutable state of the Dijkstra run; `done` records the early return taken
when the target is dequeued. -/
structure DijSt where
  pq : List PQItem
  dist : AList Jv
  parentM : AList (Option String)
  visited : List String
  nodeStates : AList NodeState
  edgeStates : AList EdgeState
  metrics : AlgorithmMetrics
  steps : List AlgorithmStep
  done : Bool
deriving Repr

/-- The `distances` display table (dijkstra.ts formatDist helper). -/
def formatDist (g : Graph) (dist : AList Jv) : List (String × String) :=
  g.nodes.map (fun n =>
    (n.label,
      match aget dist n.id with
      | some Jv.inf => "∞"
      | some (Jv.q v) => jsNumToString v
      | none => "undefined"))

/-- The `priorityQueue` display list. -/
def formatPQ (g : Graph) (items : List PQItem) : List String :=
  items.map (fun it => "(" ++ jvToString it.priority ++ ", " ++ jsLabel g it.value ++ ")")

/-- The JS path-reconstruction loop
`while (curr) { path.unshift(curr); curr = parent.get(curr) || null; }`. -/
def walkParents (parentM : AList (Option String)) : Nat → Option String → List String → List String
  | 0, _, acc => acc
  | f + 1, curr, acc =>
    match curr with
    | none => acc
    | some c =>
      if c == "" then acc
      else
        let nxt : Option String :=
          match aget parentM c with
          | some (some p) => if p == "" then none else some p
          | _ => none
        walkParents parentM f nxt (c :: acc)

/-- Mark every path node and every path edge `in_solution`
(dijkstra.ts lines 165-173), in source order. -/
def markPath (g : Graph) (path : List String) (ns : AList NodeState) (es : AList EdgeState) :
    AList NodeState × AList EdgeState :=
  let r := path.foldl
    (fun (acc : AList NodeState × AList EdgeState × Option String) id =>
      let ns' := aset acc.1 id NodeState.in_solution
      let es' :=
        match acc.2.2 with
        | some prev =>
          match getEdgeBetween g prev id with
          | some e => aset acc.2.1 e.id EdgeState.in_solution
          | none => acc.2.1
        | none => acc.2.1
      (ns', es', some id))
    (ns, es, none)
  (r.1, r.2.1)

/-- Body of the Dijkstra relaxation loop (dijkstra.ts lines 195-252). -/
def dijRelax (g : Graph) (currentId : String) (st : DijSt) (nb : AdjEntry) : DijSt :=
  let neighborId := nb.nodeId
  if st.visited.contains neighborId then st else
  let nlbl := jsLabel g neighborId
  let clbl := jsLabel g currentId
  let edge := getEdgeBetween g currentId neighborId
  let m := { st.metrics with
    edgesExamined := st.metrics.edgesExamined + 1
    comparisons := st.metrics.comparisons + 1
    operationsCount := st.metrics.operationsCount + 1 }
  let es := match edge with
    | some e => aset st.edgeStates e.id EdgeState.examining
    | none => st.edgeStates
  let alt := jvAdd (jsOr0 (aget st.dist currentId)) (Jv.q nb.weight)
  let currentNeighborDist := jsOrInf (aget st.dist neighborId)
  let cndStr := match currentNeighborDist with
    | Jv.inf => "∞"
    | Jv.q v => jsNumToString v
  let checkStep : AlgorithmStep := {
    stepNumber := st.steps.length + 1,
    description := "Check edge " ++ clbl ++ " → " ++ nlbl ++ " (weight: " ++
      jsNumToString nb.weight ++ "). New distance: " ++ jvToString alt ++
      ", Current: " ++ cndStr,
    pseudocodeLine := 10,
    nodeStates := st.nodeStates,
    edgeStates := es,
    dataStructures := [("distances", DSVal.obj (formatDist g st.dist)),
      ("priorityQueue", DSVal.ss (formatPQ g st.pq))],
    currentOperation := "Relax edge to " ++ nlbl,
    metrics := m }
  let st := { st with metrics := m, edgeStates := es, steps := st.steps ++ [checkStep] }
  if jvLtB alt currentNeighborDist then
    let dist := aset st.dist neighborId alt
    let parentM := aset st.parentM neighborId (some currentId)
    let pq := pqEnqueue st.pq neighborId alt
    let ns :=
      if aget st.nodeStates neighborId != some NodeState.visited then
        aset st.nodeStates neighborId NodeState.visiting
      else st.nodeStates
    let updStep : AlgorithmStep := {
      stepNumber := st.steps.length + 1,
      description := "Update distance to " ++ nlbl ++ ": " ++ jvToString alt ++
        " (via " ++ clbl ++ ")",
      pseudocodeLine := 12,
      nodeStates := ns,
      edgeStates := st.edgeStates,
      dataStructures := [("distances", DSVal.obj (formatDist g dist)),
        ("priorityQueue", DSVal.ss (formatPQ g pq))],
      currentOperation := "Update " ++ nlbl,
      metrics := st.metrics }
    { st with
      dist := dist
      parentM := parentM
      pq := pq
      nodeStates := ns
      steps := st.steps ++ [updStep] }
  else
    match edge with
    | some e => { st with edgeStates := aset st.edgeStates e.id EdgeState.rejected }
    | none => st

/-- The Dijkstra while-loop (dijkstra.ts lines 117-255), with fuel. -/
def dijLoop (g : Graph) (adjList : AList (List AdjEntry)) (endNodeId : Option String) :
    Nat → DijSt → DijSt
  | 0, st => st
  | fuel + 1, st =>
    if st.done then st else
    match st.pq with
    | [] => st
    | item :: rest =>
      let currentId := item.value
      let currentDist := item.priority
      let clbl := jsLabel g currentId
      let m := { st.metrics with
        operationsCount := st.metrics.operationsCount + 1
        comparisons := st.metrics.comparisons + 1 }
      let st := { st with pq := rest, metrics := m }
      if jvLtB (jsOrInf (aget st.dist currentId)) currentDist then
        dijLoop g adjList endNodeId fuel st
      else if st.visited.contains currentId then
        dijLoop g adjList endNodeId fuel st
      else
        let visited := st.visited ++ [currentId]
        let m := { st.metrics with nodesVisited := st.metrics.nodesVisited + 1 }
        let ns := aset st.nodeStates currentId NodeState.current
        let exStep : AlgorithmStep := {
          stepNumber := st.steps.length + 1,
          description := "Extract minimum: node " ++ clbl ++ " with distance " ++
            jvToString currentDist,
          pseudocodeLine := 6,
          nodeStates := ns,
          edgeStates := st.edgeStates,
          dataStructures := [("distances", DSVal.obj (formatDist g st.dist)),
            ("priorityQueue", DSVal.ss (formatPQ g st.pq))],
          currentOperation := "Process " ++ clbl,
          metrics := m }
        let st := { st with
          visited := visited
          metrics := m
          nodeStates := ns
          steps := st.steps ++ [exStep] }
        let isTarget := match endNodeId with
          | some e => e != "" && currentId == e
          | none => false
        if isTarget then
          let ns := aset st.nodeStates currentId NodeState.in_solution
          let path := walkParents st.parentM (g.nodes.length + 1) (some currentId) []
          let msMarked := markPath g path ns st.edgeStates
          let pathStep : AlgorithmStep := {
            stepNumber := st.steps.length + 1,
            description := "Target " ++ clbl ++ " reached! Shortest path distance: " ++
              jvToString currentDist ++ ". Path: " ++
              String.intercalate " → " (path.map (jsLabel g)),
            pseudocodeLine := 7,
            nodeStates := msMarked.1,
            edgeStates := msMarked.2,
            dataStructures := [("distances", DSVal.obj (formatDist g st.dist)),
              ("path", DSVal.arr (path.map (mapLabel g)))],
            currentOperation := "Path Found",
            metrics := st.metrics }
          { st with
            nodeStates := msMarked.1
            edgeStates := msMarked.2
            steps := st.steps ++ [pathStep]
            done := true }
        else
          let neighbors := (aget adjList currentId).getD []
          let st := neighbors.foldl (dijRelax g currentId) st
          dijLoop g adjList endNodeId fuel
            { st with nodeStates := aset st.nodeStates currentId NodeState.visited }

/-- src/algorithms/shortestPath/dijkstra.ts, executeDijkstra. -/
def executeDijkstra (g : Graph) (params : AlgorithmParams) : List AlgorithmStep :=
  if strFalsy params.startNodeId then [] else
  match params.startNodeId with
  | none => []
  | some startNodeId =>
    if (getNode g startNodeId).isNone then [] else
    let endNodeId := params.endNodeId
    let adjList := toAdjacencyList g
    let dist := g.nodes.foldl
      (fun m n => aset m n.id (if n.id == startNodeId then Jv.q 0 else Jv.inf)) []
    let parentM : AList (Option String) := g.nodes.foldl (fun m n => aset m n.id none) []
    let pq := pqEnqueue [] startNodeId (Jv.q 0)
    let nodeStates := aset (initNodeStates g) startNodeId NodeState.visiting
    let metrics : AlgorithmMetrics :=
      { nodesVisited := 0, edgesExamined := 0, operationsCount := 1, comparisons := 0 }
    let step1 : AlgorithmStep := {
      stepNumber := 1,
      description := "Initialize: Set distance to " ++ jsLabel g startNodeId ++
        " = 0, all others = ∞",
      pseudocodeLine := 1,
      nodeStates := nodeStates,
      edgeStates := initEdgeStates g,
      dataStructures := [("distances", DSVal.obj (formatDist g dist)),
        ("priorityQueue", DSVal.ss (formatPQ g pq))],
      currentOperation := "Initialize",
      metrics := metrics }
    let st : DijSt := {
      pq := pq
      dist := dist
      parentM := parentM
      visited := []
      nodeStates := nodeStates
      edgeStates := initEdgeStates g
      metrics := metrics
      steps := [step1]
      done := false }
    let st := dijLoop g adjList endNodeId (stdFuel g) st
    if st.done then st.steps
    else if strFalsy endNodeId then
      let nsFinal := g.nodes.foldl
        (fun m n => if aget st.dist n.id != some Jv.inf then aset m n.id NodeState.in_solution else m)
        st.nodeStates
      let sumStep : AlgorithmStep := {
        stepNumber := st.steps.length + 1,
        description := "Dijkstra complete. Computed shortest paths from " ++
          jsLabel g startNodeId ++ " to all reachable nodes.",
        pseudocodeLine := 14,
        nodeStates := nsFinal,
        edgeStates := st.edgeStates,
        dataStructures := [("distances", DSVal.obj (formatDist g st.dist))],
        currentOperation := "Complete",
        metrics := st.metrics }
      st.steps ++ [sumStep]
    else
      let endLbl := match endNodeId with
        | some e => jsLabel g e
        | none => "undefined"
      let npStep : AlgorithmStep := {
        stepNumber := st.steps.length + 1,
        description := "No path found from " ++ jsLabel g startNodeId ++ " to " ++
          endLbl ++ ".",
        pseudocodeLine := 5,
        nodeStates := st.nodeStates,
        edgeStates := st.edgeStates,
        dataStructures := [("distances", DSVal.obj (formatDist g st.dist))],
        currentOperation := "No Path",
        metrics := st.metrics }
      st.steps ++ [npStep]

/-! ## A* search (src/algorithms/shortestPath/astar.ts) -/

/-- `Number.prototype.toFixed(1)` on the rational embedding (exact for the
values formatted in the runs analysed here; only the value at `0`, namely
`"0.0"`, is relied on by a theorem). -/
def qToFixed1 (v : ℚ) : String :=
  let n : Int := if v ≥ 0 then Int.floor (v * 10 + 1 / 2) else -Int.floor (-v * 10 + 1 / 2)
  let a := n.natAbs
  (if n < 0 then "-" else "") ++ toString (a / 10) ++ "." ++ toString (a % 10)

/-- `toFixed(1)` on a possibly-infinite JS number. -/
def jvToFixed1 : Jv → String
  | Jv.q v => qToFixed1 v
  | Jv.inf => "Infinity"

/-- `m.get(k)?.toFixed(1)` interpolated into a template string. -/
def optToFixed1 (o : Option Jv) : String :=
  match o with
  | some v => jvToFixed1 v
  | none => "undefined"

/-- Display name of the heuristic. -/
def heurName : HeurKind → String
  | HeurKind.manhattan => "manhattan"
  | HeurKind.euclidean => "euclidean"

/-- Mutable state of the A* run. -/
structure AStarSt where
  openSet : List PQItem
  gScore : AList Jv
  fScore : AList Jv
  cameFrom : AList String
  closedSet : List String
  nodeStates : AList NodeState
  edgeStates : AList EdgeState
  metrics : AlgorithmMetrics
  steps : List AlgorithmStep
  done : Bool
deriving Repr

/-- The `scores` display table (astar.ts formatScores helper). -/
def formatScores (g : Graph) (gScore fScore : AList Jv) : List (String × String) :=
  g.nodes.map (fun n =>
    let gs := match aget gScore n.id with
      | some Jv.inf => "∞"
      | some (Jv.q v) => qToFixed1 v
      | none => "undefined"
    let fs := match aget fScore n.id with
      | some Jv.inf => "∞"
      | some (Jv.q v) => qToFixed1 v
      | none => "undefined"
    (n.label, "g:" ++ gs ++ ", f:" ++ fs))

/-- The A* heuristic `h` (astar.ts lines 98-102): scaled distance to the goal. -/
def aStarH (g : Graph) (endNode : Node) (heur : HeurKind) (nodeId : String) : Jv :=
  match getNode g nodeId with
  | none => Jv.inf
  | some node => Jv.q (calculateDistance node endNode heur / 100)

/-- The JS non-null assertion `m.get(k)!` on a score map (the call sites only
ever read a key that was just set; the fallback is never taken). -/
def jsBangJv (o : Option Jv) : Jv :=
  o.getD Jv.inf

/-- The `cameFrom` reconstruction loop
`while (curr) { path.unshift(curr); curr = cameFrom.get(curr); }`. -/
def walkCameFrom (cameFrom : AList String) : Nat → Option String → List String → List String
  | 0, _, acc => acc
  | f + 1, curr, acc =>
    match curr with
    | none => acc
    | some c =>
      if c == "" then acc
      else
        let nxt : Option String :=
          match aget cameFrom c with
          | some p => if p == "" then none else some p
          | none => none
        walkCameFrom cameFrom f nxt (c :: acc)

/-- Body of the A* neighbor loop (astar.ts lines 185-231). -/
def aStarVisit (g : Graph) (endNode : Node) (heur : HeurKind) (currentId : String)
    (st : AStarSt) (nb : AdjEntry) : AStarSt :=
  let neighborId := nb.nodeId
  if st.closedSet.contains neighborId then st else
  let nlbl := jsLabel g neighborId
  let edge := getEdgeBetween g currentId neighborId
  let m := { st.metrics with
    edgesExamined := st.metrics.edgesExamined + 1
    comparisons := st.metrics.comparisons + 1 }
  let es := match edge with
    | some e => aset st.edgeStates e.id EdgeState.examining
    | none => st.edgeStates
  let tentativeG := jvAdd (jsOr0 (aget st.gScore currentId)) (Jv.q nb.weight)
  let curG := match aget st.gScore neighborId with
    | some Jv.inf => "∞"
    | some (Jv.q v) => qToFixed1 v
    | none => "undefined"
  let checkStep : AlgorithmStep := {
    stepNumber := st.steps.length + 1,
    description := "Check neighbor " ++ nlbl ++ ". Tentative g: " ++
      jvToFixed1 tentativeG ++ ", Current g: " ++ curG,
    pseudocodeLine := 9,
    nodeStates := st.nodeStates,
    edgeStates := es,
    dataStructures := [("scores", DSVal.obj (formatScores g st.gScore st.fScore))],
    currentOperation := "Check " ++ nlbl,
    metrics := m }
  let st := { st with metrics := m, edgeStates := es, steps := st.steps ++ [checkStep] }
  if jvLtB tentativeG (jsOrInf (aget st.gScore neighborId)) then
    let cameFrom := aset st.cameFrom neighborId currentId
    let gScore := aset st.gScore neighborId tentativeG
    let fScore := aset st.fScore neighborId (jvAdd tentativeG (aStarH g endNode heur neighborId))
    let inOpen := st.openSet.any (fun it => it.value == neighborId)
    let openSet :=
      if inOpen then st.openSet
      else pqEnqueue st.openSet neighborId (jsBangJv (aget fScore neighborId))
    let ns :=
      if inOpen then st.nodeStates
      else aset st.nodeStates neighborId NodeState.visiting
    let updStep : AlgorithmStep := {
      stepNumber := st.steps.length + 1,
      description := "Update " ++ nlbl ++ ": g=" ++ jvToFixed1 tentativeG ++
        ", f=" ++ optToFixed1 (aget fScore neighborId),
      pseudocodeLine := 13,
      nodeStates := ns,
      edgeStates := st.edgeStates,
      dataStructures := [("scores", DSVal.obj (formatScores g gScore fScore)),
        ("openSet", DSVal.arr (openSet.map (fun it => mapLabel g it.value)))],
      currentOperation := "Update " ++ nlbl,
      metrics := st.metrics }
    { st with
      cameFrom := cameFrom
      gScore := gScore
      fScore := fScore
      openSet := openSet
      nodeStates := ns
      steps := st.steps ++ [updStep] }
  else
    match edge with
    | some e => { st with edgeStates := aset st.edgeStates e.id EdgeState.rejected }
    | none => st

/-- The A* while-loop (astar.ts lines 131-232), with fuel. -/
def aStarLoop (g : Graph) (adjList : AList (List AdjEntry)) (endNode : Node)
    (endNodeId : String) (heur : HeurKind) : Nat → AStarSt → AStarSt
  | 0, st => st
  | fuel + 1, st =>
    if st.done then st else
    match st.openSet with
    | [] => st
    | item :: rest =>
      let currentId := item.value
      let clbl := jsLabel g currentId
      let m := { st.metrics with operationsCount := st.metrics.operationsCount + 1 }
      let ns := aset st.nodeStates currentId NodeState.current
      let selStep : AlgorithmStep := {
        stepNumber := st.steps.length + 1,
        description := "Select " ++ clbl ++ " with lowest f-score: " ++
          optToFixed1 (aget st.fScore currentId),
        pseudocodeLine := 5,
        nodeStates := ns,
        edgeStates := st.edgeStates,
        dataStructures := [("scores", DSVal.obj (formatScores g st.gScore st.fScore)),
          ("openSet", DSVal.arr (rest.map (fun it => mapLabel g it.value)))],
        currentOperation := "Process " ++ clbl,
        metrics := m }
      let st := { st with
        openSet := rest
        metrics := m
        nodeStates := ns
        steps := st.steps ++ [selStep] }
      if currentId == endNodeId then
        let path := walkCameFrom st.cameFrom (g.nodes.length + 1) (some currentId) []
        let ns := path.foldl (fun acc id => aset acc id NodeState.in_solution) st.nodeStates
        let es := (path.zip path.tail).foldl
          (fun acc pr =>
            match getEdgeBetween g pr.1 pr.2 with
            | some e => aset acc e.id EdgeState.in_solution
            | none => acc)
          st.edgeStates
        let pathStep : AlgorithmStep := {
          stepNumber := st.steps.length + 1,
          description := "Goal reached! Path: " ++
            String.intercalate " → " (path.map (jsLabel g)) ++ ". Cost: " ++
            optToFixed1 (aget st.gScore endNodeId),
          pseudocodeLine := 6,
          nodeStates := ns,
          edgeStates := es,
          dataStructures := [("path", DSVal.arr (path.map (mapLabel g)))],
          currentOperation := "Path Found",
          metrics := st.metrics }
        { st with
          nodeStates := ns
          edgeStates := es
          steps := st.steps ++ [pathStep]
          done := true }
      else
        let closedSet := st.closedSet ++ [currentId]
        let ns := aset st.nodeStates currentId NodeState.visited
        let m := { st.metrics with nodesVisited := st.metrics.nodesVisited + 1 }
        let st := { st with closedSet := closedSet, nodeStates := ns, metrics := m }
        let neighbors := (aget adjList currentId).getD []
        let st := neighbors.foldl (aStarVisit g endNode heur currentId) st
        aStarLoop g adjList endNode endNodeId heur fuel st

/-- src/algorithms/shortestPath/astar.ts, executeAStar. -/
def executeAStar (g : Graph) (params : AlgorithmParams) : List AlgorithmStep :=
  if strFalsy params.startNodeId || strFalsy params.endNodeId then [] else
  match params.startNodeId, params.endNodeId with
  | some startNodeId, some endNodeId =>
    match getNode g startNodeId, getNode g endNodeId with
    | some startNode, some endNode =>
      let heur := params.heuristic.getD HeurKind.euclidean
      let adjList := toAdjacencyList g
      let gScore := g.nodes.foldl (fun m n => aset m n.id Jv.inf) []
      let fScore := g.nodes.foldl (fun m n => aset m n.id Jv.inf) []
      let gScore := aset gScore startNodeId (Jv.q 0)
      let fScore := aset fScore startNodeId (aStarH g endNode heur startNodeId)
      let openSet := pqEnqueue [] startNodeId (jsBangJv (aget fScore startNodeId))
      let nodeStates := aset (initNodeStates g) startNodeId NodeState.visiting
      let step1 : AlgorithmStep := {
        stepNumber := 1,
        description := "Initialize A*. Start: " ++ startNode.label ++ ", Goal: " ++
          endNode.label ++ ". Using " ++ heurName heur ++ " heuristic.",
        pseudocodeLine := 1,
        nodeStates := nodeStates,
        edgeStates := initEdgeStates g,
        dataStructures := [("scores", DSVal.obj (formatScores g gScore fScore)),
          ("openSet", DSVal.arr (openSet.map (fun it => mapLabel g it.value)))],
        currentOperation := "Initialize",
        metrics := zeroMetrics }
      let st : AStarSt := {
        openSet := openSet
        gScore := gScore
        fScore := fScore
        cameFrom := []
        closedSet := []
        nodeStates := nodeStates
        edgeStates := initEdgeStates g
        metrics := zeroMetrics
        steps := [step1]
        done := false }
      let st := aStarLoop g adjList endNode endNodeId heur (stdFuel g) st
      if st.done then st.steps
      else
        let npStep : AlgorithmStep := {
          stepNumber := st.steps.length + 1,
          description := "No path found from " ++ startNode.label ++ " to " ++
            endNode.label ++ ".",
          pseudocodeLine := 4,
          nodeStates := st.nodeStates,
          edgeStates := st.edgeStates,
          dataStructures := [],
          currentOperation := "No Path",
          metrics := st.metrics }
        st.steps ++ [npStep]
    | _, _ => []
  | _, _ => []

/-! ## Kruskal (src/algorithms/mst/kruskal.ts)

The UnionFind maps are modelled with `Option String` keys and values: the JS
`find` may be fed `undefined` (the `!` assertion on a missing key) and a JS
`Map` accepts `undefined` both as key and as value, so the embedding keeps
both representable. -/

/-- Union-Find backing state. -/
structure UF where
  parent : List (Option String × Option String)
  rank : List (Option String × Nat)
deriving Repr

/-- JS `Map.get` as seen by the UnionFind code (`undefined` when missing). -/
def jsGetP (m : List (Option String × Option String)) (k : Option String) : Option String :=
  (aget m k).getD none

/-- `UnionFind.find` with path compression (kruskal.ts lines 252-257). -/
def ufFind : Nat → UF → Option String → UF × Option String
  | 0, uf, _ => (uf, none)
  | fuel + 1, uf, x =>
    let px := jsGetP uf.parent x
    if px ≠ x then
      let r := ufFind fuel uf px
      let uf2 : UF := { r.1 with parent := aset r.1.parent x r.2 }
      (uf2, jsGetP uf2.parent x)
    else (uf, px)

/-- The idiom `this.rank.get(r) || 0`. -/
def ufRankOf (uf : UF) (o : Option String) : Nat :=
  (aget uf.rank o).getD 0

/-- `UnionFind.union` with union by rank (kruskal.ts lines 259-278). -/
def ufUnion (uf : UF) (x y : String) : UF × Bool :=
  let fuelX := uf.parent.length + 2
  let r1 := ufFind fuelX uf (some x)
  let fuelY := r1.1.parent.length + 2
  let r2 := ufFind fuelY r1.1 (some y)
  let uf2 := r2.1
  let rootX := r1.2
  let rootY := r2.2
  if rootX == rootY then (uf2, false)
  else
    let rankX := ufRankOf uf2 rootX
    let rankY := ufRankOf uf2 rootY
    if rankX < rankY then ({ uf2 with parent := aset uf2.parent rootX rootY }, true)
    else if rankY < rankX then ({ uf2 with parent := aset uf2.parent rootY rootX }, true)
    else
      ({ parent := aset uf2.parent rootY rootX, rank := aset uf2.rank rootX (rankX + 1) }, true)

/-- Fresh UnionFind over the node ids. -/
def ufInit (ids : List String) : UF :=
  ids.foldl (fun uf id =>
    { parent := aset uf.parent (some id) (some id), rank := aset uf.rank (some id) 0 })
    { parent := [], rank := [] }

/-- Mutable state of the Kruskal run. -/
structure KruSt where
  uf : UF
  mstEdges : List String
  totalWeight : ℚ
  nodeStates : AList NodeState
  edgeStates : AList EdgeState
  metrics : AlgorithmMetrics
  steps : List AlgorithmStep
deriving Repr

/-- The `mstEdges` display list. -/
def kruMstDS (g : Graph) (mstEdges : List String) : List String :=
  mstEdges.map (fun id =>
    match g.edges.find? (fun e => e.id == id) with
    | some e => jsLabel g e.source ++ "-" ++ jsLabel g e.target
    | none => "undefined")

/-- Body of the Kruskal edge loop (kruskal.ts lines 329-399). -/
def kruskalEdge (g : Graph) (st : KruSt) (edge : Edge) : KruSt :=
  let slbl := jsLabel g edge.source
  let tlbl := jsLabel g edge.target
  let m := { st.metrics with
    edgesExamined := st.metrics.edgesExamined + 1
    comparisons := st.metrics.comparisons + 1
    operationsCount := st.metrics.operationsCount + 1 }
  let es := aset st.edgeStates edge.id EdgeState.examining
  let considerStep : AlgorithmStep := {
    stepNumber := st.steps.length + 1,
    description := "Consider edge " ++ slbl ++ "-" ++ tlbl ++ " (weight: " ++
      jsNumToString edge.weight ++ ")",
    pseudocodeLine := 4,
    nodeStates := st.nodeStates,
    edgeStates := es,
    dataStructures := [("mstEdges", DSVal.ss (kruMstDS g st.mstEdges)),
      ("totalWeight", DSVal.n st.totalWeight)],
    currentOperation := "Check edge",
    metrics := m }
  let st := { st with metrics := m, edgeStates := es, steps := st.steps ++ [considerStep] }
  let ur := ufUnion st.uf edge.source edge.target
  let st := { st with uf := ur.1 }
  if ur.2 then
    let mstEdges := st.mstEdges ++ [edge.id]
    let totalWeight := st.totalWeight + edge.weight
    let es := aset st.edgeStates edge.id EdgeState.in_solution
    let ns := aset (aset st.nodeStates edge.source NodeState.in_solution)
      edge.target NodeState.in_solution
    let m := { st.metrics with nodesVisited := st.metrics.nodesVisited + 2 }
    let addStep : AlgorithmStep := {
      stepNumber := st.steps.length + 1,
      description := "Add edge " ++ slbl ++ "-" ++ tlbl ++ " to MST. No cycle created.",
      pseudocodeLine := 6,
      nodeStates := ns,
      edgeStates := es,
      dataStructures := [("mstEdges", DSVal.ss (kruMstDS g mstEdges)),
        ("totalWeight", DSVal.n totalWeight)],
      currentOperation := "Add to MST",
      metrics := m }
    { st with
      mstEdges := mstEdges
      totalWeight := totalWeight
      edgeStates := es
      nodeStates := ns
      metrics := m
      steps := st.steps ++ [addStep] }
  else
    let es := aset st.edgeStates edge.id EdgeState.rejected
    let rejStep : AlgorithmStep := {
      stepNumber := st.steps.length + 1,
      description := "Reject edge " ++ slbl ++ "-" ++ tlbl ++ ". Would create cycle.",
      pseudocodeLine := 5,
      nodeStates := st.nodeStates,
      edgeStates := es,
      dataStructures := [("mstEdges", DSVal.ss (kruMstDS g st.mstEdges)),
        ("totalWeight", DSVal.n st.totalWeight)],
      currentOperation := "Reject edge",
      metrics := st.metrics }
    { st with edgeStates := es, steps := st.steps ++ [rejStep] }

/-- The sorted-edge loop with the early break once `|MST| = |V| - 1`. -/
def kruskalEdges (g : Graph) : List Edge → KruSt → KruSt
  | [], st => st
  | edge :: rest, st =>
    let st := kruskalEdge g st edge
    if (st.mstEdges.length : Int) == (g.nodes.length : Int) - 1 then st
    else kruskalEdges g rest st

/-- src/algorithms/mst/kruskal.ts, executeKruskal. -/
def executeKruskal (g : Graph) (_params : AlgorithmParams) : List AlgorithmStep :=
  let sortedEdges := g.edges.mergeSort (fun a b => decide (a.weight ≤ b.weight))
  let sortStep : AlgorithmStep := {
    stepNumber := 1,
    description := "Sort " ++ toString g.edges.length ++ " edges by weight.",
    pseudocodeLine := 1,
    nodeStates := initNodeStates g,
    edgeStates := initEdgeStates g,
    dataStructures := [("sortedEdges", DSVal.ss (sortedEdges.map (fun e =>
      jsLabel g e.source ++ "-" ++ jsLabel g e.target ++ "(" ++
        jsNumToString e.weight ++ ")")))],
    currentOperation := "Sort edges",
    metrics := zeroMetrics }
  let st : KruSt := {
    uf := ufInit (g.nodes.map (fun n => n.id))
    mstEdges := []
    totalWeight := 0
    nodeStates := initNodeStates g
    edgeStates := initEdgeStates g
    metrics := zeroMetrics
    steps := [sortStep] }
  let st := kruskalEdges g sortedEdges st
  let finalStep : AlgorithmStep := {
    stepNumber := st.steps.length + 1,
    description := "Kruskal\x27s complete. MST has " ++ toString st.mstEdges.length ++
      " edges with total weight: " ++ jsNumToString st.totalWeight,
    pseudocodeLine := 8,
    nodeStates := st.nodeStates,
    edgeStates := st.edgeStates,
    dataStructures := [("totalWeight", DSVal.n st.totalWeight),
      ("edgeCount", DSVal.n st.mstEdges.length)],
    currentOperation := "Complete",
    metrics := st.metrics }
  st.steps ++ [finalStep]

/-! ## Prim (src/algorithms/mst/prim.ts) -/

/-- Mutable state of the Prim run. -/
structure PrimSt where
  pq : List PQItem
  keyM : AList Jv
  parentM : AList (Option String)
  inMST : List String
  totalWeight : ℚ
  nodeStates : AList NodeState
  edgeStates : AList EdgeState
  metrics : AlgorithmMetrics
  steps : List AlgorithmStep
deriving Repr

/-- The `keys` display table (prim.ts formatKeys helper). -/
def formatKeys (g : Graph) (keyM : AList Jv) : List (String × String) :=
  g.nodes.map (fun n =>
    (n.label,
      match aget keyM n.id with
      | some Jv.inf => "∞"
      | some (Jv.q v) => jsNumToString v
      | none => "undefined"))

/-- Body of the Prim neighbor loop (prim.ts lines 570-612). -/
def primVisit (g : Graph) (currentId : String) (st : PrimSt) (nb : AdjEntry) : PrimSt :=
  let neighborId := nb.nodeId
  if st.inMST.contains neighborId then st else
  let nlbl := jsLabel g neighborId
  let clbl := jsLabel g currentId
  let edge := getEdgeBetween g currentId neighborId
  let m := { st.metrics with
    edgesExamined := st.metrics.edgesExamined + 1
    comparisons := st.metrics.comparisons + 1 }
  let es := match edge with
    | some e => aset st.edgeStates e.id EdgeState.examining
    | none => st.edgeStates
  let curKeyStr := match aget st.keyM neighborId with
    | some Jv.inf => "∞"
    | some (Jv.q v) => jsNumToString v
    | none => "undefined"
  let checkStep : AlgorithmStep := {
    stepNumber := st.steps.length + 1,
    description := "Check edge " ++ clbl ++ "-" ++ nlbl ++ " (weight: " ++
      jsNumToString nb.weight ++ "). Current key[" ++ nlbl ++ "] = " ++ curKeyStr,
    pseudocodeLine := 7,
    nodeStates := st.nodeStates,
    edgeStates := es,
    dataStructures := [("keys", DSVal.obj (formatKeys g st.keyM))],
    currentOperation := "Check " ++ nlbl,
    metrics := m }
  let st := { st with metrics := m, edgeStates := es, steps := st.steps ++ [checkStep] }
  if jvLtB (Jv.q nb.weight) (jsOrInf (aget st.keyM neighborId)) then
    let keyM := aset st.keyM neighborId (Jv.q nb.weight)
    let parentM := aset st.parentM neighborId (some currentId)
    let pq := pqEnqueueUpd st.pq neighborId (Jv.q nb.weight)
    let ns := aset st.nodeStates neighborId NodeState.visiting
    let updStep : AlgorithmStep := {
      stepNumber := st.steps.length + 1,
      description := "Update key[" ++ nlbl ++ "] = " ++ jsNumToString nb.weight ++
        ", parent = " ++ clbl,
      pseudocodeLine := 9,
      nodeStates := ns,
      edgeStates := st.edgeStates,
      dataStructures := [("keys", DSVal.obj (formatKeys g keyM))],
      currentOperation := "Update " ++ nlbl,
      metrics := st.metrics }
    { st with
      keyM := keyM
      parentM := parentM
      pq := pq
      nodeStates := ns
      steps := st.steps ++ [updStep] }
  else
    match edge with
    | some e =>
      if aget st.edgeStates e.id != some EdgeState.in_solution then
        { st with edgeStates := aset st.edgeStates e.id EdgeState.rejected }
      else st
    | none => st

/-- Processing of one dequeued node once past the stale-entry check
(prim.ts lines 543-612). -/
def primProcess (g : Graph) (adjList : AList (List AdjEntry)) (currentId : String)
    (st : PrimSt) : PrimSt :=
  let clbl := jsLabel g currentId
  let inMST := st.inMST ++ [currentId]
  let ns := aset st.nodeStates currentId NodeState.in_solution
  let m := { st.metrics with nodesVisited := st.metrics.nodesVisited + 1 }
  let parentOpt : Option String :=
    match aget st.parentM currentId with
    | some (some p) => if p == "" then none else some p
    | _ => none
  let esw : AList EdgeState × ℚ :=
    match parentOpt with
    | some p =>
      match getEdgeBetween g p currentId with
      | some e => (aset st.edgeStates e.id EdgeState.in_solution, st.totalWeight + e.weight)
      | none => (st.edgeStates, st.totalWeight)
    | none => (st.edgeStates, st.totalWeight)
  let viaStr := match parentOpt with
    | some p => " via edge from " ++ jsLabel g p
    | none => ""
  let addStep : AlgorithmStep := {
    stepNumber := st.steps.length + 1,
    description := "Add " ++ clbl ++ " to MST" ++ viaStr ++ ".",
    pseudocodeLine := 5,
    nodeStates := ns,
    edgeStates := esw.1,
    dataStructures := [("keys", DSVal.obj (formatKeys g st.keyM)),
      ("totalWeight", DSVal.n esw.2), ("mstSize", DSVal.n inMST.length)],
    currentOperation := "Add " ++ clbl,
    metrics := m }
  let st := { st with
    inMST := inMST
    nodeStates := ns
    metrics := m
    edgeStates := esw.1
    totalWeight := esw.2
    steps := st.steps ++ [addStep] }
  let neighbors := (aget adjList currentId).getD []
  neighbors.foldl (primVisit g currentId) st

/-- The Prim while-loop (prim.ts lines 535-613), with fuel. -/
def primLoop (g : Graph) (adjList : AList (List AdjEntry)) : Nat → PrimSt → PrimSt
  | 0, st => st
  | fuel + 1, st =>
    match st.pq with
    | [] => st
    | item :: rest =>
      let currentId := item.value
      let m := { st.metrics with operationsCount := st.metrics.operationsCount + 1 }
      let st := { st with pq := rest, metrics := m }
      if st.inMST.contains currentId then primLoop g adjList fuel st
      else primLoop g adjList fuel (primProcess g adjList currentId st)

/-- The Prim loop with the dequeue-time stale-entry check removed; used to
state that the skip is never taken on any run. -/
def primLoopNoSkip (g : Graph) (adjList : AList (List AdjEntry)) : Nat → PrimSt → PrimSt
  | 0, st => st
  | fuel + 1, st =>
    match st.pq with
    | [] => st
    | item :: rest =>
      let currentId := item.value
      let m := { st.metrics with operationsCount := st.metrics.operationsCount + 1 }
      let st := { st with pq := rest, metrics := m }
      primLoopNoSkip g adjList fuel (primProcess g adjList currentId st)

/-- Shared initial state of a Prim run for a truthy start id. -/
def primInit (g : Graph) (startNodeId : String) : PrimSt :=
  let keyM := g.nodes.foldl
    (fun m n => aset m n.id (if n.id == startNodeId then Jv.q 0 else Jv.inf)) []
  let parentM : AList (Option String) := g.nodes.foldl (fun m n => aset m n.id none) []
  let pq := g.nodes.foldl
    (fun q n => pqEnqueueUpd q n.id (if n.id == startNodeId then Jv.q 0 else Jv.inf)) []
  let slbl := jsLabel g startNodeId
  let step1 : AlgorithmStep := {
    stepNumber := 1,
    description := "Initialize Prim\x27s from " ++ slbl ++ ". Set key[" ++ slbl ++ "] = 0.",
    pseudocodeLine := 1,
    nodeStates := initNodeStates g,
    edgeStates := initEdgeStates g,
    dataStructures := [("keys", DSVal.obj (formatKeys g keyM))],
    currentOperation := "Initialize",
    metrics := zeroMetrics }
  { pq := pq
    keyM := keyM
    parentM := parentM
    inMST := []
    totalWeight := 0
    nodeStates := initNodeStates g
    edgeStates := initEdgeStates g
    metrics := zeroMetrics
    steps := [step1] }

/-- Final summary step of a Prim run. -/
def primFinal (st : PrimSt) : List AlgorithmStep :=
  let finalStep : AlgorithmStep := {
    stepNumber := st.steps.length + 1,
    description := "Prim\x27s complete. MST has " ++ toString st.inMST.length ++
      " nodes with total weight: " ++ jsNumToString st.totalWeight,
    pseudocodeLine := 9,
    nodeStates := st.nodeStates,
    edgeStates := st.edgeStates,
    dataStructures := [("totalWeight", DSVal.n st.totalWeight),
      ("nodeCount", DSVal.n st.inMST.length)],
    currentOperation := "Complete",
    metrics := st.metrics }
  st.steps ++ [finalStep]

/-- src/algorithms/mst/prim.ts, executePrim.  Note that the guard checks only
that `startNodeId` is truthy, not that a node with that id exists. -/
def executePrim (g : Graph) (params : AlgorithmParams) : List AlgorithmStep :=
  if strFalsy params.startNodeId then [] else
  match params.startNodeId with
  | none => []
  | some startNodeId =>
    primFinal (primLoop g (toAdjacencyList g) (stdFuel g) (primInit g startNodeId))

/-- `executePrim` with `primLoopNoSkip` in place of `primLoop`. -/
def executePrimNoSkip (g : Graph) (params : AlgorithmParams) : List AlgorithmStep :=
  if strFalsy params.startNodeId then [] else
  match params.startNodeId with
  | none => []
  | some startNodeId =>
    primFinal (primLoopNoSkip g (toAdjacencyList g) (stdFuel g) (primInit g startNodeId))

/-! ## Topological sort (src/algorithms/other/topological.ts) -/

/-- Mutable state of the topological-sort run. -/
structure TopoSt where
  queue : List String
  inDegree : AList ℚ
  result : List String
  nodeStates : AList NodeState
  edgeStates : AList EdgeState
  metrics : AlgorithmMetrics
  steps : List AlgorithmStep
deriving Repr

/-- The `inDegrees` display table (topological.ts formatInDegrees helper). -/
def formatInDegrees (g : Graph) (inDegree : AList ℚ) : List (String × ℚ) :=
  g.nodes.map (fun n => (n.label, (aget inDegree n.id).getD 0))

/-- The `queue` / `result` display lists. -/
def topoQR (g : Graph) (queue result : List String) : List (String × DSVal) :=
  [("queue", DSVal.arr (queue.map (mapLabel g))),
   ("result", DSVal.arr (result.map (mapLabel g)))]

/-- Body of the outgoing-edge loop (topological.ts lines 124-168). -/
def topoEdge (g : Graph) (st : TopoSt) (edge : Edge) : TopoSt :=
  let neighborId := edge.target
  let nlbl := jsLabel g neighborId
  let m := { st.metrics with edgesExamined := st.metrics.edgesExamined + 1 }
  let es := aset st.edgeStates edge.id EdgeState.in_solution
  let newDegree := (aget st.inDegree neighborId).getD 0 - 1
  let inDegree := aset st.inDegree neighborId newDegree
  let decStep : AlgorithmStep := {
    stepNumber := st.steps.length + 1,
    description := "Decrement in-degree of " ++ nlbl ++ " to " ++
      jsNumToString newDegree ++ ".",
    pseudocodeLine := 8,
    nodeStates := st.nodeStates,
    edgeStates := es,
    dataStructures := [("inDegrees", DSVal.objN (formatInDegrees g inDegree))] ++
      topoQR g st.queue st.result,
    currentOperation := "Update " ++ nlbl,
    metrics := m }
  let st := { st with
    metrics := m
    edgeStates := es
    inDegree := inDegree
    steps := st.steps ++ [decStep] }
  if newDegree == 0 then
    let queue := st.queue ++ [neighborId]
    let ns := aset st.nodeStates neighborId NodeState.visiting
    let enqStep : AlgorithmStep := {
      stepNumber := st.steps.length + 1,
      description := nlbl ++ " has in-degree 0. Add to queue.",
      pseudocodeLine := 9,
      nodeStates := ns,
      edgeStates := st.edgeStates,
      dataStructures := [("inDegrees", DSVal.objN (formatInDegrees g st.inDegree))] ++
        topoQR g queue st.result,
      currentOperation := "Enqueue " ++ nlbl,
      metrics := st.metrics }
    { st with queue := queue, nodeStates := ns, steps := st.steps ++ [enqStep] }
  else st

/-- The Kahn while-loop (topological.ts lines 99-171), with fuel. -/
def topoLoop (g : Graph) : Nat → TopoSt → TopoSt
  | 0, st => st
  | fuel + 1, st =>
    match st.queue with
    | [] => st
    | currentId :: rest =>
      let clbl := jsLabel g currentId
      let result := st.result ++ [currentId]
      let m := { st.metrics with
        nodesVisited := st.metrics.nodesVisited + 1
        operationsCount := st.metrics.operationsCount + 1 }
      let ns := aset st.nodeStates currentId NodeState.current
      let dqStep : AlgorithmStep := {
        stepNumber := st.steps.length + 1,
        description := "Dequeue " ++ clbl ++ ". Add to result.",
        pseudocodeLine := 5,
        nodeStates := ns,
        edgeStates := st.edgeStates,
        dataStructures := [("inDegrees", DSVal.objN (formatInDegrees g st.inDegree))] ++
          topoQR g rest result,
        currentOperation := "Process " ++ clbl,
        metrics := m }
      let st := { st with
        queue := rest
        result := result
        metrics := m
        nodeStates := ns
        steps := st.steps ++ [dqStep] }
      let outgoing := g.edges.filter (fun e => e.source == currentId)
      let st := outgoing.foldl (topoEdge g) st
      topoLoop g fuel
        { st with nodeStates := aset st.nodeStates currentId NodeState.in_solution }

/-- src/algorithms/other/topological.ts, executeTopologicalSort. -/
def executeTopologicalSort (g : Graph) (_params : AlgorithmParams) : List AlgorithmStep :=
  if !g.directed then [] else
  let inDegree := g.edges.foldl
    (fun m e => aset m e.target ((aget m e.target).getD 0 + 1))
    (g.nodes.foldl (fun m n => aset m n.id (0 : ℚ)) [])
  let calcStep : AlgorithmStep := {
    stepNumber := 1,
    description := "Calculate in-degree for each vertex.",
    pseudocodeLine := 1,
    nodeStates := initNodeStates g,
    edgeStates := initEdgeStates g,
    dataStructures := [("inDegrees", DSVal.objN (formatInDegrees g inDegree))],
    currentOperation := "Calculate in-degrees",
    metrics := zeroMetrics }
  let qn := g.nodes.filter (fun n => aget inDegree n.id == some (0 : ℚ))
  let queue := qn.map (fun n => n.id)
  let nodeStates := qn.foldl (fun m n => aset m n.id NodeState.visiting) (initNodeStates g)
  let initStep : AlgorithmStep := {
    stepNumber := 2,
    description := "Initialize queue with nodes having in-degree 0: " ++
      String.intercalate ", " (queue.map (jsLabel g)),
    pseudocodeLine := 2,
    nodeStates := nodeStates,
    edgeStates := initEdgeStates g,
    dataStructures := [("inDegrees", DSVal.objN (formatInDegrees g inDegree)),
      ("queue", DSVal.arr (queue.map (mapLabel g)))],
    currentOperation := "Initialize queue",
    metrics := zeroMetrics }
  let st : TopoSt := {
    queue := queue
    inDegree := inDegree
    result := []
    nodeStates := nodeStates
    edgeStates := initEdgeStates g
    metrics := zeroMetrics
    steps := [calcStep, initStep] }
  let st := topoLoop g (2 * g.nodes.length + 1) st
  if st.result.length < g.nodes.length then
    let cycStep : AlgorithmStep := {
      stepNumber := st.steps.length + 1,
      description := "Cycle detected! Only " ++ toString st.result.length ++ " of " ++
        toString g.nodes.length ++ " nodes processed.",
      pseudocodeLine := 10,
      nodeStates := st.nodeStates,
      edgeStates := st.edgeStates,
      dataStructures := [("result", DSVal.arr (st.result.map (mapLabel g)))],
      currentOperation := "Cycle Detected",
      metrics := st.metrics }
    st.steps ++ [cycStep]
  else
    let doneStep : AlgorithmStep := {
      stepNumber := st.steps.length + 1,
      description := "Topological sort complete: " ++
        String.intercalate " → " (st.result.map (jsLabel g)),
      pseudocodeLine := 10,
      nodeStates := st.nodeStates,
      edgeStates := st.edgeStates,
      dataStructures := [("result", DSVal.arr (st.result.map (mapLabel g)))],
      currentOperation := "Complete",
      metrics := st.metrics }
    st.steps ++ [doneStep]

/-! ## Cycle detection (src/algorithms/other/cycleDetection.ts) -/

/-- DFS 3-coloring. -/
inductive Color where
  | white
  | gray
  | black
deriving DecidableEq, Repr

/-- Enum string value of a color. -/
def colorStr : Color → String
  | Color.white => "white"
  | Color.gray => "gray"
  | Color.black => "black"

/-- `Object.fromEntries` / repeated object assignment: first-occurrence key
position, last value wins. -/
def jsObject (l : List (String × String)) : List (String × String) :=
  l.foldl (fun acc p => aset acc p.1 p.2) []

/-- The `colors` display table. -/
def colorsDS (g : Graph) (color : AList Color) : List (String × String) :=
  jsObject (color.map (fun p => (jsLabel g p.1, colorStr p.2)))

/-- Mutable state of the cycle-detection run. -/
structure CycSt where
  color : AList Color
  cycleFound : Bool
  cycleEdge : Option (String × String)
  nodeStates : AList NodeState
  edgeStates : AList EdgeState
  metrics : AlgorithmMetrics
  steps : List AlgorithmStep
deriving Repr

/-- The recursive `dfs` of cycleDetection.ts (lines 74-162), returning whether
a cycle was found; the inner fold mirrors the neighbor loop with its early
`return true`. -/
def cycDfs (g : Graph) (adjList : AList (List AdjEntry)) :
    Nat → CycSt → String → CycSt × Bool
  | 0, st, _ => (st, false)
  | fuel + 1, st, nodeId =>
    let lbl := jsLabel g nodeId
    let color := aset st.color nodeId Color.gray
    let ns := aset st.nodeStates nodeId NodeState.visiting
    let m := { st.metrics with
      nodesVisited := st.metrics.nodesVisited + 1
      operationsCount := st.metrics.operationsCount + 1 }
    let visitStep : AlgorithmStep := {
      stepNumber := st.steps.length + 1,
      description := "Visit " ++ lbl ++ ". Color GRAY (in current path).",
      pseudocodeLine := 9,
      nodeStates := ns,
      edgeStates := st.edgeStates,
      dataStructures := [("colors", DSVal.obj (colorsDS g color))],
      currentOperation := "Visit " ++ lbl,
      metrics := m }
    let st := { st with
      color := color
      nodeStates := ns
      metrics := m
      steps := st.steps ++ [visitStep] }
    let neighbors := (aget adjList nodeId).getD []
    let r := neighbors.foldl
      (fun (acc : CycSt × Bool) nb =>
        if acc.2 then acc else
        let st := acc.1
        let neighborId := nb.nodeId
        let nlbl := jsLabel g neighborId
        let edge := getEdgeBetween g nodeId neighborId
        let m := { st.metrics with
          edgesExamined := st.metrics.edgesExamined + 1
          comparisons := st.metrics.comparisons + 1 }
        let es := match edge with
          | some e => aset st.edgeStates e.id EdgeState.examining
          | none => st.edgeStates
        let neighborColor := aget st.color neighborId
        let ncStr := match neighborColor with
          | some c => colorStr c
          | none => "undefined"
        let checkStep : AlgorithmStep := {
          stepNumber := st.steps.length + 1,
          description := "Check neighbor " ++ nlbl ++ ". Color: " ++ ncStr ++ ".",
          pseudocodeLine := 10,
          nodeStates := st.nodeStates,
          edgeStates := es,
          dataStructures := [("colors", DSVal.obj (colorsDS g st.color))],
          currentOperation := "Check " ++ nlbl,
          metrics := m }
        let st := { st with metrics := m, edgeStates := es, steps := st.steps ++ [checkStep] }
        if neighborColor == some Color.gray then
          let es := match edge with
            | some e => aset st.edgeStates e.id EdgeState.in_solution
            | none => st.edgeStates
          let ns := aset st.nodeStates neighborId NodeState.in_solution
          let cycStep : AlgorithmStep := {
            stepNumber := st.steps.length + 1,
            description := "CYCLE DETECTED! Back edge from " ++ lbl ++ " to " ++
              nlbl ++ " (GRAY node).",
            pseudocodeLine := 11,
            nodeStates := ns,
            edgeStates := es,
            dataStructures := [("cycleEdge", DSVal.s (lbl ++ " → " ++ nlbl))],
            currentOperation := "Cycle Found",
            metrics := st.metrics }
          ({ st with
            cycleFound := true
            cycleEdge := some (nodeId, neighborId)
            edgeStates := es
            nodeStates := ns
            steps := st.steps ++ [cycStep] }, true)
        else if neighborColor == some Color.white then
          let es := match edge with
            | some e => aset st.edgeStates e.id EdgeState.in_solution
            | none => st.edgeStates
          cycDfs g adjList fuel { st with edgeStates := es } neighborId
        else
          let es := match edge with
            | some e => aset st.edgeStates e.id EdgeState.rejected
            | none => st.edgeStates
          ({ st with edgeStates := es }, false))
      (st, false)
    if r.2 then r
    else
      let st := r.1
      let color := aset st.color nodeId Color.black
      let ns := aset st.nodeStates nodeId NodeState.visited
      let finStep : AlgorithmStep := {
        stepNumber := st.steps.length + 1,
        description := "Finish " ++ lbl ++ ". Color BLACK (completely processed).",
        pseudocodeLine := 13,
        nodeStates := ns,
        edgeStates := st.edgeStates,
        dataStructures := [("colors", DSVal.obj (colorsDS g color))],
        currentOperation := "Finish " ++ lbl,
        metrics := st.metrics }
      ({ st with
        color := color
        nodeStates := ns
        steps := st.steps ++ [finStep] }, false)

/-- The outer root loop of cycleDetection.ts (lines 164-181), with its break
once a cycle has been found. -/
def cycOuter (g : Graph) (adjList : AList (List AdjEntry)) :
    List Node → CycSt → CycSt
  | [], st => st
  | node :: rest, st =>
    if aget st.color node.id == some Color.white then
      let startStep : AlgorithmStep := {
        stepNumber := st.steps.length + 1,
        description := "Start DFS from unvisited node " ++ node.label ++ ".",
        pseudocodeLine := 3,
        nodeStates := st.nodeStates,
        edgeStates := st.edgeStates,
        dataStructures := [("colors", DSVal.obj (colorsDS g st.color))],
        currentOperation := "Start from " ++ node.label,
        metrics := st.metrics }
      let st := { st with steps := st.steps ++ [startStep] }
      let r := cycDfs g adjList (g.nodes.length + 1) st node.id
      if r.2 then r.1 else cycOuter g adjList rest r.1
    else cycOuter g adjList rest st

/-- src/algorithms/other/cycleDetection.ts, executeCycleDetection. -/
def executeCycleDetection (g : Graph) (_params : AlgorithmParams) : List AlgorithmStep :=
  let color := g.nodes.foldl (fun m n => aset m n.id Color.white) []
  let initStep : AlgorithmStep := {
    stepNumber := 1,
    description := "Initialize: Color all vertices WHITE.",
    pseudocodeLine := 1,
    nodeStates := initNodeStates g,
    edgeStates := initEdgeStates g,
    dataStructures := [("colors", DSVal.obj (colorsDS g color))],
    currentOperation := "Initialize",
    metrics := zeroMetrics }
  let st : CycSt := {
    color := color
    cycleFound := false
    cycleEdge := none
    nodeStates := initNodeStates g
    edgeStates := initEdgeStates g
    metrics := zeroMetrics
    steps := [initStep] }
  let st := cycOuter g (toAdjacencyList g) g.nodes st
  if st.cycleFound then
    let ce := st.cycleEdge.getD ("", "")
    let finStep : AlgorithmStep := {
      stepNumber := st.steps.length + 1,
      description := "Cycle detection complete. CYCLE FOUND via edge " ++
        jsLabel g ce.1 ++ " → " ++ jsLabel g ce.2,
      pseudocodeLine := 5,
      nodeStates := st.nodeStates,
      edgeStates := st.edgeStates,
      dataStructures := [("hasCycle", DSVal.b true)],
      currentOperation := "Complete - Cycle Found",
      metrics := st.metrics }
    st.steps ++ [finStep]
  else
    let nsFinal := g.nodes.foldl (fun m n => aset m n.id NodeState.in_solution) st.nodeStates
    let finStep : AlgorithmStep := {
      stepNumber := st.steps.length + 1,
      description := "Cycle detection complete. NO CYCLE found. Graph is acyclic.",
      pseudocodeLine := 6,
      nodeStates := nsFinal,
      edgeStates := st.edgeStates,
      dataStructures := [("hasCycle", DSVal.b false)],
      currentOperation := "Complete - No Cycle",
      metrics := st.metrics }
    st.steps ++ [finStep]

/-! ## Connected components (src/algorithms/other/connectedComponents.ts) -/

/-- Palette mapping component id to a node state (COMPONENT_COLORS). -/
def componentColor (compId : Nat) : NodeState :=
  match compId % 5 with
  | 0 => NodeState.in_solution
  | 1 => NodeState.visiting
  | 2 => NodeState.visited
  | 3 => NodeState.in_path
  | _ => NodeState.current

/-- Mutable state of the connected-components run. -/
structure CCSt where
  visited : List String
  component : AList Nat
  nodeStates : AList NodeState
  edgeStates : AList EdgeState
  metrics : AlgorithmMetrics
  steps : List AlgorithmStep
deriving Repr

/-- The `components` display table (formatComponents helper): the source uses
`getNode(...)?.label || nodeId`, so an empty label falls back to the id. -/
def formatComponents (g : Graph) (component : AList Nat) : List (String × List String) :=
  component.foldl
    (fun acc p =>
      let key := "Component " ++ toString (p.2 + 1)
      let lbl := match mapLabel g p.1 with
        | some l => if l == "" then p.1 else l
        | none => p.1
      match aget acc key with
      | some l => aset acc key (l ++ [lbl])
      | none => aset acc key [lbl])
    []

/-- The recursive `dfs` of connectedComponents.ts (lines 71-106). -/
def ccDfs (g : Graph) (adjList : AList (List AdjEntry)) (compId : Nat) :
    Nat → CCSt → String → CCSt
  | 0, st, _ => st
  | fuel + 1, st, nodeId =>
    let lbl := jsLabel g nodeId
    let visited := st.visited ++ [nodeId]
    let component := aset st.component nodeId compId
    let ns := aset st.nodeStates nodeId (componentColor compId)
    let m := { st.metrics with
      nodesVisited := st.metrics.nodesVisited + 1
      operationsCount := st.metrics.operationsCount + 1 }
    let visitStep : AlgorithmStep := {
      stepNumber := st.steps.length + 1,
      description := "Visit " ++ lbl ++ ". Assign to component " ++
        toString (compId + 1) ++ ".",
      pseudocodeLine := 8,
      nodeStates := ns,
      edgeStates := st.edgeStates,
      dataStructures := [("componentCount", DSVal.n (compId + 1)),
        ("components", DSVal.objL (formatComponents g component))],
      currentOperation := "Visit " ++ lbl,
      metrics := m }
    let st := { st with
      visited := visited
      component := component
      nodeStates := ns
      metrics := m
      steps := st.steps ++ [visitStep] }
    let neighbors := (aget adjList nodeId).getD []
    neighbors.foldl
      (fun st nb =>
        let neighborId := nb.nodeId
        let edge := getEdgeBetween g nodeId neighborId
        let st := { st with metrics :=
          { st.metrics with edgesExamined := st.metrics.edgesExamined + 1 } }
        if st.visited.contains neighborId then st
        else
          let es := match edge with
            | some e => aset st.edgeStates e.id EdgeState.in_solution
            | none => st.edgeStates
          ccDfs g adjList compId fuel { st with edgeStates := es } neighborId)
      st

/-- The outer component loop of connectedComponents.ts (lines 118-134);
returns the final state together with the component counter. -/
def ccOuter (g : Graph) (adjList : AList (List AdjEntry)) :
    List Node → Nat → CCSt → CCSt × Nat
  | [], cid, st => (st, cid)
  | node :: rest, cid, st =>
    if st.visited.contains node.id then ccOuter g adjList rest cid st
    else
      let newStep : AlgorithmStep := {
        stepNumber := st.steps.length + 1,
        description := "Start new component " ++ toString (cid + 1) ++ " from " ++
          node.label ++ ".",
        pseudocodeLine := 4,
        nodeStates := st.nodeStates,
        edgeStates := st.edgeStates,
        dataStructures := [("componentCount", DSVal.n (cid + 1))],
        currentOperation := "New component from " ++ node.label,
        metrics := st.metrics }
      let st := { st with steps := st.steps ++ [newStep] }
      let st := ccDfs g adjList cid (g.nodes.length + 1) st node.id
      ccOuter g adjList rest (cid + 1) st

/-- src/algorithms/other/connectedComponents.ts, executeConnectedComponents. -/
def executeConnectedComponents (g : Graph) (_params : AlgorithmParams) : List AlgorithmStep :=
  let initStep : AlgorithmStep := {
    stepNumber := 1,
    description := "Start finding connected components.",
    pseudocodeLine := 0,
    nodeStates := initNodeStates g,
    edgeStates := initEdgeStates g,
    dataStructures := [("componentCount", DSVal.n 0)],
    currentOperation := "Initialize",
    metrics := zeroMetrics }
  let st : CCSt := {
    visited := []
    component := []
    nodeStates := initNodeStates g
    edgeStates := initEdgeStates g
    metrics := zeroMetrics
    steps := [initStep] }
  let r := ccOuter g (toAdjacencyList g) g.nodes 0 st
  let st := r.1
  let finStep : AlgorithmStep := {
    stepNumber := st.steps.length + 1,
    description := "Found " ++ toString r.2 ++ " connected component(s).",
    pseudocodeLine := 5,
    nodeStates := st.nodeStates,
    edgeStates := st.edgeStates,
    dataStructures := [("componentCount", DSVal.n r.2),
      ("components", DSVal.objL (formatComponents g st.component))],
    currentOperation := "Complete",
    metrics := st.metrics }
  st.steps ++ [finStep]

/-! ## Claim-level predicates and the reference recursive DFS -/

/-- Look up an entry of a step record's `dataStructures`. -/
def dsLookup (step : AlgorithmStep) (key : String) : Option DSVal :=
  aget step.dataStructures key

/-- Completeness of one step for a graph: its `nodeStates` map has an entry
for every node id and its `edgeStates` map an entry for every edge id. -/
def stepComplete (g : Graph) (step : AlgorithmStep) : Bool :=
  g.nodes.all (fun n => (aget step.nodeStates n.id).isSome) &&
  g.edges.all (fun e => (aget step.edgeStates e.id).isSome)

/-- Completeness of every step of a trace. -/
def stepsComplete (g : Graph) (steps : List AlgorithmStep) : Bool :=
  steps.all (stepComplete g)

/-- Step-over-step monotonicity of the four metrics counters. -/
def metricsMono : List AlgorithmStep → Bool
  | [] => true
  | [_] => true
  | a :: b :: rest => mleB a.metrics b.metrics && metricsMono (b :: rest)

/-- Adjacency as a function: neighbor ids of a node id in forward order. -/
def adjIds (adjList : AList (List AdjEntry)) (u : String) : List String :=
  ((aget adjList u).getD []).map (fun nb => nb.nodeId)

/-- Reference recursive DFS (spec section 4.3): starting from the seeds in
order, visit an unvisited seed, then recursively traverse its adjacency list
in forward order; `V` accumulates visited ids in visit order.  Fuel makes the
nested recursion structural; `dfsListFuel` below is always sufficient. -/
def dfsList (adj : String → List String) : Nat → List String → List String → List String
  | 0, V, _ => V
  | _ + 1, V, [] => V
  | f + 1, V, u :: us =>
    if V.contains u then dfsList adj f V us
    else dfsList adj f (dfsList adj f (V ++ [u]) (adj u)) us

/-- The visit order of the reference recursive DFS from a start node. -/
def dfsRecOrder (g : Graph) (s : String) : List String :=
  dfsList (adjIds (toAdjacencyList g)) (stdFuel g) [] [s]

/-- Projection of the DFS executor loop onto (visited, stack): the pure stack
machine of spec section 4.3, pushing the not-yet-visited neighbors in reverse
adjacency order and filtering duplicates again at pop time. -/
def sLoop (adj : String → List String) : Nat → List String → List String → List String
  | 0, V, _ => V
  | _ + 1, V, [] => V
  | f + 1, V, u :: S =>
    if V.contains u then sLoop adj f V S
    else
      let V' := V ++ [u]
      sLoop adj f V' (((adj u).filter (fun v => !V'.contains v)) ++ S)

/-- The visit order actually produced by the DFS executor run (the `visited`
insertion order of `dfsLoop`). -/
def dfsExecOrder (g : Graph) (s : String) : List String :=
  (dfsLoop g (toAdjacencyList g) (stdFuel g)
    { stack := [s]
      visited := []
      nodeStates := aset (initNodeStates g) s NodeState.visiting
      edgeStates := initEdgeStates g
      metrics := { nodesVisited := 0, edgesExamined := 0, operationsCount := 1, comparisons := 0 }
      steps := [] }).visited

/-- The DFS termination measure ingredient: total adjacency length over the
keys not yet visited. -/
def adjW (adj : String → List String) (keys : List String) (V : List String) : Nat :=
  ((keys.filter (fun k => !V.contains k)).map (fun k => (adj k).length)).sum

/-- Termination measure of the pure DFS machines: pending stack length plus
the unvisited adjacency mass. -/
def dfsM (adj : String → List String) (keys : List String) (V S : List String) : Nat :=
  S.length + adjW adj keys V

/-- Total number of adjacency entries stored in an adjacency list. -/
def adjTotalLen (m : AList (List AdjEntry)) : Nat :=
  (m.map (fun p => p.2.length)).sum

/-- The nodeStates map covers every node of the graph. -/
def nsComplete (g : Graph) (m : AList NodeState) : Bool :=
  g.nodes.all (fun n => (aget m n.id).isSome)

/-- The edgeStates map covers every edge of the graph. -/
def esComplete (g : Graph) (m : AList EdgeState) : Bool :=
  g.edges.all (fun e => (aget m e.id).isSome)

/-- Run invariant shared by all nine executors: the current maps are complete,
every emitted step is complete, the emitted metrics are monotone, and the last
emitted snapshot is below the running counters. -/
def traceInv (g : Graph) (ns : AList NodeState) (es : AList EdgeState)
    (steps : List AlgorithmStep) (m : AlgorithmMetrics) : Prop :=
  nsComplete g ns = true ∧ esComplete g es = true ∧
  stepsComplete g steps = true ∧ metricsMono steps = true ∧
  (∀ last, steps.getLast? = some last → mleB last.metrics m = true)

/-! ## Concrete test inputs for the claims -/

/-- Node constructor helper for test graphs. -/
def mkNode (id label : String) : Node :=
  { id := id, label := label, x := 0, y := 0 }

/-- Edge constructor helper for test graphs. -/
def mkEdge (id source target : String) (weight : ℚ) : Edge :=
  { id := id, source := source, target := target, weight := weight }

/-- Undirected graph with nodes A, B and the single edge A-B. -/
def gUndirAB : Graph :=
  { nodes := [mkNode "a" "A", mkNode "b" "B"]
    edges := [mkEdge "e1" "a" "b" 1]
    directed := false
    weighted := false }

/-- Directed graph with edges A→B and B→A. -/
def gDirABBA : Graph :=
  { nodes := [mkNode "a" "A", mkNode "b" "B"]
    edges := [mkEdge "e1" "a" "b" 1, mkEdge "e2" "b" "a" 1]
    directed := true
    weighted := false }

/-- Undirected weighted triangle: A-B weight 1, B-C weight 2, A-C weight 10. -/
def gTriangle : Graph :=
  { nodes := [mkNode "a" "A", mkNode "b" "B", mkNode "c" "C"]
    edges := [mkEdge "e1" "a" "b" 1, mkEdge "e2" "b" "c" 2, mkEdge "e3" "a" "c" 10]
    directed := false
    weighted := true }

/-- Directed acyclic graph A→B, B→C, A→C. -/
def gDag : Graph :=
  { nodes := [mkNode "a" "A", mkNode "b" "B", mkNode "c" "C"]
    edges := [mkEdge "e1" "a" "b" 1, mkEdge "e2" "b" "c" 1, mkEdge "e3" "a" "c" 1]
    directed := true
    weighted := false }

/-- Directed cycle A→B, B→C, C→A. -/
def gCycle3 : Graph :=
  { nodes := [mkNode "a" "A", mkNode "b" "B", mkNode "c" "C"]
    edges := [mkEdge "e1" "a" "b" 1, mkEdge "e2" "b" "c" 1, mkEdge "e3" "c" "a" 1]
    directed := true
    weighted := false }

/-- Single node A with no edges. -/
def gSingleA : Graph :=
  { nodes := [mkNode "a" "A"]
    edges := []
    directed := false
    weighted := true }

/-- Single node whose id is the empty string (a falsy id in JS). -/
def gEmptyId : Graph :=
  { nodes := [mkNode "" "A"]
    edges := []
    directed := false
    weighted := false }

/-- The node ids held in a priority queue. -/
def pqValues (items : List PQItem) : List String :=
  items.map (fun it => it.value)

/-! ## Concrete claim theorems -/

/-- C1: the claim says that once an edge is `in_solution` in some BFS step it
is never `rejected` in a later step.  The code violates this: on the
undirected graph A-B with BFS from A, edge e1 is `in_solution` in step 4
(index 3) but `rejected` in step 8 (index 7), because the re-examination from
B first overwrites the state to `examining`, letting the downgrade guard
pass.  This theorem evaluates the executor at that failing input. -/
theorem bfs_in_solution_edge_later_rejected :
    ((executeBFS gUndirAB { startNodeId := some "a" }).map
      (fun s => aget s.edgeStates "e1")).get? 3 = some (some EdgeState.in_solution) ∧
    ((executeBFS gUndirAB { startNodeId := some "a" }).map
      (fun s => aget s.edgeStates "e1")).get? 7 = some (some EdgeState.rejected) ∧
    (executeBFS gUndirAB { startNodeId := some "a" }).length = 9 := by
  refine ⟨?_, ?_, ?_⟩ <;> with_unfolding_all rfl

/-- C2: the claim says the undirected single-edge graph A-B must report no
cycle while the directed graph A→B→A must report a cycle via a back edge.
The directed half holds, but on the undirected graph the executor reports
`hasCycle = true` (the reverse direction of the single edge makes the DFS
parent gray and there is no parent exclusion), so the code contradicts the
claimed behaviour at that input. -/
theorem cycleDetection_undirected_single_edge_reports_cycle :
    ((executeCycleDetection gUndirAB {}).getLast?.map
      (fun s => dsLookup s "hasCycle")) = some (some (DSVal.b true)) ∧
    ((executeCycleDetection gUndirAB {}).getLast?.map
      (fun s => s.currentOperation)) = some "Complete - Cycle Found" ∧
    ((executeCycleDetection gDirABBA {}).getLast?.map
      (fun s => dsLookup s "hasCycle")) = some (some (DSVal.b true)) ∧
    ((executeCycleDetection gDirABBA {}).map (fun s => s.currentOperation)).contains
      "Cycle Found" = true := by
  refine ⟨?_, ?_, ?_, ?_⟩ <;> with_unfolding_all rfl

/-- C3 counterexample: the Prim executor checks only that `startNodeId` is
truthy, not that a node with that id exists; with the nonexistent id "x" on
the one-node graph it still produces 3 steps instead of the empty sequence
the claim requires. -/
theorem prim_nonexistent_start_returns_steps :
    (executePrim gSingleA { startNodeId := some "x" }).length = 3 ∧
    ((executePrim gSingleA { startNodeId := some "x" }).map
      (fun s => s.currentOperation)) = ["Initialize", "Add A", "Complete"] := by
  refine ⟨?_, ?_⟩ <;> with_unfolding_all rfl

/-- C4: Dijkstra on the undirected weighted triangle {A,B,C} with edges
A-B(1), B-C(2), A-C(10), start A and target C: the run ends with a
"Path Found" step (and that step is the last one) reporting path A→B→C with
total distance 3; in that step exactly the nodes A, B, C and exactly the
edges A-B and B-C are `in_solution` (edge A-C is left `examining`). -/
theorem dijkstra_triangle_path_found :
    ((executeDijkstra gTriangle { startNodeId := some "a", endNodeId := some "c" }).map
      (fun s => s.currentOperation)) =
      ["Initialize", "Process A", "Relax edge to B", "Update B", "Relax edge to C",
        "Update C", "Process B", "Relax edge to C", "Update C", "Process C",
        "Path Found"] ∧
    ((executeDijkstra gTriangle { startNodeId := some "a", endNodeId := some "c" }).getLast?.map
      (fun s => s.description)) =
      some "Target C reached! Shortest path distance: 3. Path: A → B → C" ∧
    ((executeDijkstra gTriangle { startNodeId := some "a", endNodeId := some "c" }).getLast?.map
      (fun s => dsLookup s "path")) =
      some (some (DSVal.arr [some "A", some "B", some "C"])) ∧
    ((executeDijkstra gTriangle { startNodeId := some "a", endNodeId := some "c" }).getLast?.map
      (fun s => s.nodeStates)) =
      some [("a", NodeState.in_solution), ("b", NodeState.in_solution),
        ("c", NodeState.in_solution)] ∧
    ((executeDijkstra gTriangle { startNodeId := some "a", endNodeId := some "c" }).getLast?.map
      (fun s => s.edgeStates)) =
      some [("e1", EdgeState.in_solution), ("e2", EdgeState.in_solution),
        ("e3", EdgeState.examining)] := by
  refine ⟨?_, ?_, ?_, ?_, ?_⟩ <;> with_unfolding_all rfl

/-- C8: topological sort on the DAG A→B, B→C, A→C ends with a completion step
whose result is [A, B, C] (A before B before C); on the directed cycle
A→B→C→A it ends with a "Cycle Detected" step whose result is empty
(length 0 < 3). -/
theorem topological_sort_dag_and_cycle :
    ((executeTopologicalSort gDag {}).getLast?.map (fun s => s.currentOperation)) =
      some "Complete" ∧
    ((executeTopologicalSort gDag {}).getLast?.map (fun s => dsLookup s "result")) =
      some (some (DSVal.arr [some "A", some "B", some "C"])) ∧
    ((executeTopologicalSort gCycle3 {}).getLast?.map (fun s => s.currentOperation)) =
      some "Cycle Detected" ∧
    ((executeTopologicalSort gCycle3 {}).getLast?.map (fun s => dsLookup s "result")) =
      some (some (DSVal.arr [])) := by
  refine ⟨?_, ?_, ?_, ?_⟩ <;> with_unfolding_all rfl

/-- C3 (amended): BFS, DFS and Dijkstra return an empty step sequence when the
start id is missing, empty, or matches no node; Prim returns an empty
sequence when the start id is missing or empty (but, per the counterexample,
not when it is a non-empty id matching no node). -/
theorem start_node_guards :
    (∀ (g : Graph) (p : AlgorithmParams),
      (match p.startNodeId with
        | none => True
        | some s => s = "" ∨ getNode g s = none) →
      executeBFS g p = [] ∧ executeDFS g p = [] ∧ executeDijkstra g p = []) ∧
    (∀ (g : Graph) (p : AlgorithmParams),
      (p.startNodeId = none ∨ p.startNodeId = some "") →
      executePrim g p = []) := by
  constructor
  · intro g p h
    refine ⟨?_, ?_, ?_⟩ <;>
    · cases hp : p.startNodeId with
      | none => simp [executeBFS, executeDFS, executeDijkstra, strFalsy, hp]
      | some s =>
        rw [hp] at h
        rcases h with h | h
        · subst h
          simp [executeBFS, executeDFS, executeDijkstra, strFalsy, hp]
        · by_cases hs : s = ""
          · subst hs
            simp [executeBFS, executeDFS, executeDijkstra, strFalsy, hp]
          · simp [executeBFS, executeDFS, executeDijkstra, strFalsy, hp, h, hs]
  · intro g p h
    rcases h with h | h <;> simp [executePrim, strFalsy, h]

/-- Closed witness for `start_node_guards` at concrete inputs. -/
theorem start_node_guards_witness :
    executeBFS gSingleA { startNodeId := some "zz" } = [] ∧
    executeDFS gSingleA { startNodeId := some "zz" } = [] ∧
    executeDijkstra gSingleA { startNodeId := some "zz" } = [] ∧
    executePrim gSingleA { startNodeId := none } = [] := by
  have h1 := start_node_guards.1 gSingleA { startNodeId := some "zz" }
    (Or.inr (by with_unfolding_all rfl))
  have h2 := start_node_guards.2 gSingleA { startNodeId := none } (Or.inl rfl)
  exact ⟨h1.1, h1.2.1, h1.2.2, h2⟩

/-! ## Basic lemmas about the JS map model -/

theorem aget_aset_self {κ α : Type} [BEq κ] [LawfulBEq κ] (m : List (κ × α)) (k : κ) (v : α) :
    aget (aset m k v) k = some v := by
  unfold aget aset
  split
  · rename_i hf
    induction m with
    | nil => simp at hf
    | cons p rest ih =>
      by_cases hp : p.1 == k
      · simp [List.find?_cons, hp]
      · simp only [List.map_cons, hp, if_false]
        rw [List.find?_cons_of_neg _ (by simpa using hp)]
        apply ih
        rcases Option.isSome_iff_exists.mp hf with ⟨q, hq⟩
        rw [List.find?_cons_of_neg _ (by simpa using hp)] at hq
        exact Option.isSome_iff_exists.mpr ⟨q, hq⟩
  · rw [List.find?_append]
    rename_i hf
    rw [Option.not_isSome_iff_eq_none] at hf
    simp [hf, List.find?_cons]

theorem find?_key_map_update {κ α : Type} [BEq κ] [LawfulBEq κ] (m : List (κ × α))
    (k k' : κ) (v : α) (h : (k' == k) = false) :
    List.find? (fun p => p.1 == k') (m.map (fun p => if p.1 == k then (k, v) else p)) =
      List.find? (fun p => p.1 == k') m := by
  have hk : (k == k') = false := by
    rw [beq_eq_false_iff_ne] at h ⊢
    exact fun hkk => h hkk.symm
  induction m with
  | nil => rfl
  | cons p rest ih =>
    rw [List.map_cons]
    cases hp : (p.1 == k) with
    | true =>
      have hpk : p.1 = k := by simpa using hp
      rw [if_pos rfl, List.find?_cons, List.find?_cons]
      have h1 : ((k, v).1 == k') = false := hk
      have h2 : (p.1 == k') = false := by rw [hpk]; exact hk
      rw [h1, h2]
      exact ih
    | false =>
      rw [if_neg Bool.false_ne_true, List.find?_cons, List.find?_cons]
      cases hq : (p.1 == k') with
      | true => rfl
      | false => exact ih

theorem aget_aset_ne {κ α : Type} [BEq κ] [LawfulBEq κ] (m : List (κ × α)) (k k' : κ) (v : α)
    (h : (k' == k) = false) : aget (aset m k v) k' = aget m k' := by
  have hk : (k == k') = false := by
    rw [beq_eq_false_iff_ne] at h ⊢
    exact fun hkk => h hkk.symm
  unfold aget aset
  split
  · rw [find?_key_map_update m k k' v h]
  · rw [List.find?_append]
    cases hm : List.find? (fun p => p.1 == k') m with
    | some q => simp
    | none => simp [List.find?_cons, hk]

theorem aget_isSome_aset {κ α : Type} [BEq κ] [LawfulBEq κ] (m : List (κ × α)) (k k' : κ)
    (v : α) (h : (aget m k').isSome) : (aget (aset m k v) k').isSome := by
  by_cases hk : k' == k
  · have : k' = k := by simpa using hk
    subst this
    rw [aget_aset_self]
    rfl
  · rw [aget_aset_ne m k k' v (by simpa using hk)]
    exact h

/-! ## Lemmas for the Prim priority-queue claim -/

theorem pqValues_pqUpdFirst (items : List PQItem) (v : String) (p : Jv) :
    pqValues (pqUpdFirst items v p) = pqValues items := by
  induction items with
  | nil => rfl
  | cons it rest ih =>
    by_cases h : it.value == v <;> simp [pqUpdFirst, pqValues, h] at ih ⊢ <;> simpa using ih

theorem pqValues_pqSort_perm (items : List PQItem) :
    (pqValues (pqSort items)).Perm (pqValues items) := by
  unfold pqValues pqSort
  exact (List.mergeSort_perm items _).map (fun it => it.value)

theorem pqValues_pqEnqueueUpd_found (items : List PQItem) (v : String) (p : Jv)
    (h : v ∈ pqValues items) :
    (pqValues (pqEnqueueUpd items v p)).Perm (pqValues items) := by
  have hfind : (items.find? (fun it => it.value == v)).isSome := by
    rcases List.mem_map.mp h with ⟨it, hit, hv⟩
    exact List.find?_isSome.mpr ⟨it, hit, by simp [hv]⟩
  rcases Option.isSome_iff_exists.mp hfind with ⟨it, hit⟩
  rw [pqEnqueueUpd, hit]
  by_cases hlt : jvLtB p it.priority
  · simp only [hlt, if_true]
    exact (pqValues_pqSort_perm _).trans (by rw [pqValues_pqUpdFirst])
  · simp [hlt]

theorem pqValues_pqEnqueueUpd_new (items : List PQItem) (v : String) (p : Jv)
    (h : v ∉ pqValues items) :
    (pqValues (pqEnqueueUpd items v p)).Perm (v :: pqValues items) := by
  have hfind : items.find? (fun it => it.value == v) = none := by
    rw [List.find?_eq_none]
    intro it hit
    simp only [beq_iff_eq]
    intro hv
    exact h (List.mem_map.mpr ⟨it, hit, hv⟩)
  rw [pqEnqueueUpd, hfind]
  refine (pqValues_pqSort_perm _).trans ?_
  simp only [pqValues, List.map_append, List.map_cons, List.map_nil]
  exact List.perm_append_comm.trans (by simp)

theorem pqEnqueueUpd_nodup (items : List PQItem) (v : String) (p : Jv)
    (h : (pqValues items).Nodup) :
    (pqValues (pqEnqueueUpd items v p)).Nodup := by
  by_cases hv : v ∈ pqValues items
  · exact ((pqValues_pqEnqueueUpd_found items v p hv).nodup_iff).mpr h
  · exact ((pqValues_pqEnqueueUpd_new items v p hv).nodup_iff).mpr (h.cons hv)

theorem pqEnqueueUpd_no_improvement (items : List PQItem) (v : String) (p : Jv)
    (it : PQItem) (hit : items.find? (fun i => i.value == v) = some it)
    (hge : jvLtB p it.priority = false) :
    pqEnqueueUpd items v p = items := by
  rw [pqEnqueueUpd, hit]
  simp [hge]

/-- Queue/tree invariant of the Prim loop: at most one entry per node id and
no queued id is already in the tree. -/
def InvP (pq : List PQItem) (inMST : List String) : Prop :=
  (pqValues pq).Nodup ∧ ∀ v ∈ pqValues pq, v ∉ inMST

theorem pqEnqueueUpd_invP {pq : List PQItem} {inMST : List String} {v : String} {p : Jv}
    (h : InvP pq inMST) (hv : v ∉ inMST) : InvP (pqEnqueueUpd pq v p) inMST := by
  by_cases hmem : v ∈ pqValues pq
  · have hperm := pqValues_pqEnqueueUpd_found pq v p hmem
    exact ⟨hperm.nodup_iff.mpr h.1, fun w hw => h.2 w (hperm.mem_iff.mp hw)⟩
  · have hperm := pqValues_pqEnqueueUpd_new pq v p hmem
    refine ⟨hperm.nodup_iff.mpr (h.1.cons hmem), fun w hw => ?_⟩
    rcases (List.mem_cons).mp (hperm.mem_iff.mp hw) with rfl | hw'
    · exact hv
    · exact h.2 w hw'

theorem primVisit_inMST (g : Graph) (c : String) (st : PrimSt) (nb : AdjEntry) :
    (primVisit g c st nb).inMST = st.inMST := by
  unfold primVisit
  dsimp only
  split
  · rfl
  · split
    · rfl
    · split
      · split <;> rfl
      · rfl

theorem primVisit_invP (g : Graph) (c : String) (st : PrimSt) (nb : AdjEntry)
    (h : InvP st.pq st.inMST) : InvP (primVisit g c st nb).pq (primVisit g c st nb).inMST := by
  rw [primVisit_inMST]
  unfold primVisit
  dsimp only
  split
  · exact h
  · rename_i hmem
    split
    · exact pqEnqueueUpd_invP h (by simpa using hmem)
    · split
      · split
        · exact h
        · exact h
      · exact h

theorem primFold_invP (g : Graph) (c : String) (nbs : List AdjEntry) (st : PrimSt)
    (h : InvP st.pq st.inMST) :
    InvP (nbs.foldl (primVisit g c) st).pq (nbs.foldl (primVisit g c) st).inMST := by
  induction nbs generalizing st with
  | nil => exact h
  | cons nb rest ih => exact ih _ (primVisit_invP g c st nb h)

theorem primProcess_invP (g : Graph) (adjList : AList (List AdjEntry)) (c : String)
    (st : PrimSt) (h : InvP st.pq (st.inMST ++ [c])) :
    InvP (primProcess g adjList c st).pq (primProcess g adjList c st).inMST := by
  unfold primProcess
  exact primFold_invP g c _ _ h

theorem primLoop_eq_noSkip (g : Graph) (adjList : AList (List AdjEntry)) :
    ∀ (fuel : Nat) (st : PrimSt), InvP st.pq st.inMST →
      primLoop g adjList fuel st = primLoopNoSkip g adjList fuel st := by
  intro fuel
  induction fuel with
  | zero => intro st _; rfl
  | succ f ih =>
    intro st h
    rw [primLoop, primLoopNoSkip]
    cases hpq : st.pq with
    | nil => rfl
    | cons item rest =>
      have hval : item.value ∈ pqValues st.pq := by
        rw [hpq]; exact List.mem_map.mpr ⟨item, List.mem_cons_self _ _, rfl⟩
      have hnotin : item.value ∉ st.inMST := h.2 _ hval
      have hcont : st.inMST.contains item.value = false := by
        simpa using hnotin
      simp only [hcont, Bool.false_eq_true, if_false]
      have hrest : InvP rest st.inMST := by
        constructor
        · have := h.1
          rw [hpq] at this
          exact (List.nodup_cons.mp this).2
        · intro v hv
          apply h.2 v
          rw [hpq]
          rcases List.mem_map.mp hv with ⟨it, hit, rfl⟩
          exact List.mem_map.mpr ⟨it, List.mem_cons_of_mem _ hit, rfl⟩
      have hinv2 : InvP rest (st.inMST ++ [item.value]) := by
        refine ⟨hrest.1, fun v hv => ?_⟩
        have hvne : v ≠ item.value := by
          have := h.1
          rw [hpq] at this
          rcases List.nodup_cons.mp this with ⟨hni, _⟩
          intro hveq
          rw [hveq] at hv
          exact hni hv
        simp only [List.mem_append, List.mem_singleton]
        rintro (hin | rfl)
        · exact hrest.2 v hv hin
        · exact hvne rfl
      exact ih _ (primProcess_invP g adjList item.value _ hinv2)

theorem primInit_invP (g : Graph) (s : String) :
    InvP (primInit g s).pq (primInit g s).inMST := by
  have : ∀ (ns : List Node) (q : List PQItem), (pqValues q).Nodup →
      (pqValues (ns.foldl (fun q n =>
        pqEnqueueUpd q n.id (if n.id == s then Jv.q 0 else Jv.inf)) q)).Nodup := by
    intro ns
    induction ns with
    | nil => intro q h; exact h
    | cons n rest ih => intro q h; exact ih _ (pqEnqueueUpd_nodup _ _ _ h)
  refine ⟨this g.nodes [] (by simp [pqValues]), ?_⟩
  intro v _
  simp [primInit]

/-- C9: the Prim priority queue holds at most one entry per node id — enqueue
of a present value updates the first matching entry in place (and only when
the new priority is strictly smaller; otherwise the queue is unchanged),
never appending a duplicate — and consequently the dequeue-time `inMST` skip
is never taken: the executor is extensionally equal to the variant with the
skip branch removed. -/
theorem prim_queue_unique_no_stale_skip :
    (∀ (items : List PQItem) (v : String) (p : Jv),
      ((pqValues items).Nodup → (pqValues (pqEnqueueUpd items v p)).Nodup) ∧
      (v ∈ pqValues items → (pqValues (pqEnqueueUpd items v p)).Perm (pqValues items)) ∧
      (v ∉ pqValues items → (pqValues (pqEnqueueUpd items v p)).Perm (v :: pqValues items)) ∧
      (∀ it, items.find? (fun i => i.value == v) = some it →
        jvLtB p it.priority = false → pqEnqueueUpd items v p = items)) ∧
    (∀ (g : Graph) (prm : AlgorithmParams), executePrim g prm = executePrimNoSkip g prm) := by
  constructor
  · intro items v p
    exact ⟨pqEnqueueUpd_nodup items v p,
      pqValues_pqEnqueueUpd_found items v p,
      pqValues_pqEnqueueUpd_new items v p,
      fun it hit hge => pqEnqueueUpd_no_improvement items v p it hit hge⟩
  · intro g prm
    unfold executePrim executePrimNoSkip
    cases hs : prm.startNodeId with
    | none => rfl
    | some s =>
      by_cases hf : strFalsy (some s)
      · simp [hf]
      · simp only [hf, Bool.false_eq_true, if_false]
        rw [primLoop_eq_noSkip g (toAdjacencyList g) (stdFuel g) (primInit g s)
          (primInit_invP g s)]

/-- Closed witness for `prim_queue_unique_no_stale_skip` at concrete inputs. -/
theorem prim_queue_unique_no_stale_skip_witness :
    (pqValues (pqEnqueueUpd [{ priority := Jv.q 2, value := "a" }] "a" (Jv.q 1))).Nodup ∧
    executePrim gTriangle { startNodeId := some "a" } =
      executePrimNoSkip gTriangle { startNodeId := some "a" } :=
  ⟨(prim_queue_unique_no_stale_skip.1 [{ priority := Jv.q 2, value := "a" }] "a" (Jv.q 1)).1
      (by decide),
    prim_queue_unique_no_stale_skip.2 gTriangle { startNodeId := some "a" }⟩



theorem calculateDistance_self (n : Node) (t : HeurKind) : calculateDistance n n t = 0 := by
  cases t <;> simp [calculateDistance, mathSqrt]

theorem strFalsy_some_ne {s : String} (h : s ≠ "") : strFalsy (some s) = false := by
  simp [strFalsy]
  exact h

theorem aget_foldl_aset_const {κ α β : Type} [BEq κ] [LawfulBEq κ] (f : β → κ) (v : α) (k : κ) :
    ∀ (l : List β) (m : List (κ × α)),
      ((∃ b ∈ l, f b = k) ∨ aget m k = some v) →
      aget (l.foldl (fun m b => aset m (f b) v) m) k = some v := by
  intro l
  induction l with
  | nil =>
    intro m h
    rcases h with ⟨b, hb, _⟩ | h
    · simp at hb
    · exact h
  | cons b rest ih =>
    intro m h
    rw [List.foldl_cons]
    by_cases hk : f b = k
    · apply ih
      right
      rw [← hk]
      exact aget_aset_self m (f b) v
    · apply ih
      rcases h with ⟨b', hb', hfb⟩ | hm
      · rcases List.mem_cons.mp hb' with rfl | hb''
        · exact absurd hfb hk
        · exact Or.inl ⟨b', hb'', hfb⟩
      · right
        rw [aget_aset_ne m (f b) k v (by simpa using fun hkk => hk hkk.symm)]
        exact hm

theorem aget_initEdgeStates (g : Graph) (e : Edge) (he : e ∈ g.edges) :
    aget (initEdgeStates g) e.id = some EdgeState.unexamined := by
  unfold initEdgeStates
  exact aget_foldl_aset_const (fun e => e.id) EdgeState.unexamined e.id g.edges []
    (Or.inl ⟨e, he, rfl⟩)

theorem aget_initNodeStates (g : Graph) (n : Node) (hn : n ∈ g.nodes) :
    aget (initNodeStates g) n.id = some NodeState.unvisited := by
  unfold initNodeStates
  exact aget_foldl_aset_const (fun n => n.id) NodeState.unvisited n.id g.nodes []
    (Or.inl ⟨n, hn, rfl⟩)

theorem qToFixed1_zero : qToFixed1 0 = "0.0" := by
  with_unfolding_all rfl

theorem intercalate_single (s a : String) : String.intercalate s [a] = a := rfl

theorem pqEnqueue_empty (v : String) (p : Jv) :
    pqEnqueue [] v p = [{ priority := p, value := v }] := by
  with_unfolding_all rfl

/-- C10 (amended): for every graph and every node X whose id is non-empty (an
empty id is falsy in JS and trips the missing-parameter guard, see the
counterexample), running the A* executor with start and goal both X yields
exactly three steps — initialize, select, path-found — whose final step
reports the single-node path [X] with cost 0.0, and no step ever moves any
edge out of the `unexamined` state. -/
theorem astar_same_start_goal (g : Graph) (X : Node) (hX : X ∈ g.nodes) (hid : X.id ≠ "")
    (p : AlgorithmParams) (hs : p.startNodeId = some X.id) (he : p.endNodeId = some X.id) :
    (executeAStar g p).length = 3 ∧
    (executeAStar g p).map (fun s => s.currentOperation) =
      ["Initialize", "Process " ++ jsLabel g X.id, "Path Found"] ∧
    ((executeAStar g p).getLast?.map (fun s => dsLookup s "path")) =
      some (some (DSVal.arr [mapLabel g X.id])) ∧
    ((executeAStar g p).getLast?.map (fun s => s.description)) =
      some ("Goal reached! Path: " ++ jsLabel g X.id ++ ". Cost: 0.0") ∧
    ∀ s ∈ executeAStar g p, ∀ e ∈ g.edges,
      aget s.edgeStates e.id = some EdgeState.unexamined := by
  have hfs : (g.nodes.find? fun n => n.id == X.id).isSome := by
    rw [List.find?_isSome]
    exact ⟨X, hX, by simp⟩
  obtain ⟨n₀, hn₀⟩ := Option.isSome_iff_exists.mp hfs
  have hn₀' : getNode g X.id = some n₀ := hn₀
  have hsf : strFalsy (some X.id) = false := strFalsy_some_ne hid
  have hbeq : (X.id == "") = false := by simpa [strFalsy] using hsf
  have hh : aStarH g n₀ (p.heuristic.getD HeurKind.euclidean) X.id = Jv.q 0 := by
    simp only [aStarH, hn₀', calculateDistance_self]
    norm_num
  have hpq : pqEnqueue [] X.id (jsBangJv (some (Jv.q 0))) =
      [{ priority := Jv.q 0, value := X.id }] := pqEnqueue_empty X.id _
  have hwalk : walkCameFrom [] (g.nodes.length + 1) (some X.id) [] = [X.id] := by
    rw [walkCameFrom]
    simp only [hbeq, Bool.false_eq_true, if_false]
    cases g.nodes.length with
    | zero => rfl
    | succ m => rfl
  have hlbl : jsLabel g X.id = n₀.label := by
    rw [jsLabel, hn₀']
  have hcost : optToFixed1
      (aget (aset (List.foldl (fun m n => aset m n.id Jv.inf) [] g.nodes) X.id (Jv.q 0)) X.id) =
      "0.0" := by
    rw [aget_aset_self]
    simp [optToFixed1, jvToFixed1, qToFixed1_zero]
  refine ⟨?_, ?_, ?_, ?_, ?_⟩ <;>
    simp only [executeAStar, hs, he, hsf, Bool.or_self, Bool.false_eq_true, if_false, hn₀', hh] <;>
    rw [aget_aset_self] <;>
    simp only [stdFuel] <;>
    rw [aStarLoop] <;>
    simp only [Bool.false_eq_true, if_false, hpq, beq_self_eq_true, if_true, hwalk, hcost] <;>
    simp only [List.cons_append, List.nil_append, List.zip, List.zipWith, List.foldl_cons,
      List.foldl_nil, List.map_cons, List.map_nil, List.length_cons, List.length_nil,
      List.getLast?_cons_cons, List.getLast?_singleton, List.mem_cons, List.not_mem_nil,
      dsLookup, intercalate_single, hlbl, Option.map_some]
  · simp [aget, List.find?]
  · simp only [Option.map_some, String.append_assoc]
    with_unfolding_all rfl
  · intro s hs' e he'
    rcases hs' with rfl | rfl | rfl | h
    · exact aget_initEdgeStates g e he'
    · exact aget_initEdgeStates g e he'
    · exact aget_initEdgeStates g e he'
    · simp at h

/-- C10 counterexample: the node with the empty-string id is in the graph, yet
calling the A* executor with start and goal both equal to that id returns the
empty sequence (the falsy-parameter guard fires), not the three steps the
claim requires. -/
theorem astar_empty_id_node_returns_empty :
    mkNode "" "A" ∈ gEmptyId.nodes ∧
    executeAStar gEmptyId { startNodeId := some "", endNodeId := some "" } = [] ∧
    (executeAStar gEmptyId { startNodeId := some "", endNodeId := some "" }).length ≠ 3 := by
  refine ⟨by decide, by with_unfolding_all rfl, by decide⟩

/-- Closed witness for `astar_same_start_goal` at a concrete input. -/
theorem astar_same_start_goal_witness :
    (executeAStar gSingleA { startNodeId := some "a", endNodeId := some "a" }).length = 3 :=
  (astar_same_start_goal gSingleA (mkNode "a" "A") (by decide) (by decide)
    { startNodeId := some "a", endNodeId := some "a" } rfl rfl).1

/-! ## C5: the stack DFS executor visits in recursive-DFS order

The proof factors through two pure machines over the adjacency function:
`sLoop` (the stack machine the executor projects onto) and `dfsList` (the
reference recursive DFS).  A termination measure `dfsM` (pending stack plus
unvisited adjacency mass) drives the induction; a filter-robustness
bisimulation shows the push-time duplicate filter is invisible, and a
decomposition lemma splices recursive calls into the stack. -/

theorem contains_append_one (V : List String) (u x : String) :
    (V ++ [u]).contains x = (V.contains x || x == u) := by
  by_cases h : x = u <;> by_cases h2 : x ∈ V <;> simp [h, h2]

theorem adjW_cons (adj : String → List String) (k : String) (rest V : List String) :
    adjW adj (k :: rest) V =
      (if V.contains k then 0 else (adj k).length) + adjW adj rest V := by
  unfold adjW
  rw [List.filter_cons]
  by_cases h : k ∈ V <;> simp [h]

theorem adjW_congr (adj : String → List String) (keys : List String) {V V' : List String}
    (h : ∀ k ∈ keys, V.contains k = V'.contains k) :
    adjW adj keys V = adjW adj keys V' := by
  unfold adjW
  congr 1
  congr 1
  exact List.filter_congr (fun x hx => by rw [h x hx])

theorem contains_append_one_ne (V : List String) (u x : String) (hx : x ≠ u) :
    (V ++ [u]).contains x = V.contains x := by
  rw [contains_append_one]
  have : (x == u) = false := by
    rw [beq_eq_false_iff_ne]
    exact hx
  rw [this, Bool.or_false]

theorem adjW_visit (adj : String → List String) (keys : List String) (V : List String)
    (u : String) (hnd : keys.Nodup) (hu : V.contains u = false)
    (hout : u ∉ keys → adj u = []) :
    adjW adj keys (V ++ [u]) + (adj u).length = adjW adj keys V := by
  by_cases hk : u ∈ keys
  · clear hout
    induction keys with
    | nil => simp at hk
    | cons k rest ih =>
      rcases List.nodup_cons.mp hnd with ⟨hkni, hndr⟩
      rw [adjW_cons, adjW_cons]
      rcases List.mem_cons.mp hk with rfl | hk'
      · have hrest : adjW adj rest (V ++ [u]) = adjW adj rest V :=
          adjW_congr adj rest (fun x hx =>
            contains_append_one_ne V u x (fun h => hkni (h ▸ hx)))
        have h1 : (V ++ [u]).contains u = true := by
          rw [contains_append_one]
          simp
        rw [hrest, h1, hu]
        simp [Nat.add_comm]
      · have h1 : (V ++ [u]).contains k = V.contains k :=
          contains_append_one_ne V u k (fun h => hkni (h ▸ hk'))
        rw [h1]
        have := ih hndr hk'
        by_cases hvk : V.contains k = true <;> simp [hvk] <;> omega
  · rw [hout hk]
    simp only [List.length_nil, Nat.add_zero]
    exact adjW_congr adj keys (fun x hx =>
      contains_append_one_ne V u x (fun h => hk (h ▸ hx)))

theorem adjW_le_of_subset (adj : String → List String) (keys : List String) {V V' : List String}
    (h : ∀ x, V.contains x = true → V'.contains x = true) :
    adjW adj keys V' ≤ adjW adj keys V := by
  induction keys with
  | nil => simp [adjW]
  | cons k rest ih =>
    rw [adjW_cons, adjW_cons]
    by_cases hv : V.contains k = true
    · have hv' := h k hv
      simp only [hv, hv', if_true]
      omega
    · have hvf : V.contains k = false := by simpa using hv
      by_cases hv' : V'.contains k = true
      · simp only [hvf, hv', if_true, Bool.false_eq_true, if_false]
        omega
      · have hvf' : V'.contains k = false := by simpa using hv'
        simp only [hvf, hvf', Bool.false_eq_true, if_false]
        omega

theorem dfsList_extends (adj : String → List String) :
    ∀ (f : Nat) (V S : List String), ∃ t, dfsList adj f V S = V ++ t := by
  intro f
  induction f with
  | zero => intro V S; exact ⟨[], by simp [dfsList]⟩
  | succ n ih =>
    intro V S
    cases S with
    | nil => exact ⟨[], by simp [dfsList]⟩
    | cons u us =>
      rw [dfsList]
      by_cases h : V.contains u = true
      · simp only [h, if_true]
        exact ih V us
      · simp only [h, Bool.false_eq_true, if_false]
        obtain ⟨t1, ht1⟩ := ih (V ++ [u]) (adj u)
        obtain ⟨t2, ht2⟩ := ih (dfsList adj n (V ++ [u]) (adj u)) us
        exact ⟨[u] ++ t1 ++ t2, by rw [ht2, ht1]; simp⟩

theorem sLoop_extends (adj : String → List String) :
    ∀ (f : Nat) (V S : List String), ∃ t, sLoop adj f V S = V ++ t := by
  intro f
  induction f with
  | zero => intro V S; exact ⟨[], by simp [sLoop]⟩
  | succ n ih =>
    intro V S
    cases S with
    | nil => exact ⟨[], by simp [sLoop]⟩
    | cons u us =>
      rw [sLoop]
      by_cases h : V.contains u = true
      · simp only [h, if_true]
        exact ih V us
      · simp only [h, Bool.false_eq_true, if_false]
        obtain ⟨t1, ht1⟩ := ih (V ++ [u])
          (((adj u).filter (fun v => !(V ++ [u]).contains v)) ++ us)
        exact ⟨[u] ++ t1, by rw [ht1]; simp⟩

theorem contains_of_append (V t : List String) (x : String) (h : V.contains x = true) :
    (V ++ t).contains x = true := by
  simp at h ⊢
  exact Or.inl h

theorem dfsList_nil (adj : String → List String) (V : List String) :
    ∀ f, dfsList adj f V [] = V := by
  intro f
  cases f <;> rfl

theorem sLoop_nil (adj : String → List String) (V : List String) :
    ∀ f, sLoop adj f V [] = V := by
  intro f
  cases f <;> rfl

theorem dfsList_fuel (adj : String → List String) (keys : List String)
    (hnd : keys.Nodup) (hout : ∀ u, u ∉ keys → adj u = []) :
    ∀ (n : Nat), ∀ (V S : List String) (f1 f2 : Nat),
      dfsM adj keys V S ≤ n → dfsM adj keys V S ≤ f1 → dfsM adj keys V S ≤ f2 →
      dfsList adj f1 V S = dfsList adj f2 V S := by
  intro n
  induction n with
  | zero =>
    intro V S f1 f2 hn _ _
    have hS : S = [] := by
      cases S with
      | nil => rfl
      | cons a b => simp [dfsM] at hn
    subst hS
    rw [dfsList_nil, dfsList_nil]
  | succ n ih =>
    intro V S f1 f2 hn h1 h2
    cases S with
    | nil => rw [dfsList_nil, dfsList_nil]
    | cons u us =>
      have hM : dfsM adj keys V (u :: us) = us.length + 1 + adjW adj keys V := by
        simp [dfsM, Nat.add_comm]
      cases f1 with
      | zero => rw [hM] at h1; omega
      | succ a =>
        cases f2 with
        | zero => rw [hM] at h2; omega
        | succ b =>
          rw [dfsList, dfsList]
          by_cases h : V.contains u = true
          · simp only [h, if_true]
            apply ih <;> simp [dfsM] at hn h1 h2 ⊢ <;> omega
          · simp only [h, Bool.false_eq_true, if_false]
            have hu : V.contains u = false := by simpa using h
            have hvisit := adjW_visit adj keys V u hnd hu (hout u)
            have hinner : dfsM adj keys (V ++ [u]) (adj u) = adjW adj keys V := by
              simp [dfsM]
              omega
            have hstep1 : dfsList adj a (V ++ [u]) (adj u) =
                dfsList adj b (V ++ [u]) (adj u) := by
              apply ih <;> rw [hinner] <;> rw [hM] at hn h1 h2 <;> omega
            rw [hstep1]
            obtain ⟨t, ht⟩ := dfsList_extends adj b (V ++ [u]) (adj u)
            have hWsub : adjW adj keys (dfsList adj b (V ++ [u]) (adj u)) ≤
                adjW adj keys (V ++ [u]) := by
              apply adjW_le_of_subset
              intro x hx
              rw [ht]
              exact contains_of_append (V ++ [u]) t x hx
            have houter : dfsM adj keys (dfsList adj b (V ++ [u]) (adj u)) us ≤
                us.length + adjW adj keys (V ++ [u]) := by
              simp only [dfsM]
              omega
            apply ih <;> rw [hM] at hn h1 h2 <;> omega

theorem sLoop_fuel (adj : String → List String) (keys : List String)
    (hnd : keys.Nodup) (hout : ∀ u, u ∉ keys → adj u = []) :
    ∀ (n : Nat), ∀ (V S : List String) (f1 f2 : Nat),
      dfsM adj keys V S ≤ n → dfsM adj keys V S ≤ f1 → dfsM adj keys V S ≤ f2 →
      sLoop adj f1 V S = sLoop adj f2 V S := by
  intro n
  induction n with
  | zero =>
    intro V S f1 f2 hn _ _
    have hS : S = [] := by
      cases S with
      | nil => rfl
      | cons a b => simp [dfsM] at hn
    subst hS
    rw [sLoop_nil, sLoop_nil]
  | succ n ih =>
    intro V S f1 f2 hn h1 h2
    cases S with
    | nil => rw [sLoop_nil, sLoop_nil]
    | cons u us =>
      have hM : dfsM adj keys V (u :: us) = us.length + 1 + adjW adj keys V := by
        simp [dfsM, Nat.add_comm]
      cases f1 with
      | zero => rw [hM] at h1; omega
      | succ a =>
        cases f2 with
        | zero => rw [hM] at h2; omega
        | succ b =>
          rw [sLoop, sLoop]
          by_cases h : V.contains u = true
          · simp only [h, if_true]
            apply ih <;> simp [dfsM] at hn h1 h2 ⊢ <;> omega
          · simp only [h, Bool.false_eq_true, if_false]
            have hu : V.contains u = false := by simpa using h
            have hvisit := adjW_visit adj keys V u hnd hu (hout u)
            have hlen : ((adj u).filter (fun v => !(V ++ [u]).contains v)).length ≤
                (adj u).length := List.length_filter_le _ _
            have hnext : dfsM adj keys (V ++ [u])
                (((adj u).filter (fun v => !(V ++ [u]).contains v)) ++ us) ≤
                us.length + adjW adj keys V := by
              simp only [dfsM, List.length_append]
              omega
            apply ih <;> rw [hM] at hn h1 h2 <;> omega

theorem sLoop_all_visited (adj : String → List String) :
    ∀ (f : Nat) (V S : List String), (∀ x ∈ S, V.contains x = true) →
      sLoop adj f V S = V := by
  intro f
  induction f with
  | zero => intro V S _; rfl
  | succ n ih =>
    intro V S h
    cases S with
    | nil => rfl
    | cons u us =>
      rw [sLoop]
      have hu := h u (List.mem_cons_self _ _)
      simp only [hu, if_true]
      exact ih V us (fun x hx => h x (List.mem_cons_of_mem _ hx))

theorem filter_visited_cons (V : List String) (u : String) (T : List String) :
    T.filter (fun v => !(V ++ [u]).contains v) =
      (T.filter (fun v => !V.contains v)).filter (fun v => !(v == u)) := by
  rw [List.filter_filter]
  apply List.filter_congr
  intro x _
  rw [contains_append_one]
  cases hv : V.contains x <;> cases hu : x == u <;> rfl

theorem sLoop_filter_robust (adj : String → List String) (keys : List String)
    (hnd : keys.Nodup) (hout : ∀ u, u ∉ keys → adj u = []) :
    ∀ (n : Nat), ∀ (V S1 S2 : List String) (f1 f2 : Nat),
      S1.filter (fun v => !V.contains v) = S2.filter (fun v => !V.contains v) →
      dfsM adj keys V S1 + dfsM adj keys V S2 ≤ n →
      dfsM adj keys V S1 ≤ f1 → dfsM adj keys V S2 ≤ f2 →
      sLoop adj f1 V S1 = sLoop adj f2 V S2 := by
  intro n
  induction n with
  | zero =>
    intro V S1 S2 f1 f2 hfil hn h1 h2
    have e1 : S1 = [] := by
      cases S1 with
      | nil => rfl
      | cons a b => simp [dfsM] at hn
    have e2 : S2 = [] := by
      cases S2 with
      | nil => rfl
      | cons a b => simp [dfsM] at hn
    subst e1; subst e2
    rw [sLoop_nil, sLoop_nil]
  | succ n ih =>
    intro V S1 S2 f1 f2 hfil hn h1 h2
    cases S1 with
    | nil =>
      rw [sLoop_nil]
      refine Eq.symm (sLoop_all_visited adj f2 V S2 ?_)
      intro x hx
      by_contra hc
      have hxf : x ∈ S2.filter (fun v => !V.contains v) := by
        apply List.mem_filter.mpr
        refine ⟨hx, ?_⟩
        cases hv : V.contains x with
        | true => exact absurd hv hc
        | false => rfl
      rw [← hfil] at hxf
      simp at hxf
    | cons u T1 =>
      have hM1 : dfsM adj keys V (u :: T1) = T1.length + 1 + adjW adj keys V := by
        simp [dfsM, Nat.add_comm]
      cases f1 with
      | zero => rw [hM1] at h1; omega
      | succ a =>
        by_cases hu : V.contains u = true
        · rw [sLoop]
          simp only [hu, if_true]
          rw [List.filter_cons] at hfil
          rw [if_neg (by rw [hu]; simp)] at hfil
          apply ih V T1 S2 a f2 hfil
          · simp [dfsM] at hn ⊢; omega
          · rw [hM1] at h1; simp [dfsM]; omega
          · exact h2
        · have huf : V.contains u = false := by simpa using hu
          cases S2 with
          | nil =>
            exfalso
            rw [List.filter_cons] at hfil
            rw [if_pos (by rw [huf]; rfl)] at hfil
            simp at hfil
          | cons w T2 =>
            have hM2 : dfsM adj keys V (w :: T2) = T2.length + 1 + adjW adj keys V := by
              simp [dfsM, Nat.add_comm]
            cases f2 with
            | zero => rw [hM2] at h2; omega
            | succ b =>
              by_cases hw : V.contains w = true
              · conv_rhs => rw [sLoop]
                simp only [hw, if_true]
                rw [List.filter_cons, List.filter_cons] at hfil
                rw [if_pos (by rw [huf]; rfl), if_neg (by rw [hw]; simp)] at hfil
                apply ih V (u :: T1) T2 (a + 1) b
                · rw [List.filter_cons]
                  rw [if_pos (by rw [huf]; rfl)]
                  exact hfil
                · simp [dfsM] at hn ⊢; omega
                · exact h1
                · rw [hM2] at h2; simp [dfsM]; omega
              · have hwf : V.contains w = false := by simpa using hw
                rw [List.filter_cons, List.filter_cons] at hfil
                rw [if_pos (by rw [huf]; rfl), if_pos (by rw [hwf]; rfl)] at hfil
                obtain ⟨rfl, hT⟩ := List.cons.inj hfil
                rw [sLoop, sLoop]
                simp only [hu, Bool.false_eq_true, if_false]
                have hvisit := adjW_visit adj keys V u hnd huf (hout u)
                have hlen : ((adj u).filter (fun v => !(V ++ [u]).contains v)).length ≤
                    (adj u).length := List.length_filter_le _ _
                apply ih
                · rw [List.filter_append, List.filter_append]
                  congr 1
                  rw [filter_visited_cons V u T1, filter_visited_cons V u T2, hT]
                · simp only [dfsM, List.length_append, List.length_cons] at hn ⊢
                  omega
                · simp only [dfsM, List.length_append, List.length_cons] at h1 ⊢
                  omega
                · simp only [dfsM, List.length_append, List.length_cons] at h2 ⊢
                  omega

theorem sLoop_eq_dfsList (adj : String → List String) (keys : List String)
    (hnd : keys.Nodup) (hout : ∀ u, u ∉ keys → adj u = []) :
    ∀ (n : Nat), ∀ (V l rest : List String) (f1 fd f3 : Nat),
      dfsM adj keys V (l ++ rest) ≤ n →
      dfsM adj keys V (l ++ rest) ≤ f1 →
      dfsM adj keys V l ≤ fd →
      dfsM adj keys (dfsList adj fd V l) rest ≤ f3 →
      sLoop adj f1 V (l ++ rest) = sLoop adj f3 (dfsList adj fd V l) rest := by
  intro n
  induction n with
  | zero =>
    intro V l rest f1 fd f3 hn h1 hd h3
    have hlr : l ++ rest = [] := by
      cases hc : l ++ rest with
      | nil => rfl
      | cons x xs =>
        rw [hc] at hn
        simp [dfsM] at hn
    obtain ⟨rfl, rfl⟩ := List.append_eq_nil.mp hlr
    rw [List.nil_append, dfsList_nil, sLoop_nil, sLoop_nil]
  | succ n ih =>
    intro V l rest f1 fd f3 hn h1 hd h3
    cases l with
    | nil =>
      rw [dfsList_nil] at h3 ⊢
      exact sLoop_fuel adj keys hnd hout (n + 1) V rest f1 f3 (by simpa using hn)
        (by simpa using h1) h3
    | cons u l' =>
      rw [List.cons_append] at hn h1 ⊢
      have hMc : dfsM adj keys V (u :: (l' ++ rest)) =
          l'.length + rest.length + 1 + adjW adj keys V := by
        simp only [dfsM, List.length_cons, List.length_append]
      have hMl : dfsM adj keys V (u :: l') = l'.length + 1 + adjW adj keys V := by
        simp only [dfsM, List.length_cons]
      cases f1 with
      | zero => rw [hMc] at h1; omega
      | succ a =>
        cases fd with
        | zero => rw [hMl] at hd; omega
        | succ d =>
          by_cases hu : V.contains u = true
          · rw [sLoop]
            simp only [hu, if_true]
            have hdl : dfsList adj (d + 1) V (u :: l') = dfsList adj d V l' := by
              rw [dfsList]
              simp only [hu, if_true]
            rw [hdl] at h3 ⊢
            apply ih V l' rest a d f3
            · rw [hMc] at hn
              simp only [dfsM, List.length_append] at *
              omega
            · rw [hMc] at h1
              simp only [dfsM, List.length_append] at *
              omega
            · rw [hMl] at hd
              simp only [dfsM] at *
              omega
            · exact h3
          · have huf : V.contains u = false := by simpa using hu
            have hvisit := adjW_visit adj keys V u hnd huf (hout u)
            have hlen : ((adj u).filter (fun v => !(V ++ [u]).contains v)).length ≤
                (adj u).length := List.length_filter_le _ _
            obtain ⟨t, ht⟩ := dfsList_extends adj n (V ++ [u]) (adj u)
            have hWsub : adjW adj keys (dfsList adj n (V ++ [u]) (adj u)) ≤
                adjW adj keys (V ++ [u]) := by
              apply adjW_le_of_subset
              intro x hx
              rw [ht]
              exact contains_of_append (V ++ [u]) t x hx
            rw [hMc] at hn h1
            rw [hMl] at hd
            rw [sLoop]
            simp only [hu, Bool.false_eq_true, if_false]
            have mA : dfsM adj keys (V ++ [u])
                (((adj u).filter (fun v => !(V ++ [u]).contains v)) ++ (l' ++ rest)) ≤
                l'.length + rest.length + adjW adj keys V := by
              simp only [dfsM, List.length_append]
              omega
            have mB : dfsM adj keys (V ++ [u]) ((adj u) ++ (l' ++ rest)) =
                l'.length + rest.length + adjW adj keys V := by
              simp only [dfsM, List.length_append]
              omega
            have hstepA : sLoop adj a (V ++ [u])
                (((adj u).filter (fun v => !(V ++ [u]).contains v)) ++ (l' ++ rest)) =
                sLoop adj n (V ++ [u]) ((adj u) ++ (l' ++ rest)) := by
              apply sLoop_filter_robust adj keys hnd hout
                (dfsM adj keys (V ++ [u])
                  (((adj u).filter (fun v => !(V ++ [u]).contains v)) ++ (l' ++ rest)) +
                 dfsM adj keys (V ++ [u]) ((adj u) ++ (l' ++ rest)))
              · simp only [List.filter_append]
                congr 1
                refine List.filter_eq_self.mpr ?_
                intro x hx
                exact (List.mem_filter.mp hx).2
              · exact Nat.le_refl _
              · omega
              · rw [mB]; omega
            have hstepB : sLoop adj n (V ++ [u]) ((adj u) ++ (l' ++ rest)) =
                sLoop adj n (dfsList adj n (V ++ [u]) (adj u)) (l' ++ rest) := by
              apply ih (V ++ [u]) (adj u) (l' ++ rest) n n n
              · rw [mB]; omega
              · rw [mB]; omega
              · simp only [dfsM]
                omega
              · simp only [dfsM, List.length_append]
                omega
            have hstepC : sLoop adj n (dfsList adj n (V ++ [u]) (adj u)) (l' ++ rest) =
                sLoop adj f3 (dfsList adj n (dfsList adj n (V ++ [u]) (adj u)) l') rest := by
              apply ih (dfsList adj n (V ++ [u]) (adj u)) l' rest n n f3
              · simp only [dfsM, List.length_append]
                omega
              · simp only [dfsM, List.length_append]
                omega
              · simp only [dfsM]
                omega
              · have hdfin : dfsList adj (d + 1) V (u :: l') =
                    dfsList adj n (dfsList adj n (V ++ [u]) (adj u)) l' := by
                  rw [dfsList]
                  simp only [hu, Bool.false_eq_true, if_false]
                  have e1 : dfsList adj d (V ++ [u]) (adj u) =
                      dfsList adj n (V ++ [u]) (adj u) := by
                    apply dfsList_fuel adj keys hnd hout
                      (dfsM adj keys (V ++ [u]) (adj u)) _ _ _ _ (Nat.le_refl _)
                    · simp only [dfsM]
                      omega
                    · simp only [dfsM]
                      omega
                  rw [e1]
                  apply dfsList_fuel adj keys hnd hout
                    (dfsM adj keys (dfsList adj n (V ++ [u]) (adj u)) l') _ _ _ _
                    (Nat.le_refl _)
                  · simp only [dfsM]
                    omega
                  · simp only [dfsM]
                    omega
                rw [← hdfin]
                exact h3
            rw [hstepA, hstepB, hstepC]
            have hdfin : dfsList adj (d + 1) V (u :: l') =
                dfsList adj n (dfsList adj n (V ++ [u]) (adj u)) l' := by
              rw [dfsList]
              simp only [hu, Bool.false_eq_true, if_false]
              have e1 : dfsList adj d (V ++ [u]) (adj u) =
                  dfsList adj n (V ++ [u]) (adj u) := by
                apply dfsList_fuel adj keys hnd hout
                  (dfsM adj keys (V ++ [u]) (adj u)) _ _ _ _ (Nat.le_refl _)
                · simp only [dfsM]
                  omega
                · simp only [dfsM]
                  omega
              rw [e1]
              apply dfsList_fuel adj keys hnd hout
                (dfsM adj keys (dfsList adj n (V ++ [u]) (adj u)) l') _ _ _ _
                (Nat.le_refl _)
              · simp only [dfsM]
                omega
              · simp only [dfsM]
                omega
            rw [hdfin]

theorem sLoop_eq_dfsList_single (adj : String → List String) (keys : List String)
    (hnd : keys.Nodup) (hout : ∀ u, u ∉ keys → adj u = [])
    (V : List String) (s : String) (f1 fd : Nat)
    (h1 : dfsM adj keys V [s] ≤ f1) (hd : dfsM adj keys V [s] ≤ fd) :
    sLoop adj f1 V [s] = dfsList adj fd V [s] := by
  have h := sLoop_eq_dfsList adj keys hnd hout (dfsM adj keys V [s]) V [s] [] f1 fd
    (dfsM adj keys (dfsList adj fd V [s]) []) (Nat.le_refl _)
    (by simpa using h1) hd (Nat.le_refl _)
  simpa [sLoop_nil] using h

theorem dfsVisit_proj (g : Graph) (c : String) (st : DfsSt) (nb : AdjEntry) :
    (dfsVisit g c st nb).visited = st.visited ∧
    (dfsVisit g c st nb).stack =
      (if st.visited.contains nb.nodeId then st.stack else nb.nodeId :: st.stack) := by
  cases hedge : getEdgeBetween g c nb.nodeId <;>
    by_cases hv : st.visited.contains nb.nodeId <;>
      simp [dfsVisit, hedge, hv, apply_ite]

theorem dfsFold_proj (g : Graph) (c : String) :
    ∀ (ns : List AdjEntry) (st : DfsSt),
      (ns.reverse.foldl (dfsVisit g c) st).visited = st.visited ∧
      (ns.reverse.foldl (dfsVisit g c) st).stack =
        ((ns.map (fun nb => nb.nodeId)).filter
          (fun v => !st.visited.contains v)) ++ st.stack := by
  intro ns st
  rw [List.foldl_reverse]
  induction ns with
  | nil => exact ⟨rfl, rfl⟩
  | cons nb rest ih =>
    rw [List.foldr_cons]
    obtain ⟨ihv, ihs⟩ := ih
    obtain ⟨hv, hs⟩ := dfsVisit_proj g c (rest.foldr (fun b a => dfsVisit g c a b) st) nb
    rw [ihv] at hv hs
    constructor
    · exact hv
    · rw [hs, ihs, List.map_cons, List.filter_cons]
      by_cases hvis : st.visited.contains nb.nodeId
      · simp only [hvis, if_true, Bool.not_true, Bool.false_eq_true, if_false]
      · have hvf : st.visited.contains nb.nodeId = false := by simpa using hvis
        simp only [hvf, Bool.false_eq_true, if_false, Bool.not_false, if_true,
          List.cons_append]

theorem dfsLoop_visited (g : Graph) (adjList : AList (List AdjEntry)) :
    ∀ (fuel : Nat) (st : DfsSt),
      (dfsLoop g adjList fuel st).visited =
        sLoop (adjIds adjList) fuel st.visited st.stack := by
  intro fuel
  induction fuel with
  | zero => intro st; rfl
  | succ f ih =>
    intro st
    cases hst : st.stack with
    | nil =>
      rw [dfsLoop, sLoop]  -- placeholder, fixed below if needed
      rw [hst]
    | cons u rest =>
      rw [dfsLoop]
      rw [hst]
      by_cases hv : st.visited.contains u
      · simp only [hv, if_true]
        rw [ih]
        rw [sLoop]
        simp only [hv, if_true]
      · have hvf : st.visited.contains u = false := by simpa using hv
        simp only [hvf, Bool.false_eq_true, if_false]
        rw [ih]
        have hfv := fun stx => (dfsFold_proj g u ((aget adjList u).getD []) stx).1
        have hfs := fun stx => (dfsFold_proj g u ((aget adjList u).getD []) stx).2
        rw [sLoop]
        simp only [hvf, Bool.false_eq_true, if_false]
        rw [hfv, hfs]
        rfl

theorem not_mem_of_contains_eq_false {α : Type} [BEq α] [LawfulBEq α]
    {l : List α} {x : α} (h : l.contains x = false) : x ∉ l := by
  simpa using h

theorem find_isSome_eq_keys_contains {α : Type} (m : List (String × α)) (k : String) :
    (List.find? (fun p => p.1 == k) m).isSome = (m.map Prod.fst).contains k := by
  induction m with
  | nil => rfl
  | cons p rest ih =>
    by_cases h : p.1 = k
    · rw [List.find?_cons_of_pos _ (by simpa using h), List.map_cons, List.contains_cons]
      have hb2 : (k == p.1) = true := by simp [h]
      rw [hb2, Bool.true_or]
      rfl
    · rw [List.find?_cons_of_neg _ (by simpa using h), List.map_cons, List.contains_cons]
      have hb2 : (k == p.1) = false := beq_eq_false_iff_ne.mpr (fun hh => h hh.symm)
      rw [hb2, Bool.false_or]
      exact ih

theorem aget_eq_none_of_not_keys {α : Type} (m : List (String × α)) (k : String)
    (h : (m.map Prod.fst).contains k = false) : aget m k = none := by
  unfold aget
  rw [← find_isSome_eq_keys_contains] at h
  cases hf : List.find? (fun p => p.1 == k) m
  · rfl
  · rw [hf] at h
    simp at h

theorem keys_apush (m : List (String × List AdjEntry)) (k : String) (v : AdjEntry) :
    (apush m k v).map Prod.fst = m.map Prod.fst := by
  unfold apush
  rw [List.map_map]
  apply List.map_congr_left
  intro p hp
  by_cases h : p.1 = k <;> simp [h]

theorem keys_aset {α : Type} (m : List (String × α)) (k : String) (v : α) :
    (aset m k v).map Prod.fst =
      if (m.map Prod.fst).contains k then m.map Prod.fst
      else m.map Prod.fst ++ [k] := by
  unfold aset
  rw [find_isSome_eq_keys_contains]
  by_cases h : (m.map Prod.fst).contains k = true
  · simp only [h, if_true]
    rw [List.map_map]
    apply List.map_congr_left
    intro p hp
    by_cases h2 : p.1 = k <;> simp [h2]
  · have hf : (m.map Prod.fst).contains k = false := by simpa using h
    simp only [hf, Bool.false_eq_true, if_false]
    rw [List.map_append]
    rfl

theorem keys_foldl_aset_nodup {α : Type} (v : α) (f : Node → String) :
    ∀ (l : List Node) (m : List (String × α)),
      ((m.map Prod.fst).Nodup) →
      (((l.foldl (fun m n => aset m (f n) v) m)).map Prod.fst).Nodup := by
  intro l
  induction l with
  | nil => intro m h; exact h
  | cons n rest ih =>
    intro m h
    rw [List.foldl_cons]
    apply ih
    rw [keys_aset]
    by_cases hc : (m.map Prod.fst).contains (f n) = true
    · simp only [hc, if_true]
      exact h
    · have hf : (m.map Prod.fst).contains (f n) = false := by simpa using hc
      simp only [hf, Bool.false_eq_true, if_false]
      rw [← List.concat_eq_append]
      apply List.Nodup.concat
      · exact not_mem_of_contains_eq_false hf
      · exact h

theorem adjTotalLen_aset_nil (m : AList (List AdjEntry)) (k : String) :
    adjTotalLen (aset m k []) ≤ adjTotalLen m := by
  unfold adjTotalLen aset
  by_cases h : (List.find? (fun p => p.1 == k) m).isSome = true
  · simp only [h, if_true]
    rw [List.map_map]
    apply List.sum_le_sum
    intro p hp
    by_cases h2 : p.1 = k <;> simp [h2]
  · have hf : (List.find? (fun p => p.1 == k) m).isSome = false := by
      cases hx : (List.find? (fun p => p.1 == k) m).isSome
      · rfl
      · exact absurd hx h
    simp only [hf, Bool.false_eq_true, if_false]
    simp

theorem adjTotalLen_foldl_aset_nil :
    ∀ (l : List Node) (m : AList (List AdjEntry)),
      adjTotalLen (l.foldl (fun m n => aset m n.id []) m) ≤ adjTotalLen m := by
  intro l
  induction l with
  | nil => intro m; exact Nat.le_refl _
  | cons n rest ih =>
    intro m
    rw [List.foldl_cons]
    exact Nat.le_trans (ih _) (adjTotalLen_aset_nil m n.id)

theorem apush_no_key (rest : List (String × List AdjEntry)) (k : String) (v : AdjEntry)
    (h : ∀ q ∈ rest, (q.1 == k) = false) : apush rest k v = rest := by
  unfold apush
  induction rest with
  | nil => rfl
  | cons q rest ih =>
    rw [List.map_cons, h q (List.mem_cons_self q rest)]
    simp only [Bool.false_eq_true, if_false]
    rw [ih (fun q hq => h q (List.mem_cons_of_mem _ hq))]

theorem adjTotalLen_apush (m : AList (List AdjEntry)) (k : String) (v : AdjEntry)
    (hnd : (m.map Prod.fst).Nodup) :
    adjTotalLen (apush m k v) ≤ adjTotalLen m + 1 := by
  induction m with
  | nil => simp [adjTotalLen, apush]
  | cons p rest ih =>
    rw [List.map_cons, List.nodup_cons] at hnd
    obtain ⟨hpk, hndr⟩ := hnd
    unfold apush at *
    rw [List.map_cons]
    by_cases h : p.1 = k
    · have hrest : List.map (fun p => if p.1 == k then (p.1, p.2 ++ [v]) else p) rest
          = rest := by
        apply apush_no_key
        intro q hq
        rw [beq_eq_false_iff_ne]
        intro hqk
        apply hpk
        have hpq : p.1 = q.1 := by rw [h, ← hqk]
        rw [hpq]
        exact List.mem_map_of_mem Prod.fst hq
      rw [hrest]
      simp only [h, beq_self_eq_true, if_true]
      simp [adjTotalLen]
      omega
    · have hb : (p.1 == k) = false := by rw [beq_eq_false_iff_ne]; exact h
      rw [hb]
      simp only [Bool.false_eq_true, if_false]
      have := ih hndr
      simp [adjTotalLen] at *
      omega

theorem contains_eq_false_of_not_mem {l : List String} {x : String} (h : x ∉ l) :
    l.contains x = false := by
  simpa using h

theorem keys_edge_fold (g : Graph) :
    ∀ (l : List Edge) (m : AList (List AdjEntry)),
      ((l.foldl (fun m e =>
        let m := apush m e.source { nodeId := e.target, weight := e.weight }
        if g.directed then m
        else apush m e.target { nodeId := e.source, weight := e.weight }) m).map Prod.fst) =
      m.map Prod.fst := by
  intro l
  induction l with
  | nil => intro m; rfl
  | cons e rest ih =>
    intro m
    rw [List.foldl_cons, ih]
    by_cases hdir : g.directed <;> simp [hdir, keys_apush]

theorem keys_toAdjacencyList_nodup (g : Graph) :
    ((toAdjacencyList g).map Prod.fst).Nodup := by
  unfold toAdjacencyList
  rw [keys_edge_fold]
  exact keys_foldl_aset_nodup [] (fun n => n.id) g.nodes [] List.nodup_nil

theorem adjTotalLen_edge_fold (g : Graph) :
    ∀ (l : List Edge) (m : AList (List AdjEntry)),
      ((m.map Prod.fst).Nodup) →
      adjTotalLen (l.foldl (fun m e =>
        let m := apush m e.source { nodeId := e.target, weight := e.weight }
        if g.directed then m
        else apush m e.target { nodeId := e.source, weight := e.weight }) m) ≤
      adjTotalLen m + 2 * l.length := by
  intro l
  induction l with
  | nil => intro m _; simp
  | cons e rest ih =>
    intro m hnd
    have hkstep : ((if g.directed = true then apush m e.source { nodeId := e.target, weight := e.weight }
        else apush (apush m e.source { nodeId := e.target, weight := e.weight }) e.target { nodeId := e.source, weight := e.weight })).map Prod.fst = m.map Prod.fst := by
      by_cases hdir : g.directed = true
      · rw [if_pos hdir, keys_apush]
      · rw [if_neg hdir, keys_apush, keys_apush]
    have hstep : adjTotalLen (if g.directed = true then apush m e.source { nodeId := e.target, weight := e.weight }
        else apush (apush m e.source { nodeId := e.target, weight := e.weight }) e.target { nodeId := e.source, weight := e.weight }) ≤ adjTotalLen m + 2 := by
      by_cases hdir : g.directed = true
      · rw [if_pos hdir]
        have h1 := adjTotalLen_apush m e.source { nodeId := e.target, weight := e.weight } hnd
        omega
      · rw [if_neg hdir]
        have h1 := adjTotalLen_apush m e.source { nodeId := e.target, weight := e.weight } hnd
        have hnd1 : ((apush m e.source { nodeId := e.target, weight := e.weight }).map Prod.fst).Nodup := by
          rw [keys_apush]
          exact hnd
        have h2 := adjTotalLen_apush (apush m e.source { nodeId := e.target, weight := e.weight }) e.target { nodeId := e.source, weight := e.weight } hnd1
        omega
    have hnd2 : (((if g.directed = true then apush m e.source { nodeId := e.target, weight := e.weight }
        else apush (apush m e.source { nodeId := e.target, weight := e.weight }) e.target { nodeId := e.source, weight := e.weight })).map Prod.fst).Nodup := by
      rw [hkstep]
      exact hnd
    have hrec := ih (if g.directed = true then apush m e.source { nodeId := e.target, weight := e.weight }
        else apush (apush m e.source { nodeId := e.target, weight := e.weight }) e.target { nodeId := e.source, weight := e.weight }) hnd2
    rw [List.foldl_cons]
    simp only [List.length_cons]
    have hfin : adjTotalLen (if g.directed = true then apush m e.source { nodeId := e.target, weight := e.weight }
        else apush (apush m e.source { nodeId := e.target, weight := e.weight }) e.target { nodeId := e.source, weight := e.weight }) + 2 * rest.length ≤
        adjTotalLen m + 2 * (rest.length + 1) := by omega
    exact le_trans hrec hfin

theorem adjTotalLen_toAdjacencyList (g : Graph) :
    adjTotalLen (toAdjacencyList g) ≤ 2 * g.edges.length := by
  have hnd : ((g.nodes.foldl (fun m n => aset m n.id ([] : List AdjEntry)) []).map
      Prod.fst).Nodup := keys_foldl_aset_nodup [] (fun n => n.id) g.nodes [] List.nodup_nil
  have h1 := adjTotalLen_edge_fold g g.edges
    (g.nodes.foldl (fun m n => aset m n.id ([] : List AdjEntry)) []) hnd
  have h2 := adjTotalLen_foldl_aset_nil g.nodes []
  have h0 : adjTotalLen ([] : AList (List AdjEntry)) = 0 := rfl
  have hX : adjTotalLen (g.nodes.foldl (fun m n => aset m n.id ([] : List AdjEntry)) []) +
      2 * g.edges.length ≤ 2 * g.edges.length := by omega
  exact le_trans h1 hX

theorem adjW_adj_congr (adj1 adj2 : String → List String) (keys V : List String)
    (h : ∀ k ∈ keys, adj1 k = adj2 k) : adjW adj1 keys V = adjW adj2 keys V := by
  unfold adjW
  congr 1
  apply List.map_congr_left
  intro k hk
  rw [h k (List.mem_of_mem_filter hk)]

theorem adjW_keys_eq_adjTotalLen :
    ∀ (m : AList (List AdjEntry)), ((m.map Prod.fst).Nodup) →
      adjW (adjIds m) (m.map Prod.fst) [] = adjTotalLen m := by
  intro m
  induction m with
  | nil => intro _; rfl
  | cons p rest ih =>
    intro hnd
    rw [List.map_cons] at hnd ⊢
    rw [List.nodup_cons] at hnd
    obtain ⟨hpk, hndr⟩ := hnd
    rw [adjW_cons]
    have hif : (if ([] : List String).contains p.1 then 0
        else (adjIds (p :: rest) p.1).length) = (adjIds (p :: rest) p.1).length := rfl
    rw [hif]
    have hhead : adjIds (p :: rest) p.1 = p.2.map (fun nb => nb.nodeId) := by
      unfold adjIds aget
      rw [List.find?_cons_of_pos _ (by simp)]
      rfl
    have htail : adjW (adjIds (p :: rest)) (rest.map Prod.fst) [] =
        adjW (adjIds rest) (rest.map Prod.fst) [] := by
      apply adjW_adj_congr
      intro k hk
      have hne : (p.1 == k) = false := by
        rw [beq_eq_false_iff_ne]
        intro hkk
        exact hpk (hkk ▸ hk)
      unfold adjIds aget
      rw [List.find?_cons_of_neg _ (by rw [hne]; exact Bool.false_ne_true)]
    rw [hhead, htail, ih hndr]
    simp [adjTotalLen]

theorem adjIds_not_key (m : AList (List AdjEntry)) (u : String)
    (h : u ∉ m.map Prod.fst) : adjIds m u = [] := by
  unfold adjIds
  rw [aget_eq_none_of_not_keys m u (by simpa using h)]
  rfl

theorem dfsM_init_le_stdFuel (g : Graph) (s : String) :
    dfsM (adjIds (toAdjacencyList g)) ((toAdjacencyList g).map Prod.fst) [] [s] ≤
      stdFuel g := by
  have h1 := adjW_keys_eq_adjTotalLen (toAdjacencyList g) (keys_toAdjacencyList_nodup g)
  have h2 := adjTotalLen_toAdjacencyList g
  unfold dfsM stdFuel
  simp only [List.length_cons, List.length_nil]
  omega

theorem dfs_exec_order_eq_rec (g : Graph) (s : String) :
    dfsExecOrder g s = dfsRecOrder g s := by
  unfold dfsExecOrder dfsRecOrder
  rw [dfsLoop_visited]
  exact sLoop_eq_dfsList_single (adjIds (toAdjacencyList g))
    ((toAdjacencyList g).map Prod.fst) (keys_toAdjacencyList_nodup g)
    (fun u hu => adjIds_not_key _ u hu) [] s (stdFuel g) (stdFuel g)
    (dfsM_init_le_stdFuel g s) (dfsM_init_le_stdFuel g s)

/-- C5 (amended): for every graph and every node X of the graph with a
non-empty id, running the DFS executor from X visits nodes in exactly the
order of the reference recursive DFS (`dfsRecOrder`), and the final step of
`executeDFS` reports that visit order in its `visited` data structure.  The
pure-machine half `dfsExecOrder = dfsRecOrder` holds for every start id. -/
theorem dfs_exec_visits_in_recursive_order (g : Graph) (X : Node) (hX : X ∈ g.nodes)
    (hid : X.id ≠ "") (p : AlgorithmParams) (hs : p.startNodeId = some X.id) :
    dfsExecOrder g X.id = dfsRecOrder g X.id ∧
    (executeDFS g p).getLast?.map (fun st => dsLookup st "visited") =
      some (some (DSVal.arr ((dfsRecOrder g X.id).map (mapLabel g)))) := by
  refine ⟨dfs_exec_order_eq_rec g X.id, ?_⟩
  have hsf : strFalsy (some X.id) = false := strFalsy_some_ne hid
  have hfs : (g.nodes.find? fun n => n.id == X.id).isSome := by
    rw [List.find?_isSome]
    exact ⟨X, hX, by simp⟩
  obtain ⟨n₀, hn₀⟩ := Option.isSome_iff_exists.mp hfs
  have hnn : (getNode g X.id).isNone = false := by
    unfold getNode
    rw [hn₀]
    rfl
  have hvis : ∀ (ns : AList NodeState) (stps : List AlgorithmStep),
      (dfsLoop g (toAdjacencyList g) (stdFuel g)
        { stack := [X.id]
          visited := []
          nodeStates := ns
          edgeStates := initEdgeStates g
          metrics := {
            nodesVisited := 0
            edgesExamined := 0
            operationsCount := 1
            comparisons := 0 }
          steps := stps }).visited = dfsRecOrder g X.id := by
    intro ns stps
    rw [dfsLoop_visited]
    exact sLoop_eq_dfsList_single (adjIds (toAdjacencyList g))
      ((toAdjacencyList g).map Prod.fst) (keys_toAdjacencyList_nodup g)
      (fun u hu => adjIds_not_key _ u hu) [] X.id (stdFuel g) (stdFuel g)
      (dfsM_init_le_stdFuel g X.id) (dfsM_init_le_stdFuel g X.id)
  simp only [executeDFS, hs, hsf, Bool.false_eq_true, if_false, hnn]
  rw [List.getLast?_concat]
  rw [hvis]
  with_unfolding_all rfl

/-- C5 counterexample to the unamended claim: the node with the empty-string
id is present in the graph, yet `executeDFS` returns no steps at all (the JS
falsy guard fires), while the reference recursive DFS visits that node. -/
theorem dfs_empty_id_start_returns_empty :
    executeDFS gEmptyId { startNodeId := some "" } = [] ∧
    dfsRecOrder gEmptyId "" = [""] := by
  constructor
  · with_unfolding_all rfl
  · with_unfolding_all rfl

/-- Closed witness for `dfs_exec_visits_in_recursive_order` at a concrete
input. -/
theorem dfs_exec_visits_witness :
    mkNode "a" "A" ∈ gSingleA.nodes ∧ (mkNode "a" "A").id ≠ "" ∧
    (({ startNodeId := some "a" } : AlgorithmParams).startNodeId =
      some (mkNode "a" "A").id) ∧
    (dfsExecOrder gSingleA (mkNode "a" "A").id = dfsRecOrder gSingleA (mkNode "a" "A").id ∧
    (executeDFS gSingleA { startNodeId := some "a" }).getLast?.map
        (fun st => dsLookup st "visited") =
      some (some (DSVal.arr ((dfsRecOrder gSingleA (mkNode "a" "A").id).map
        (mapLabel gSingleA))))) :=
  ⟨by simp [gSingleA], by decide, rfl,
    dfs_exec_visits_in_recursive_order gSingleA (mkNode "a" "A") (by simp [gSingleA])
      (by decide) { startNodeId := some "a" } rfl⟩

/-! ## C6 and C7: completeness of the per-step state maps and metrics
monotonicity, across all nine executors.

A single run invariant `traceInv` is pushed through every loop body: the two
maps stay complete (they are only ever extended by `aset`), each appended step
snapshots complete maps, and each appended step's metrics lie between the
previous and the current counters. -/

theorem mleB_of_le {a b : AlgorithmMetrics} (h1 : a.nodesVisited ≤ b.nodesVisited)
    (h2 : a.edgesExamined ≤ b.edgesExamined) (h3 : a.operationsCount ≤ b.operationsCount)
    (h4 : a.comparisons ≤ b.comparisons) : mleB a b = true := by
  simp [mleB, h1, h2, h3, h4]

theorem mleB_refl (a : AlgorithmMetrics) : mleB a a = true :=
  mleB_of_le (Nat.le_refl _) (Nat.le_refl _) (Nat.le_refl _) (Nat.le_refl _)

theorem mleB_trans {a b c : AlgorithmMetrics} (h1 : mleB a b = true)
    (h2 : mleB b c = true) : mleB a c = true := by
  simp [mleB] at *
  omega

theorem nsComplete_aset (g : Graph) (m : AList NodeState) (k : String) (v : NodeState)
    (h : nsComplete g m = true) : nsComplete g (aset m k v) = true := by
  rw [nsComplete, List.all_eq_true] at *
  intro n hn
  exact aget_isSome_aset m k n.id v (h n hn)

theorem esComplete_aset (g : Graph) (m : AList EdgeState) (k : String) (v : EdgeState)
    (h : esComplete g m = true) : esComplete g (aset m k v) = true := by
  rw [esComplete, List.all_eq_true] at *
  intro e he
  exact aget_isSome_aset m k e.id v (h e he)

theorem nsComplete_init (g : Graph) : nsComplete g (initNodeStates g) = true := by
  rw [nsComplete, List.all_eq_true]
  intro n hn
  rw [aget_initNodeStates g n hn]
  rfl

theorem esComplete_init (g : Graph) : esComplete g (initEdgeStates g) = true := by
  rw [esComplete, List.all_eq_true]
  intro e he
  rw [aget_initEdgeStates g e he]
  rfl

theorem foldl_pres {σ γ : Type} (P : σ → Prop) (F : σ → γ → σ)
    (h : ∀ s c, P s → P (F s c)) :
    ∀ (l : List γ) (s : σ), P s → P (l.foldl F s) := by
  intro l
  induction l with
  | nil => intro s hs; exact hs
  | cons c rest ih =>
    intro s hs
    rw [List.foldl_cons]
    exact ih (F s c) (h s c hs)

theorem stepsComplete_snoc (g : Graph) (l : List AlgorithmStep) (s : AlgorithmStep)
    (h : stepsComplete g l = true) (hs : stepComplete g s = true) :
    stepsComplete g (l ++ [s]) = true := by
  rw [stepsComplete, List.all_append]
  rw [stepsComplete] at h
  simp [h, hs]

theorem metricsMono_snoc : ∀ (l : List AlgorithmStep) (s : AlgorithmStep),
    metricsMono l = true →
    (∀ last, l.getLast? = some last → mleB last.metrics s.metrics = true) →
    metricsMono (l ++ [s]) = true := by
  intro l
  induction l with
  | nil => intro s _ _; rfl
  | cons a t ih =>
    intro s hm hl
    cases t with
    | nil =>
      have ha := hl a rfl
      simp [metricsMono, ha]
    | cons b t2 =>
      have hmm : metricsMono (a :: b :: t2) =
          (mleB a.metrics b.metrics && metricsMono (b :: t2)) := rfl
      rw [hmm, Bool.and_eq_true] at hm
      show metricsMono (a :: ((b :: t2) ++ [s])) = true
      rw [List.cons_append]
      have hmm2 : metricsMono (a :: b :: (t2 ++ [s])) =
          (mleB a.metrics b.metrics && metricsMono (b :: (t2 ++ [s]))) := rfl
      rw [hmm2, Bool.and_eq_true]
      refine ⟨hm.1, ?_⟩
      have := ih s hm.2 (fun last hlast => hl last (by
        rw [List.getLast?_cons_cons]
        exact hlast))
      rw [List.cons_append] at this
      exact this

theorem traceInv_snoc (g : Graph) {steps : List AlgorithmStep} {m : AlgorithmMetrics}
    (h3 : stepsComplete g steps = true) (h4 : metricsMono steps = true)
    (h5 : ∀ last, steps.getLast? = some last → mleB last.metrics m = true)
    (s : AlgorithmStep) (hsC : stepComplete g s = true)
    (hm1 : mleB m s.metrics = true) (m2 : AlgorithmMetrics)
    (hm2 : mleB s.metrics m2 = true) :
    stepsComplete g (steps ++ [s]) = true ∧ metricsMono (steps ++ [s]) = true ∧
    (∀ last, (steps ++ [s]).getLast? = some last → mleB last.metrics m2 = true) := by
  refine ⟨stepsComplete_snoc g steps s h3 hsC, ?_, ?_⟩
  · exact metricsMono_snoc steps s h4
      (fun last hlast => mleB_trans (h5 last hlast) hm1)
  · intro last hlast
    rw [List.getLast?_concat] at hlast
    cases hlast
    exact hm2

theorem stepComplete_eq (g : Graph) (s : AlgorithmStep) :
    stepComplete g s = (nsComplete g s.nodeStates && esComplete g s.edgeStates) := rfl

theorem traceInv_snoc2 (g : Graph) {steps : List AlgorithmStep} {m : AlgorithmMetrics}
    (h3 : stepsComplete g steps = true) (h4 : metricsMono steps = true)
    (h5 : ∀ last, steps.getLast? = some last → mleB last.metrics m = true)
    (s1 s2 : AlgorithmStep) (hc1 : stepComplete g s1 = true)
    (hc2 : stepComplete g s2 = true) (hm1 : mleB m s1.metrics = true)
    (hm12 : mleB s1.metrics s2.metrics = true) (m2 : AlgorithmMetrics)
    (hm2 : mleB s2.metrics m2 = true) :
    stepsComplete g (steps ++ [s1] ++ [s2]) = true ∧
    metricsMono (steps ++ [s1] ++ [s2]) = true ∧
    (∀ last, (steps ++ [s1] ++ [s2]).getLast? = some last →
      mleB last.metrics m2 = true) := by
  have k := traceInv_snoc g h3 h4 h5 s1 hc1 hm1 s1.metrics (mleB_refl _)
  exact traceInv_snoc g k.1 k.2.1 k.2.2 s2 hc2 hm12 m2 hm2

theorem bfsVisit_inv (g : Graph) (c : String) (st : BfsSt) (nb : AdjEntry)
    (h : traceInv g st.nodeStates st.edgeStates st.steps st.metrics) :
    traceInv g (bfsVisit g c st nb).nodeStates (bfsVisit g c st nb).edgeStates
      (bfsVisit g c st nb).steps (bfsVisit g c st nb).metrics := by
  unfold traceInv at h ⊢
  obtain ⟨h1, h2, h3, h4, h5⟩ := h
  cases hedge : getEdgeBetween g c nb.nodeId with
  | none =>
    by_cases hv : st.visited.contains nb.nodeId = true
    · simp only [bfsVisit, hedge, hv, if_true]
      refine ⟨h1, h2, ?_⟩
      refine traceInv_snoc g h3 h4 h5 _ ?_ ?_ _ ?_
      · rw [stepComplete_eq]
        simp [h1, h2]
      · exact mleB_of_le (Nat.le_refl _) (Nat.le_succ _) (Nat.le_succ _) (Nat.le_succ _)
      · exact mleB_refl _
    · have hvf : st.visited.contains nb.nodeId = false := by
        cases hx : st.visited.contains nb.nodeId
        · rfl
        · exact absurd hx hv
      simp only [bfsVisit, hedge, hvf, Bool.false_eq_true, if_false]
      refine ⟨nsComplete_aset g _ _ _ h1, h2, ?_⟩
      refine traceInv_snoc2 g h3 h4 h5 _ _ ?_ ?_ ?_ ?_ _ ?_
      · rw [stepComplete_eq]
        simp [h1, h2]
      · rw [stepComplete_eq]
        simp [nsComplete_aset g _ _ _ h1, h2]
      · exact mleB_of_le (Nat.le_refl _) (Nat.le_succ _) (Nat.le_succ _) (Nat.le_succ _)
      · exact mleB_of_le (Nat.le_succ _) (Nat.le_refl _) (Nat.le_refl _) (Nat.le_refl _)
      · exact mleB_refl _
  | some e =>
    have he2 : esComplete g (aset st.edgeStates e.id EdgeState.examining) = true :=
      esComplete_aset g _ _ _ h2
    by_cases hv : st.visited.contains nb.nodeId = true
    · simp only [bfsVisit, hedge, hv, if_true]
      by_cases hr : (aget (aset st.edgeStates e.id EdgeState.examining) e.id !=
          some EdgeState.in_solution) = true
      · simp only [hr, if_true]
        refine ⟨h1, esComplete_aset g _ _ _ he2, ?_⟩
        refine traceInv_snoc g h3 h4 h5 _ ?_ ?_ _ ?_
        · rw [stepComplete_eq]
          simp [h1, he2]
        · exact mleB_of_le (Nat.le_refl _) (Nat.le_succ _) (Nat.le_succ _) (Nat.le_succ _)
        · exact mleB_refl _
      · have hrf : (aget (aset st.edgeStates e.id EdgeState.examining) e.id !=
            some EdgeState.in_solution) = false := by
          cases hx : (aget (aset st.edgeStates e.id EdgeState.examining) e.id !=
            some EdgeState.in_solution)
          · rfl
          · exact absurd hx hr
        simp only [hrf, Bool.false_eq_true, if_false]
        refine ⟨h1, he2, ?_⟩
        refine traceInv_snoc g h3 h4 h5 _ ?_ ?_ _ ?_
        · rw [stepComplete_eq]
          simp [h1, he2]
        · exact mleB_of_le (Nat.le_refl _) (Nat.le_succ _) (Nat.le_succ _) (Nat.le_succ _)
        · exact mleB_refl _
    · have hvf : st.visited.contains nb.nodeId = false := by
        cases hx : st.visited.contains nb.nodeId
        · rfl
        · exact absurd hx hv
      simp only [bfsVisit, hedge, hvf, Bool.false_eq_true, if_false]
      refine ⟨nsComplete_aset g _ _ _ h1, esComplete_aset g _ _ _ he2, ?_⟩
      refine traceInv_snoc2 g h3 h4 h5 _ _ ?_ ?_ ?_ ?_ _ ?_
      · rw [stepComplete_eq]
        simp [h1, he2]
      · rw [stepComplete_eq]
        simp [nsComplete_aset g _ _ _ h1, esComplete_aset g _ _ _ he2]
      · exact mleB_of_le (Nat.le_refl _) (Nat.le_succ _) (Nat.le_succ _) (Nat.le_succ _)
      · exact mleB_of_le (Nat.le_succ _) (Nat.le_refl _) (Nat.le_refl _) (Nat.le_refl _)
      · exact mleB_refl _

theorem traceInv_app1 (g : Graph) {ns : AList NodeState} {es : AList EdgeState}
    {steps : List AlgorithmStep} {m : AlgorithmMetrics}
    (h : traceInv g ns es steps m)
    (ns2 : AList NodeState) (es2 : AList EdgeState) (m2 : AlgorithmMetrics)
    (hns2 : nsComplete g ns = true → nsComplete g ns2 = true)
    (hes2 : esComplete g es = true → esComplete g es2 = true)
    (d : AlgorithmStep)
    (hdn : nsComplete g ns = true → nsComplete g d.nodeStates = true)
    (hde : esComplete g es = true → esComplete g d.edgeStates = true)
    (hdm1 : mleB m d.metrics = true) (hdm2 : mleB d.metrics m2 = true) :
    traceInv g ns2 es2 (steps ++ [d]) m2 := by
  unfold traceInv at h ⊢
  obtain ⟨h1, h2, h3, h4, h5⟩ := h
  refine ⟨hns2 h1, hes2 h2, ?_⟩
  refine traceInv_snoc g h3 h4 h5 d ?_ hdm1 m2 hdm2
  rw [stepComplete_eq]
  simp [hdn h1, hde h2]

theorem traceInv_upd (g : Graph) {ns : AList NodeState} {es : AList EdgeState}
    {steps : List AlgorithmStep} {m : AlgorithmMetrics}
    (h : traceInv g ns es steps m)
    (ns2 : AList NodeState) (es2 : AList EdgeState) (m2 : AlgorithmMetrics)
    (hns2 : nsComplete g ns = true → nsComplete g ns2 = true)
    (hes2 : esComplete g es = true → esComplete g es2 = true)
    (hm2 : mleB m m2 = true) :
    traceInv g ns2 es2 steps m2 := by
  unfold traceInv at h ⊢
  obtain ⟨h1, h2, h3, h4, h5⟩ := h
  exact ⟨hns2 h1, hes2 h2, h3, h4, fun l hl => mleB_trans (h5 l hl) hm2⟩

theorem traceInv_single (g : Graph) (ns : AList NodeState) (es : AList EdgeState)
    (hn : nsComplete g ns = true) (he : esComplete g es = true)
    (d : AlgorithmStep) (m : AlgorithmMetrics)
    (hdn : nsComplete g d.nodeStates = true) (hde : esComplete g d.edgeStates = true)
    (hdm : mleB d.metrics m = true) : traceInv g ns es [d] m := by
  refine ⟨hn, he, ?_, rfl, ?_⟩
  · rw [stepsComplete]
    simp [stepComplete_eq, hdn, hde]
  · intro l hl
    cases hl
    exact hdm

theorem exe_final (g : Graph) {ns : AList NodeState} {es : AList EdgeState}
    {steps : List AlgorithmStep} {m : AlgorithmMetrics}
    (h : traceInv g ns es steps m) (d : AlgorithmStep)
    (hdn : nsComplete g ns = true → nsComplete g d.nodeStates = true)
    (hde : esComplete g es = true → esComplete g d.edgeStates = true)
    (hdm : mleB m d.metrics = true) :
    stepsComplete g (steps ++ [d]) = true ∧ metricsMono (steps ++ [d]) = true := by
  unfold traceInv at h
  obtain ⟨h1, h2, h3, h4, h5⟩ := h
  constructor
  · refine stepsComplete_snoc g steps d h3 ?_
    rw [stepComplete_eq]
    simp [hdn h1, hde h2]
  · exact metricsMono_snoc steps d h4 (fun l hl => mleB_trans (h5 l hl) hdm)

theorem exe_done {g : Graph} {ns : AList NodeState} {es : AList EdgeState}
    {steps : List AlgorithmStep} {m : AlgorithmMetrics}
    (h : traceInv g ns es steps m) :
    stepsComplete g steps = true ∧ metricsMono steps = true :=
  ⟨h.2.2.1, h.2.2.2.1⟩

theorem nsComplete_foldl_aset (g : Graph) (v : NodeState) (l : List String) :
    ∀ (ms : AList NodeState), nsComplete g ms = true →
      nsComplete g (l.foldl (fun mm id => aset mm id v) ms) = true :=
  fun ms hm => foldl_pres (fun mm => nsComplete g mm = true) _
    (fun mm id hmm => nsComplete_aset g mm id v hmm) l ms hm

theorem bfsLoop_inv (g : Graph) (adjList : AList (List AdjEntry)) :
    ∀ (fuel : Nat) (st : BfsSt),
      traceInv g st.nodeStates st.edgeStates st.steps st.metrics →
      traceInv g (bfsLoop g adjList fuel st).nodeStates
        (bfsLoop g adjList fuel st).edgeStates (bfsLoop g adjList fuel st).steps
        (bfsLoop g adjList fuel st).metrics := by
  intro fuel
  induction fuel with
  | zero => intro st h; exact h
  | succ f ih =>
    intro st h
    rw [bfsLoop]
    cases hq : st.queue with
    | nil => exact h
    | cons u rest =>
      apply ih
      exact traceInv_app1 g
        (foldl_pres
          (fun s : BfsSt => traceInv g s.nodeStates s.edgeStates s.steps s.metrics)
          (bfsVisit g u) (fun s c hs => bfsVisit_inv g u s c hs) _ _
          (traceInv_app1 g h _ _ _
            (fun hh => nsComplete_aset g _ _ _ hh) (fun hh => hh) _
            (fun hh => nsComplete_aset g _ _ _ hh) (fun hh => hh)
            (mleB_of_le (Nat.le_refl _) (Nat.le_refl _) (Nat.le_succ _) (Nat.le_refl _))
            (mleB_refl _)))
        _ _ _ (fun hh => nsComplete_aset g _ _ _ hh) (fun hh => hh) _
        (fun hh => nsComplete_aset g _ _ _ hh) (fun hh => hh) (mleB_refl _) (mleB_refl _)

theorem executeBFS_inv (g : Graph) (p : AlgorithmParams) :
    stepsComplete g (executeBFS g p) = true ∧ metricsMono (executeBFS g p) = true := by
  unfold executeBFS
  by_cases hf : strFalsy p.startNodeId = true
  · simp only [hf, if_true]
    exact ⟨rfl, rfl⟩
  · have hff : strFalsy p.startNodeId = false := by
      cases hx : strFalsy p.startNodeId
      · rfl
      · exact absurd hx hf
    simp only [hff, Bool.false_eq_true, if_false]
    cases hs : p.startNodeId with
    | none => exact ⟨rfl, rfl⟩
    | some sid =>
      by_cases hn : (getNode g sid).isNone = true
      · simp only [hn, if_true]
        exact ⟨rfl, rfl⟩
      · have hnf : (getNode g sid).isNone = false := by
          cases hx : (getNode g sid).isNone
          · rfl
          · exact absurd hx hn
        simp only [hnf, Bool.false_eq_true, if_false]
        exact exe_final g
          (bfsLoop_inv g _ _ _
            (traceInv_single g _ _
              (nsComplete_aset g _ _ _ (nsComplete_init g)) (esComplete_init g) _ _
              (nsComplete_aset g _ _ _ (nsComplete_init g)) (esComplete_init g)
              (mleB_refl _)))
          _ (fun hh => nsComplete_foldl_aset g _ _ _ hh) (fun hh => hh) (mleB_refl _)

theorem nsComplete_if_aset (g : Graph) (c : Prop) [Decidable c] (m : AList NodeState)
    (k : String) (v : NodeState) (h : nsComplete g m = true) :
    nsComplete g (if c then aset m k v else m) = true := by
  split
  · exact nsComplete_aset g _ _ _ h
  · exact h

theorem esComplete_if_aset (g : Graph) (c : Prop) [Decidable c] (m : AList EdgeState)
    (k : String) (v : EdgeState) (h : esComplete g m = true) :
    esComplete g (if c then aset m k v else m) = true := by
  split
  · exact esComplete_aset g _ _ _ h
  · exact h

theorem nsComplete_ite2 (g : Graph) (c : Prop) [Decidable c] (m : AList NodeState)
    (k : String) (v : NodeState) (h : nsComplete g m = true) :
    nsComplete g (if c then m else aset m k v) = true := by
  split
  · exact h
  · exact nsComplete_aset g _ _ _ h

theorem esComplete_ite2 (g : Graph) (c : Prop) [Decidable c] (m : AList EdgeState)
    (k : String) (v : EdgeState) (h : esComplete g m = true) :
    esComplete g (if c then m else aset m k v) = true := by
  split
  · exact h
  · exact esComplete_aset g _ _ _ h

theorem dfsVisit_inv (g : Graph) (c : String) (st : DfsSt) (nb : AdjEntry)
    (h : traceInv g st.nodeStates st.edgeStates st.steps st.metrics) :
    traceInv g (dfsVisit g c st nb).nodeStates (dfsVisit g c st nb).edgeStates
      (dfsVisit g c st nb).steps (dfsVisit g c st nb).metrics := by
  unfold traceInv at h ⊢
  obtain ⟨h1, h2, h3, h4, h5⟩ := h
  cases hedge : getEdgeBetween g c nb.nodeId with
  | none =>
    by_cases hv : st.visited.contains nb.nodeId = true
    · simp only [dfsVisit, hedge, hv, if_true]
      exact ⟨h1, h2, h3, h4, fun l hl => mleB_trans (h5 l hl)
        (mleB_of_le (Nat.le_refl _) (Nat.le_succ _) (Nat.le_succ _) (Nat.le_refl _))⟩
    · have hvf : st.visited.contains nb.nodeId = false := by
        cases hx : st.visited.contains nb.nodeId
        · rfl
        · exact absurd hx hv
      simp only [dfsVisit, hedge, hvf, Bool.false_eq_true, if_false]
      refine ⟨nsComplete_if_aset g _ _ _ _ h1, h2, ?_⟩
      refine traceInv_snoc g h3 h4 h5 _ ?_ ?_ _ ?_
      · rw [stepComplete_eq]
        simp [nsComplete_if_aset g _ _ _ _ h1, h2]
      · exact mleB_of_le (Nat.le_refl _) (Nat.le_succ _) (Nat.le_succ _) (Nat.le_refl _)
      · exact mleB_refl _
  | some e =>
    have he2 : esComplete g (aset st.edgeStates e.id EdgeState.examining) = true :=
      esComplete_aset g _ _ _ h2
    by_cases hv : st.visited.contains nb.nodeId = true
    · simp only [dfsVisit, hedge, hv, if_true]
      by_cases hr : (aget st.edgeStates e.id != some EdgeState.in_solution) = true
      · simp only [hr, if_true]
        exact ⟨h1, esComplete_aset g _ _ _ h2, h3, h4, fun l hl => mleB_trans (h5 l hl)
          (mleB_of_le (Nat.le_refl _) (Nat.le_succ _) (Nat.le_succ _) (Nat.le_refl _))⟩
      · have hrf : (aget st.edgeStates e.id != some EdgeState.in_solution) = false := by
          cases hx : (aget st.edgeStates e.id != some EdgeState.in_solution)
          · rfl
          · exact absurd hx hr
        simp only [hrf, Bool.false_eq_true, if_false]
        exact ⟨h1, h2, h3, h4, fun l hl => mleB_trans (h5 l hl)
          (mleB_of_le (Nat.le_refl _) (Nat.le_succ _) (Nat.le_succ _) (Nat.le_refl _))⟩
    · have hvf : st.visited.contains nb.nodeId = false := by
        cases hx : st.visited.contains nb.nodeId
        · rfl
        · exact absurd hx hv
      simp only [dfsVisit, hedge, hvf, Bool.false_eq_true, if_false]
      refine ⟨nsComplete_if_aset g _ _ _ _ h1, esComplete_aset g _ _ _ he2, ?_⟩
      refine traceInv_snoc g h3 h4 h5 _ ?_ ?_ _ ?_
      · rw [stepComplete_eq]
        simp [nsComplete_if_aset g _ _ _ _ h1, esComplete_aset g _ _ _ he2]
      · exact mleB_of_le (Nat.le_refl _) (Nat.le_succ _) (Nat.le_succ _) (Nat.le_refl _)
      · exact mleB_refl _

theorem dfsLoop_inv (g : Graph) (adjList : AList (List AdjEntry)) :
    ∀ (fuel : Nat) (st : DfsSt),
      traceInv g st.nodeStates st.edgeStates st.steps st.metrics →
      traceInv g (dfsLoop g adjList fuel st).nodeStates
        (dfsLoop g adjList fuel st).edgeStates (dfsLoop g adjList fuel st).steps
        (dfsLoop g adjList fuel st).metrics := by
  intro fuel
  induction fuel with
  | zero => intro st h; exact h
  | succ f ih =>
    intro st h
    rw [dfsLoop]
    cases hq : st.stack with
    | nil => exact h
    | cons u rest =>
      by_cases hv : st.visited.contains u = true
      · simp only [hv, if_true]
        apply ih
        exact traceInv_app1 g h _ _ _ (fun hh => hh) (fun hh => hh) _
          (fun hh => hh) (fun hh => hh)
          (mleB_of_le (Nat.le_refl _) (Nat.le_refl _) (Nat.le_succ _) (Nat.le_succ _))
          (mleB_refl _)
      · have hvf : st.visited.contains u = false := by
          cases hx : st.visited.contains u
          · rfl
          · exact absurd hx hv
        simp only [hvf, Bool.false_eq_true, if_false]
        apply ih
        exact traceInv_upd g
          (foldl_pres
            (fun s : DfsSt => traceInv g s.nodeStates s.edgeStates s.steps s.metrics)
            (dfsVisit g u) (fun s c hs => dfsVisit_inv g u s c hs) _ _
            (traceInv_app1 g h _ _ _
              (fun hh => nsComplete_aset g _ _ _ hh) (fun hh => hh) _
              (fun hh => nsComplete_aset g _ _ _ hh) (fun hh => hh)
              (mleB_of_le (Nat.le_succ _) (Nat.le_refl _) (Nat.le_succ _) (Nat.le_succ _))
              (mleB_refl _)))
          _ _ _ (fun hh => nsComplete_aset g _ _ _ hh) (fun hh => hh) (mleB_refl _)

theorem executeDFS_inv (g : Graph) (p : AlgorithmParams) :
    stepsComplete g (executeDFS g p) = true ∧ metricsMono (executeDFS g p) = true := by
  unfold executeDFS
  by_cases hf : strFalsy p.startNodeId = true
  · simp only [hf, if_true]
    exact ⟨rfl, rfl⟩
  · have hff : strFalsy p.startNodeId = false := by
      cases hx : strFalsy p.startNodeId
      · rfl
      · exact absurd hx hf
    simp only [hff, Bool.false_eq_true, if_false]
    cases hs : p.startNodeId with
    | none => exact ⟨rfl, rfl⟩
    | some sid =>
      by_cases hn : (getNode g sid).isNone = true
      · simp only [hn, if_true]
        exact ⟨rfl, rfl⟩
      · have hnf : (getNode g sid).isNone = false := by
          cases hx : (getNode g sid).isNone
          · rfl
          · exact absurd hx hn
        simp only [hnf, Bool.false_eq_true, if_false]
        exact exe_final g
          (dfsLoop_inv g _ _ _
            (traceInv_single g _ _
              (nsComplete_aset g _ _ _ (nsComplete_init g)) (esComplete_init g) _ _
              (nsComplete_aset g _ _ _ (nsComplete_init g)) (esComplete_init g)
              (mleB_refl _)))
          _ (fun hh => nsComplete_foldl_aset g _ _ _ hh) (fun hh => hh) (mleB_refl _)

theorem traceInv_app1b (g : Graph) {ns : AList NodeState} {es : AList EdgeState}
    {steps : List AlgorithmStep} {m : AlgorithmMetrics}
    (h : traceInv g ns es steps m)
    (ns2 : AList NodeState) (es2 : AList EdgeState) (m2 : AlgorithmMetrics)
    (hboth : nsComplete g ns = true → esComplete g es = true →
      nsComplete g ns2 = true ∧ esComplete g es2 = true)
    (d : AlgorithmStep)
    (hdb : nsComplete g ns = true → esComplete g es = true →
      nsComplete g d.nodeStates = true ∧ esComplete g d.edgeStates = true)
    (hdm1 : mleB m d.metrics = true) (hdm2 : mleB d.metrics m2 = true) :
    traceInv g ns2 es2 (steps ++ [d]) m2 := by
  unfold traceInv at h ⊢
  obtain ⟨h1, h2, h3, h4, h5⟩ := h
  refine ⟨(hboth h1 h2).1, (hboth h1 h2).2, ?_⟩
  refine traceInv_snoc g h3 h4 h5 d ?_ hdm1 m2 hdm2
  rw [stepComplete_eq]
  simp [(hdb h1 h2).1, (hdb h1 h2).2]

theorem markPath_complete (g : Graph) (path : List String) (ns : AList NodeState)
    (es : AList EdgeState) (hn : nsComplete g ns = true) (he : esComplete g es = true) :
    nsComplete g (markPath g path ns es).1 = true ∧
    esComplete g (markPath g path ns es).2 = true := by
  unfold markPath
  exact foldl_pres
    (fun acc : AList NodeState × AList EdgeState × Option String =>
      nsComplete g acc.1 = true ∧ esComplete g acc.2.1 = true)
    _
    (fun acc id hacc => by
      have hes2 : esComplete g (match acc.2.2 with
          | some prev =>
            match getEdgeBetween g prev id with
            | some e => aset acc.2.1 e.id EdgeState.in_solution
            | none => acc.2.1
          | none => acc.2.1) = true := by
        cases hp : acc.2.2 with
        | none => exact hacc.2
        | some prev =>
          dsimp only
          cases hedge : getEdgeBetween g prev id with
          | none => exact hacc.2
          | some e => exact esComplete_aset g _ _ _ hacc.2
      exact ⟨nsComplete_aset g _ _ _ hacc.1, hes2⟩)
    path (ns, es, none) ⟨hn, he⟩

theorem dijRelax_inv (g : Graph) (c : String) (st : DijSt) (nb : AdjEntry)
    (h : traceInv g st.nodeStates st.edgeStates st.steps st.metrics) :
    traceInv g (dijRelax g c st nb).nodeStates (dijRelax g c st nb).edgeStates
      (dijRelax g c st nb).steps (dijRelax g c st nb).metrics := by
  by_cases hv : st.visited.contains nb.nodeId = true
  · simp only [dijRelax, hv, if_true]
    exact h
  · have hvf : st.visited.contains nb.nodeId = false := by
      cases hx : st.visited.contains nb.nodeId
      · rfl
      · exact absurd hx hv
    unfold traceInv at h ⊢
    obtain ⟨h1, h2, h3, h4, h5⟩ := h
    have hnsif : nsComplete g
        (if (aget st.nodeStates nb.nodeId != some NodeState.visited) = true then
          aset st.nodeStates nb.nodeId NodeState.visiting
        else st.nodeStates) = true := by
      split
      · exact nsComplete_aset g _ _ _ h1
      · exact h1
    by_cases hlt : jvLtB (jvAdd (jsOr0 (aget st.dist c)) (Jv.q nb.weight))
        (jsOrInf (aget st.dist nb.nodeId)) = true
    · cases hedge : getEdgeBetween g c nb.nodeId with
      | none =>
        simp only [dijRelax, hvf, Bool.false_eq_true, if_false, hedge, hlt, if_true]
        refine ⟨hnsif, h2, ?_⟩
        refine traceInv_snoc2 g h3 h4 h5 _ _ ?_ ?_ ?_ ?_ _ ?_
        · rw [stepComplete_eq]
          dsimp only
          rw [h1, h2]
          rfl
        · rw [stepComplete_eq]
          dsimp only
          rw [hnsif, h2]
          rfl
        · exact mleB_of_le (Nat.le_refl _) (Nat.le_succ _) (Nat.le_succ _) (Nat.le_succ _)
        · exact mleB_refl _
        · exact mleB_refl _
      | some e =>
        simp only [dijRelax, hvf, Bool.false_eq_true, if_false, hedge, hlt, if_true]
        have hesx : esComplete g (aset st.edgeStates e.id EdgeState.examining) = true :=
          esComplete_aset g _ _ _ h2
        refine ⟨hnsif, hesx, ?_⟩
        refine traceInv_snoc2 g h3 h4 h5 _ _ ?_ ?_ ?_ ?_ _ ?_
        · rw [stepComplete_eq]
          dsimp only
          rw [h1, hesx]
          rfl
        · rw [stepComplete_eq]
          dsimp only
          rw [hnsif, hesx]
          rfl
        · exact mleB_of_le (Nat.le_refl _) (Nat.le_succ _) (Nat.le_succ _) (Nat.le_succ _)
        · exact mleB_refl _
        · exact mleB_refl _
    · have hltf : jvLtB (jvAdd (jsOr0 (aget st.dist c)) (Jv.q nb.weight))
          (jsOrInf (aget st.dist nb.nodeId)) = false := by
        cases hx : jvLtB (jvAdd (jsOr0 (aget st.dist c)) (Jv.q nb.weight))
          (jsOrInf (aget st.dist nb.nodeId))
        · rfl
        · exact absurd hx hlt
      cases hedge : getEdgeBetween g c nb.nodeId with
      | none =>
        simp only [dijRelax, hvf, Bool.false_eq_true, if_false, hedge, hltf]
        refine ⟨h1, h2, ?_⟩
        refine traceInv_snoc g h3 h4 h5 _ ?_ ?_ _ ?_
        · rw [stepComplete_eq]
          simp [h1, h2]
        · exact mleB_of_le (Nat.le_refl _) (Nat.le_succ _) (Nat.le_succ _) (Nat.le_succ _)
        · exact mleB_refl _
      | some e =>
        simp only [dijRelax, hvf, Bool.false_eq_true, if_false, hedge, hltf]
        refine ⟨h1, esComplete_aset g _ _ _ (esComplete_aset g _ _ _ h2), ?_⟩
        refine traceInv_snoc g h3 h4 h5 _ ?_ ?_ _ ?_
        · rw [stepComplete_eq]
          simp [h1, esComplete_aset g _ _ _ h2]
        · exact mleB_of_le (Nat.le_refl _) (Nat.le_succ _) (Nat.le_succ _) (Nat.le_succ _)
        · exact mleB_refl _

theorem dijLoop_inv (g : Graph) (adjList : AList (List AdjEntry))
    (endNodeId : Option String) :
    ∀ (fuel : Nat) (st : DijSt),
      traceInv g st.nodeStates st.edgeStates st.steps st.metrics →
      traceInv g (dijLoop g adjList endNodeId fuel st).nodeStates
        (dijLoop g adjList endNodeId fuel st).edgeStates
        (dijLoop g adjList endNodeId fuel st).steps
        (dijLoop g adjList endNodeId fuel st).metrics := by
  intro fuel
  induction fuel with
  | zero => intro st h; exact h
  | succ f ih =>
    intro st h
    rw [dijLoop]
    by_cases hdone : st.done = true
    · simp only [hdone, if_true]
      exact h
    · have hdf : st.done = false := by
        cases hx : st.done
        · rfl
        · exact absurd hx hdone
      simp only [hdf, Bool.false_eq_true, if_false]
      cases hq : st.pq with
      | nil => exact h
      | cons item rest =>
        by_cases hstale : jvLtB (jsOrInf (aget st.dist item.value)) item.priority = true
        · simp only [hstale, if_true]
          apply ih
          exact traceInv_upd g h _ _ _ (fun hh => hh) (fun hh => hh)
            (mleB_of_le (Nat.le_refl _) (Nat.le_refl _) (Nat.le_succ _) (Nat.le_succ _))
        · have hstf : jvLtB (jsOrInf (aget st.dist item.value)) item.priority = false := by
            cases hx : jvLtB (jsOrInf (aget st.dist item.value)) item.priority
            · rfl
            · exact absurd hx hstale
          simp only [hstf, Bool.false_eq_true, if_false]
          by_cases hv : st.visited.contains item.value = true
          · simp only [hv, if_true]
            apply ih
            exact traceInv_upd g h _ _ _ (fun hh => hh) (fun hh => hh)
              (mleB_of_le (Nat.le_refl _) (Nat.le_refl _) (Nat.le_succ _) (Nat.le_succ _))
          · have hvf : st.visited.contains item.value = false := by
              cases hx : st.visited.contains item.value
              · rfl
              · exact absurd hx hv
            simp only [hvf, Bool.false_eq_true, if_false]
            cases hend : endNodeId with
            | none =>
              rw [hend] at ih
              dsimp only
              simp only [Bool.false_eq_true, if_false]
              apply ih
              exact traceInv_upd g
                (foldl_pres
                  (fun s : DijSt => traceInv g s.nodeStates s.edgeStates s.steps s.metrics)
                  (dijRelax g item.value) (fun s c hs => dijRelax_inv g item.value s c hs)
                  _ _
                  (traceInv_app1 g h _ _ _
                    (fun hh => nsComplete_aset g _ _ _ hh) (fun hh => hh) _
                    (fun hh => nsComplete_aset g _ _ _ hh) (fun hh => hh)
                    (mleB_of_le (Nat.le_succ _) (Nat.le_refl _) (Nat.le_succ _) (Nat.le_succ _))
                    (mleB_refl _)))
                _ _ _ (fun hh => nsComplete_aset g _ _ _ hh) (fun hh => hh) (mleB_refl _)
            | some en =>
              rw [hend] at ih
              dsimp only
              by_cases hT : (en != "" && item.value == en) = true
              · simp only [hT, if_true]
                exact traceInv_app1b g
                  (traceInv_app1 g h _ _ _
                    (fun hh => nsComplete_aset g _ _ _ hh) (fun hh => hh) _
                    (fun hh => nsComplete_aset g _ _ _ hh) (fun hh => hh)
                    (mleB_of_le (Nat.le_succ _) (Nat.le_refl _) (Nat.le_succ _) (Nat.le_succ _))
                    (mleB_refl _))
                  _ _ _
                  (fun hn he => markPath_complete g _ _ _ (nsComplete_aset g _ _ _ hn) he)
                  _
                  (fun hn he => markPath_complete g _ _ _ (nsComplete_aset g _ _ _ hn) he)
                  (mleB_refl _) (mleB_refl _)
              · have hTf : (en != "" && item.value == en) = false := by
                  cases hx : (en != "" && item.value == en)
                  · rfl
                  · exact absurd hx hT
                simp only [hTf, Bool.false_eq_true, if_false]
                apply ih
                exact traceInv_upd g
                  (foldl_pres
                    (fun s : DijSt => traceInv g s.nodeStates s.edgeStates s.steps s.metrics)
                    (dijRelax g item.value) (fun s c hs => dijRelax_inv g item.value s c hs)
                    _ _
                    (traceInv_app1 g h _ _ _
                      (fun hh => nsComplete_aset g _ _ _ hh) (fun hh => hh) _
                      (fun hh => nsComplete_aset g _ _ _ hh) (fun hh => hh)
                      (mleB_of_le (Nat.le_succ _) (Nat.le_refl _) (Nat.le_succ _) (Nat.le_succ _))
                      (mleB_refl _)))
                  _ _ _ (fun hh => nsComplete_aset g _ _ _ hh) (fun hh => hh) (mleB_refl _)

theorem executeDijkstra_inv (g : Graph) (p : AlgorithmParams) :
    stepsComplete g (executeDijkstra g p) = true ∧
    metricsMono (executeDijkstra g p) = true := by
  unfold executeDijkstra
  by_cases hf : strFalsy p.startNodeId = true
  · simp only [hf, if_true]
    exact ⟨rfl, rfl⟩
  · have hff : strFalsy p.startNodeId = false := by
      cases hx : strFalsy p.startNodeId
      · rfl
      · exact absurd hx hf
    simp only [hff, Bool.false_eq_true, if_false]
    cases hs : p.startNodeId with
    | none => exact ⟨rfl, rfl⟩
    | some sid =>
      by_cases hn : (getNode g sid).isNone = true
      · simp only [hn, if_true]
        exact ⟨rfl, rfl⟩
      · have hnf : (getNode g sid).isNone = false := by
          cases hx : (getNode g sid).isNone
          · rfl
          · exact absurd hx hn
        simp only [hnf, Bool.false_eq_true, if_false]
        split
        · exact exe_done
            (dijLoop_inv g _ _ _ _
              (traceInv_single g _ _
                (nsComplete_aset g _ _ _ (nsComplete_init g)) (esComplete_init g) _ _
                (nsComplete_aset g _ _ _ (nsComplete_init g)) (esComplete_init g)
                (mleB_refl _)))
        · split
          · exact exe_final g
              (dijLoop_inv g _ _ _ _
                (traceInv_single g _ _
                  (nsComplete_aset g _ _ _ (nsComplete_init g)) (esComplete_init g) _ _
                  (nsComplete_aset g _ _ _ (nsComplete_init g)) (esComplete_init g)
                  (mleB_refl _)))
              _
              (fun hh => foldl_pres (fun mm => nsComplete g mm = true) _
                (fun mm n hmm => by
                  split
                  · exact nsComplete_aset g _ _ _ hmm
                  · exact hmm) g.nodes _ hh)
              (fun hh => hh) (mleB_refl _)
          · exact exe_final g
              (dijLoop_inv g _ _ _ _
                (traceInv_single g _ _
                  (nsComplete_aset g _ _ _ (nsComplete_init g)) (esComplete_init g) _ _
                  (nsComplete_aset g _ _ _ (nsComplete_init g)) (esComplete_init g)
                  (mleB_refl _)))
              _ (fun hh => hh) (fun hh => hh) (mleB_refl _)

theorem aStarVisit_inv (g : Graph) (en : Node) (heur : HeurKind) (c : String)
    (st : AStarSt) (nb : AdjEntry)
    (h : traceInv g st.nodeStates st.edgeStates st.steps st.metrics) :
    traceInv g (aStarVisit g en heur c st nb).nodeStates
      (aStarVisit g en heur c st nb).edgeStates
      (aStarVisit g en heur c st nb).steps (aStarVisit g en heur c st nb).metrics := by
  by_cases hv : st.closedSet.contains nb.nodeId = true
  · simp only [aStarVisit, hv, if_true]
    exact h
  · have hvf : st.closedSet.contains nb.nodeId = false := by
      cases hx : st.closedSet.contains nb.nodeId
      · rfl
      · exact absurd hx hv
    unfold traceInv at h ⊢
    obtain ⟨h1, h2, h3, h4, h5⟩ := h
    have hnsif : nsComplete g
        (if (st.openSet.any fun it => it.value == nb.nodeId) = true then st.nodeStates
        else aset st.nodeStates nb.nodeId NodeState.visiting) = true := by
      split
      · exact h1
      · exact nsComplete_aset g _ _ _ h1
    by_cases hlt : jvLtB (jvAdd (jsOr0 (aget st.gScore c)) (Jv.q nb.weight))
        (jsOrInf (aget st.gScore nb.nodeId)) = true
    · cases hedge : getEdgeBetween g c nb.nodeId with
      | none =>
        simp only [aStarVisit, hvf, Bool.false_eq_true, if_false, hedge, hlt, if_true]
        refine ⟨hnsif, h2, ?_⟩
        refine traceInv_snoc2 g h3 h4 h5 _ _ ?_ ?_ ?_ ?_ _ ?_
        · rw [stepComplete_eq]
          dsimp only
          rw [h1, h2]
          rfl
        · rw [stepComplete_eq]
          dsimp only
          rw [hnsif, h2]
          rfl
        · exact mleB_of_le (Nat.le_refl _) (Nat.le_succ _) (Nat.le_refl _) (Nat.le_succ _)
        · exact mleB_refl _
        · exact mleB_refl _
      | some e =>
        have hesx : esComplete g (aset st.edgeStates e.id EdgeState.examining) = true :=
          esComplete_aset g _ _ _ h2
        simp only [aStarVisit, hvf, Bool.false_eq_true, if_false, hedge, hlt, if_true]
        refine ⟨hnsif, hesx, ?_⟩
        refine traceInv_snoc2 g h3 h4 h5 _ _ ?_ ?_ ?_ ?_ _ ?_
        · rw [stepComplete_eq]
          dsimp only
          rw [h1, hesx]
          rfl
        · rw [stepComplete_eq]
          dsimp only
          rw [hnsif, hesx]
          rfl
        · exact mleB_of_le (Nat.le_refl _) (Nat.le_succ _) (Nat.le_refl _) (Nat.le_succ _)
        · exact mleB_refl _
        · exact mleB_refl _
    · have hltf : jvLtB (jvAdd (jsOr0 (aget st.gScore c)) (Jv.q nb.weight))
          (jsOrInf (aget st.gScore nb.nodeId)) = false := by
        cases hx : jvLtB (jvAdd (jsOr0 (aget st.gScore c)) (Jv.q nb.weight))
          (jsOrInf (aget st.gScore nb.nodeId))
        · rfl
        · exact absurd hx hlt
      cases hedge : getEdgeBetween g c nb.nodeId with
      | none =>
        simp only [aStarVisit, hvf, Bool.false_eq_true, if_false, hedge, hltf]
        refine ⟨h1, h2, ?_⟩
        refine traceInv_snoc g h3 h4 h5 _ ?_ ?_ _ ?_
        · rw [stepComplete_eq]
          dsimp only
          rw [h1, h2]
          rfl
        · exact mleB_of_le (Nat.le_refl _) (Nat.le_succ _) (Nat.le_refl _) (Nat.le_succ _)
        · exact mleB_refl _
      | some e =>
        simp only [aStarVisit, hvf, Bool.false_eq_true, if_false, hedge, hltf]
        refine ⟨h1, esComplete_aset g _ _ _ (esComplete_aset g _ _ _ h2), ?_⟩
        refine traceInv_snoc g h3 h4 h5 _ ?_ ?_ _ ?_
        · rw [stepComplete_eq]
          dsimp only
          rw [h1, esComplete_aset g _ _ _ h2]
          rfl
        · exact mleB_of_le (Nat.le_refl _) (Nat.le_succ _) (Nat.le_refl _) (Nat.le_succ _)
        · exact mleB_refl _

theorem aStarLoop_inv (g : Graph) (adjList : AList (List AdjEntry)) (en : Node)
    (enId : String) (heur : HeurKind) :
    ∀ (fuel : Nat) (st : AStarSt),
      traceInv g st.nodeStates st.edgeStates st.steps st.metrics →
      traceInv g (aStarLoop g adjList en enId heur fuel st).nodeStates
        (aStarLoop g adjList en enId heur fuel st).edgeStates
        (aStarLoop g adjList en enId heur fuel st).steps
        (aStarLoop g adjList en enId heur fuel st).metrics := by
  intro fuel
  induction fuel with
  | zero => intro st h; exact h
  | succ f ih =>
    intro st h
    rw [aStarLoop]
    by_cases hdone : st.done = true
    · simp only [hdone, if_true]
      exact h
    · have hdf : st.done = false := by
        cases hx : st.done
        · rfl
        · exact absurd hx hdone
      simp only [hdf, Bool.false_eq_true, if_false]
      cases hq : st.openSet with
      | nil => exact h
      | cons item rest =>
        by_cases hT : (item.value == enId) = true
        · simp only [hT, if_true]
          exact traceInv_app1b g
            (traceInv_app1 g h _ _ _
              (fun hh => nsComplete_aset g _ _ _ hh) (fun hh => hh) _
              (fun hh => nsComplete_aset g _ _ _ hh) (fun hh => hh)
              (mleB_of_le (Nat.le_refl _) (Nat.le_refl _) (Nat.le_succ _) (Nat.le_refl _))
              (mleB_refl _))
            _ _ _
            (fun hn he => ⟨nsComplete_foldl_aset g _ _ _ hn,
              foldl_pres (fun mm => esComplete g mm = true) _
                (fun mm pr hmm => by
                  cases hedge : getEdgeBetween g pr.1 pr.2 with
                  | none => exact hmm
                  | some e => exact esComplete_aset g _ _ _ hmm) _ _ he⟩)
            _
            (fun hn he => ⟨nsComplete_foldl_aset g _ _ _ hn,
              foldl_pres (fun mm => esComplete g mm = true) _
                (fun mm pr hmm => by
                  cases hedge : getEdgeBetween g pr.1 pr.2 with
                  | none => exact hmm
                  | some e => exact esComplete_aset g _ _ _ hmm) _ _ he⟩)
            (mleB_refl _) (mleB_refl _)
        · have hTf : (item.value == enId) = false := by
            cases hx : (item.value == enId)
            · rfl
            · exact absurd hx hT
          simp only [hTf, Bool.false_eq_true, if_false]
          apply ih
          exact foldl_pres
            (fun s : AStarSt => traceInv g s.nodeStates s.edgeStates s.steps s.metrics)
            (aStarVisit g en heur item.value)
            (fun s c hs => aStarVisit_inv g en heur item.value s c hs) _ _
            (traceInv_app1 g h _ _ _
              (fun hh => nsComplete_aset g _ _ _ (nsComplete_aset g _ _ _ hh))
              (fun hh => hh) _
              (fun hh => nsComplete_aset g _ _ _ hh) (fun hh => hh)
              (mleB_of_le (Nat.le_refl _) (Nat.le_refl _) (Nat.le_succ _) (Nat.le_refl _))
              (mleB_of_le (Nat.le_succ _) (Nat.le_refl _) (Nat.le_refl _) (Nat.le_refl _)))

theorem executeAStar_inv (g : Graph) (p : AlgorithmParams) :
    stepsComplete g (executeAStar g p) = true ∧ metricsMono (executeAStar g p) = true := by
  unfold executeAStar
  by_cases hf : (strFalsy p.startNodeId || strFalsy p.endNodeId) = true
  · simp only [hf, if_true]
    exact ⟨rfl, rfl⟩
  · have hff : (strFalsy p.startNodeId || strFalsy p.endNodeId) = false := by
      cases hx : (strFalsy p.startNodeId || strFalsy p.endNodeId)
      · rfl
      · exact absurd hx hf
    simp only [hff, Bool.false_eq_true, if_false]
    cases hs : p.startNodeId with
    | none => exact ⟨rfl, rfl⟩
    | some sid =>
      cases he : p.endNodeId with
      | none => exact ⟨rfl, rfl⟩
      | some eid =>
        dsimp only
        cases hgs : getNode g sid with
        | none => exact ⟨rfl, rfl⟩
        | some sn =>
          cases hge : getNode g eid with
          | none => exact ⟨rfl, rfl⟩
          | some enode =>
            dsimp only
            split
            · exact exe_done
                (aStarLoop_inv g _ _ _ _ _ _
                  (traceInv_single g _ _
                    (nsComplete_aset g _ _ _ (nsComplete_init g)) (esComplete_init g) _ _
                    (nsComplete_aset g _ _ _ (nsComplete_init g)) (esComplete_init g)
                    (mleB_refl _)))
            · exact exe_final g
                (aStarLoop_inv g _ _ _ _ _ _
                  (traceInv_single g _ _
                    (nsComplete_aset g _ _ _ (nsComplete_init g)) (esComplete_init g) _ _
                    (nsComplete_aset g _ _ _ (nsComplete_init g)) (esComplete_init g)
                    (mleB_refl _)))
                _ (fun hh => hh) (fun hh => hh) (mleB_refl _)

theorem kruskalEdge_inv (g : Graph) (st : KruSt) (edge : Edge)
    (h : traceInv g st.nodeStates st.edgeStates st.steps st.metrics) :
    traceInv g (kruskalEdge g st edge).nodeStates (kruskalEdge g st edge).edgeStates
      (kruskalEdge g st edge).steps (kruskalEdge g st edge).metrics := by
  unfold traceInv at h ⊢
  obtain ⟨h1, h2, h3, h4, h5⟩ := h
  have hesx : esComplete g (aset st.edgeStates edge.id EdgeState.examining) = true :=
    esComplete_aset g _ _ _ h2
  by_cases hu : (ufUnion st.uf edge.source edge.target).2 = true
  · simp only [kruskalEdge, hu, if_true]
    refine ⟨nsComplete_aset g _ _ _ (nsComplete_aset g _ _ _ h1),
      esComplete_aset g _ _ _ hesx, ?_⟩
    refine traceInv_snoc2 g h3 h4 h5 _ _ ?_ ?_ ?_ ?_ _ ?_
    · rw [stepComplete_eq]
      dsimp only
      rw [h1, hesx]
      rfl
    · rw [stepComplete_eq]
      dsimp only
      rw [nsComplete_aset g _ _ _ (nsComplete_aset g _ _ _ h1),
        esComplete_aset g _ _ _ hesx]
      rfl
    · exact mleB_of_le (Nat.le_refl _) (Nat.le_succ _) (Nat.le_succ _) (Nat.le_succ _)
    · exact mleB_of_le (Nat.le_add_right _ _) (Nat.le_refl _) (Nat.le_refl _) (Nat.le_refl _)
    · exact mleB_refl _
  · have huf : (ufUnion st.uf edge.source edge.target).2 = false := by
      cases hx : (ufUnion st.uf edge.source edge.target).2
      · rfl
      · exact absurd hx hu
    simp only [kruskalEdge, huf, Bool.false_eq_true, if_false]
    refine ⟨h1, esComplete_aset g _ _ _ hesx, ?_⟩
    refine traceInv_snoc2 g h3 h4 h5 _ _ ?_ ?_ ?_ ?_ _ ?_
    · rw [stepComplete_eq]
      dsimp only
      rw [h1, hesx]
      rfl
    · rw [stepComplete_eq]
      dsimp only
      rw [h1, esComplete_aset g _ _ _ hesx]
      rfl
    · exact mleB_of_le (Nat.le_refl _) (Nat.le_succ _) (Nat.le_succ _) (Nat.le_succ _)
    · exact mleB_refl _
    · exact mleB_refl _

theorem kruskalEdges_inv (g : Graph) :
    ∀ (l : List Edge) (st : KruSt),
      traceInv g st.nodeStates st.edgeStates st.steps st.metrics →
      traceInv g (kruskalEdges g l st).nodeStates (kruskalEdges g l st).edgeStates
        (kruskalEdges g l st).steps (kruskalEdges g l st).metrics := by
  intro l
  induction l with
  | nil => intro st h; exact h
  | cons e rest ih =>
    intro st h
    rw [kruskalEdges]
    split
    · exact kruskalEdge_inv g st e h
    · exact ih _ (kruskalEdge_inv g st e h)

theorem executeKruskal_inv (g : Graph) (p : AlgorithmParams) :
    stepsComplete g (executeKruskal g p) = true ∧
    metricsMono (executeKruskal g p) = true := by
  unfold executeKruskal
  exact exe_final g
    (kruskalEdges_inv g _ _
      (traceInv_single g _ _ (nsComplete_init g) (esComplete_init g) _ _
        (nsComplete_init g) (esComplete_init g) (mleB_refl _)))
    _ (fun hh => hh) (fun hh => hh) (mleB_refl _)

theorem esComplete_pairmatch (g : Graph) (po : Option String) (c : String)
    (es : AList EdgeState) (w : ℚ) (he : esComplete g es = true) :
    esComplete g (match po with
      | some p =>
        match getEdgeBetween g p c with
        | some e => (aset es e.id EdgeState.in_solution, w + e.weight)
        | none => (es, w)
      | none => ((es, w) : AList EdgeState × ℚ)).1 = true := by
  cases po with
  | none => exact he
  | some p =>
    dsimp only
    cases hedge : getEdgeBetween g p c with
    | none => exact he
    | some e => exact esComplete_aset g _ _ _ he

theorem primVisit_inv (g : Graph) (c : String) (st : PrimSt) (nb : AdjEntry)
    (h : traceInv g st.nodeStates st.edgeStates st.steps st.metrics) :
    traceInv g (primVisit g c st nb).nodeStates (primVisit g c st nb).edgeStates
      (primVisit g c st nb).steps (primVisit g c st nb).metrics := by
  by_cases hv : st.inMST.contains nb.nodeId = true
  · simp only [primVisit, hv, if_true]
    exact h
  · have hvf : st.inMST.contains nb.nodeId = false := by
      cases hx : st.inMST.contains nb.nodeId
      · rfl
      · exact absurd hx hv
    unfold traceInv at h ⊢
    obtain ⟨h1, h2, h3, h4, h5⟩ := h
    by_cases hlt : jvLtB (Jv.q nb.weight) (jsOrInf (aget st.keyM nb.nodeId)) = true
    · cases hedge : getEdgeBetween g c nb.nodeId with
      | none =>
        simp only [primVisit, hvf, Bool.false_eq_true, if_false, hedge, hlt, if_true]
        refine ⟨nsComplete_aset g _ _ _ h1, h2, ?_⟩
        refine traceInv_snoc2 g h3 h4 h5 _ _ ?_ ?_ ?_ ?_ _ ?_
        · rw [stepComplete_eq]
          dsimp only
          rw [h1, h2]
          rfl
        · rw [stepComplete_eq]
          dsimp only
          rw [nsComplete_aset g _ _ _ h1, h2]
          rfl
        · exact mleB_of_le (Nat.le_refl _) (Nat.le_succ _) (Nat.le_refl _) (Nat.le_succ _)
        · exact mleB_refl _
        · exact mleB_refl _
      | some e =>
        have hesx : esComplete g (aset st.edgeStates e.id EdgeState.examining) = true :=
          esComplete_aset g _ _ _ h2
        simp only [primVisit, hvf, Bool.false_eq_true, if_false, hedge, hlt, if_true]
        refine ⟨nsComplete_aset g _ _ _ h1, hesx, ?_⟩
        refine traceInv_snoc2 g h3 h4 h5 _ _ ?_ ?_ ?_ ?_ _ ?_
        · rw [stepComplete_eq]
          dsimp only
          rw [h1, hesx]
          rfl
        · rw [stepComplete_eq]
          dsimp only
          rw [nsComplete_aset g _ _ _ h1, hesx]
          rfl
        · exact mleB_of_le (Nat.le_refl _) (Nat.le_succ _) (Nat.le_refl _) (Nat.le_succ _)
        · exact mleB_refl _
        · exact mleB_refl _
    · have hltf : jvLtB (Jv.q nb.weight) (jsOrInf (aget st.keyM nb.nodeId)) = false := by
        cases hx : jvLtB (Jv.q nb.weight) (jsOrInf (aget st.keyM nb.nodeId))
        · rfl
        · exact absurd hx hlt
      cases hedge : getEdgeBetween g c nb.nodeId with
      | none =>
        simp only [primVisit, hvf, Bool.false_eq_true, if_false, hedge, hltf]
        refine ⟨h1, h2, ?_⟩
        refine traceInv_snoc g h3 h4 h5 _ ?_ ?_ _ ?_
        · rw [stepComplete_eq]
          dsimp only
          rw [h1, h2]
          rfl
        · exact mleB_of_le (Nat.le_refl _) (Nat.le_succ _) (Nat.le_refl _) (Nat.le_succ _)
        · exact mleB_refl _
      | some e =>
        have hesx : esComplete g (aset st.edgeStates e.id EdgeState.examining) = true :=
          esComplete_aset g _ _ _ h2
        simp only [primVisit, hvf, Bool.false_eq_true, if_false, hedge, hltf]
        split
        · refine ⟨h1, esComplete_aset g _ _ _ hesx, ?_⟩
          refine traceInv_snoc g h3 h4 h5 _ ?_ ?_ _ ?_
          · rw [stepComplete_eq]
            dsimp only
            rw [h1, hesx]
            rfl
          · exact mleB_of_le (Nat.le_refl _) (Nat.le_succ _) (Nat.le_refl _) (Nat.le_succ _)
          · exact mleB_refl _
        · refine ⟨h1, hesx, ?_⟩
          refine traceInv_snoc g h3 h4 h5 _ ?_ ?_ _ ?_
          · rw [stepComplete_eq]
            dsimp only
            rw [h1, hesx]
            rfl
          · exact mleB_of_le (Nat.le_refl _) (Nat.le_succ _) (Nat.le_refl _) (Nat.le_succ _)
          · exact mleB_refl _

theorem primProcess_inv (g : Graph) (adjList : AList (List AdjEntry)) (c : String)
    (st : PrimSt)
    (h : traceInv g st.nodeStates st.edgeStates st.steps st.metrics) :
    traceInv g (primProcess g adjList c st).nodeStates
      (primProcess g adjList c st).edgeStates (primProcess g adjList c st).steps
      (primProcess g adjList c st).metrics := by
  rw [primProcess]
  exact foldl_pres
    (fun s : PrimSt => traceInv g s.nodeStates s.edgeStates s.steps s.metrics)
    (primVisit g c) (fun s nb hs => primVisit_inv g c s nb hs) _ _
    (traceInv_app1 g h _ _ _
      (fun hh => nsComplete_aset g _ _ _ hh)
      (fun hh => esComplete_pairmatch g _ _ _ _ hh) _
      (fun hh => nsComplete_aset g _ _ _ hh)
      (fun hh => esComplete_pairmatch g _ _ _ _ hh)
      (mleB_of_le (Nat.le_succ _) (Nat.le_refl _) (Nat.le_refl _) (Nat.le_refl _))
      (mleB_refl _))

theorem primLoop_inv (g : Graph) (adjList : AList (List AdjEntry)) :
    ∀ (fuel : Nat) (st : PrimSt),
      traceInv g st.nodeStates st.edgeStates st.steps st.metrics →
      traceInv g (primLoop g adjList fuel st).nodeStates
        (primLoop g adjList fuel st).edgeStates (primLoop g adjList fuel st).steps
        (primLoop g adjList fuel st).metrics := by
  intro fuel
  induction fuel with
  | zero => intro st h; exact h
  | succ f ih =>
    intro st h
    rw [primLoop]
    cases hq : st.pq with
    | nil => exact h
    | cons item rest =>
      by_cases hv : st.inMST.contains item.value = true
      · simp only [hv, if_true]
        apply ih
        exact traceInv_upd g h _ _ _ (fun hh => hh) (fun hh => hh)
          (mleB_of_le (Nat.le_refl _) (Nat.le_refl _) (Nat.le_succ _) (Nat.le_refl _))
      · have hvf : st.inMST.contains item.value = false := by
          cases hx : st.inMST.contains item.value
          · rfl
          · exact absurd hx hv
        simp only [hvf, Bool.false_eq_true, if_false]
        apply ih
        apply primProcess_inv
        exact traceInv_upd g h _ _ _ (fun hh => hh) (fun hh => hh)
          (mleB_of_le (Nat.le_refl _) (Nat.le_refl _) (Nat.le_succ _) (Nat.le_refl _))

theorem primInit_inv (g : Graph) (sid : String) :
    traceInv g (primInit g sid).nodeStates (primInit g sid).edgeStates
      (primInit g sid).steps (primInit g sid).metrics := by
  rw [primInit]
  exact traceInv_single g _ _ (nsComplete_init g) (esComplete_init g) _ _
    (nsComplete_init g) (esComplete_init g) (mleB_refl _)

theorem executePrim_inv (g : Graph) (p : AlgorithmParams) :
    stepsComplete g (executePrim g p) = true ∧ metricsMono (executePrim g p) = true := by
  unfold executePrim
  by_cases hf : strFalsy p.startNodeId = true
  · simp only [hf, if_true]
    exact ⟨rfl, rfl⟩
  · have hff : strFalsy p.startNodeId = false := by
      cases hx : strFalsy p.startNodeId
      · rfl
      · exact absurd hx hf
    simp only [hff, Bool.false_eq_true, if_false]
    cases hs : p.startNodeId with
    | none => exact ⟨rfl, rfl⟩
    | some sid =>
      unfold primFinal
      exact exe_final g
        (primLoop_inv g _ _ _ (primInit_inv g sid))
        _ (fun hh => hh) (fun hh => hh) (mleB_refl _)

theorem nsComplete_foldl_aset_nodes (g : Graph) (v : NodeState) (l : List Node) :
    ∀ (ms : AList NodeState), nsComplete g ms = true →
      nsComplete g (l.foldl (fun mm n => aset mm n.id v) ms) = true :=
  fun ms hm => foldl_pres (fun mm => nsComplete g mm = true) _
    (fun mm n hmm => nsComplete_aset g mm n.id v hmm) l ms hm

theorem traceInv_pair (g : Graph) (ns : AList NodeState) (es : AList EdgeState)
    (hn : nsComplete g ns = true) (he : esComplete g es = true)
    (d1 d2 : AlgorithmStep) (m : AlgorithmMetrics)
    (h1n : nsComplete g d1.nodeStates = true) (h1e : esComplete g d1.edgeStates = true)
    (h2n : nsComplete g d2.nodeStates = true) (h2e : esComplete g d2.edgeStates = true)
    (h12 : mleB d1.metrics d2.metrics = true) (h2m : mleB d2.metrics m = true) :
    traceInv g ns es [d1, d2] m := by
  refine ⟨hn, he, ?_, ?_, ?_⟩
  · rw [stepsComplete]
    simp [stepComplete_eq, h1n, h1e, h2n, h2e]
  · show (mleB d1.metrics d2.metrics && metricsMono [d2]) = true
    rw [h12]
    rfl
  · intro l hl
    rw [List.getLast?_cons_cons, List.getLast?_singleton] at hl
    cases hl
    exact h2m

theorem topoEdge_inv (g : Graph) (st : TopoSt) (edge : Edge)
    (h : traceInv g st.nodeStates st.edgeStates st.steps st.metrics) :
    traceInv g (topoEdge g st edge).nodeStates (topoEdge g st edge).edgeStates
      (topoEdge g st edge).steps (topoEdge g st edge).metrics := by
  unfold traceInv at h ⊢
  obtain ⟨h1, h2, h3, h4, h5⟩ := h
  have hesx : esComplete g (aset st.edgeStates edge.id EdgeState.in_solution) = true :=
    esComplete_aset g _ _ _ h2
  by_cases hz : (((aget st.inDegree edge.target).getD 0 - 1) == 0) = true
  · simp only [topoEdge, hz, if_true]
    refine ⟨nsComplete_aset g _ _ _ h1, hesx, ?_⟩
    refine traceInv_snoc2 g h3 h4 h5 _ _ ?_ ?_ ?_ ?_ _ ?_
    · rw [stepComplete_eq]
      dsimp only
      rw [h1, hesx]
      rfl
    · rw [stepComplete_eq]
      dsimp only
      rw [nsComplete_aset g _ _ _ h1, hesx]
      rfl
    · exact mleB_of_le (Nat.le_refl _) (Nat.le_succ _) (Nat.le_refl _) (Nat.le_refl _)
    · exact mleB_refl _
    · exact mleB_refl _
  · have hzf : (((aget st.inDegree edge.target).getD 0 - 1) == 0) = false := by
      cases hx : (((aget st.inDegree edge.target).getD 0 - 1) == 0)
      · rfl
      · exact absurd hx hz
    simp only [topoEdge, hzf, Bool.false_eq_true, if_false]
    refine ⟨h1, hesx, ?_⟩
    refine traceInv_snoc g h3 h4 h5 _ ?_ ?_ _ ?_
    · rw [stepComplete_eq]
      dsimp only
      rw [h1, hesx]
      rfl
    · exact mleB_of_le (Nat.le_refl _) (Nat.le_succ _) (Nat.le_refl _) (Nat.le_refl _)
    · exact mleB_refl _

theorem topoLoop_inv (g : Graph) :
    ∀ (fuel : Nat) (st : TopoSt),
      traceInv g st.nodeStates st.edgeStates st.steps st.metrics →
      traceInv g (topoLoop g fuel st).nodeStates (topoLoop g fuel st).edgeStates
        (topoLoop g fuel st).steps (topoLoop g fuel st).metrics := by
  intro fuel
  induction fuel with
  | zero => intro st h; exact h
  | succ f ih =>
    intro st h
    rw [topoLoop]
    cases hq : st.queue with
    | nil => exact h
    | cons u rest =>
      apply ih
      exact traceInv_upd g
        (foldl_pres
          (fun s : TopoSt => traceInv g s.nodeStates s.edgeStates s.steps s.metrics)
          (topoEdge g) (fun s e hs => topoEdge_inv g s e hs) _ _
          (traceInv_app1 g h _ _ _
            (fun hh => nsComplete_aset g _ _ _ hh) (fun hh => hh) _
            (fun hh => nsComplete_aset g _ _ _ hh) (fun hh => hh)
            (mleB_of_le (Nat.le_succ _) (Nat.le_refl _) (Nat.le_succ _) (Nat.le_refl _))
            (mleB_refl _)))
        _ _ _ (fun hh => nsComplete_aset g _ _ _ hh) (fun hh => hh) (mleB_refl _)

theorem executeTopologicalSort_inv (g : Graph) (p : AlgorithmParams) :
    stepsComplete g (executeTopologicalSort g p) = true ∧
    metricsMono (executeTopologicalSort g p) = true := by
  unfold executeTopologicalSort
  by_cases hd : (!g.directed) = true
  · simp only [hd, if_true]
    exact ⟨rfl, rfl⟩
  · have hdf : (!g.directed) = false := by
      cases hx : (!g.directed)
      · rfl
      · exact absurd hx hd
    simp only [hdf, Bool.false_eq_true, if_false]
    split
    · exact exe_final g
        (topoLoop_inv g _ _
          (traceInv_pair g _ _
            (by exact nsComplete_foldl_aset_nodes g _ _ _ (nsComplete_init g))
            (by exact esComplete_init g) _ _ _
            (by exact nsComplete_init g) (by exact esComplete_init g)
            (by exact nsComplete_foldl_aset_nodes g _ _ _ (nsComplete_init g))
            (by exact esComplete_init g) (by exact mleB_refl _) (by exact mleB_refl _)))
        _ (fun hh => hh) (fun hh => hh) (mleB_refl _)
    · exact exe_final g
        (topoLoop_inv g _ _
          (traceInv_pair g _ _
            (by exact nsComplete_foldl_aset_nodes g _ _ _ (nsComplete_init g))
            (by exact esComplete_init g) _ _ _
            (by exact nsComplete_init g) (by exact esComplete_init g)
            (by exact nsComplete_foldl_aset_nodes g _ _ _ (nsComplete_init g))
            (by exact esComplete_init g) (by exact mleB_refl _) (by exact mleB_refl _)))
        _ (fun hh => hh) (fun hh => hh) (mleB_refl _)

theorem cycDfs_inv (g : Graph) (adjList : AList (List AdjEntry)) :
    ∀ (fuel : Nat) (st : CycSt) (nid : String),
      traceInv g st.nodeStates st.edgeStates st.steps st.metrics →
      traceInv g (cycDfs g adjList fuel st nid).1.nodeStates
        (cycDfs g adjList fuel st nid).1.edgeStates
        (cycDfs g adjList fuel st nid).1.steps
        (cycDfs g adjList fuel st nid).1.metrics := by
  intro fuel
  induction fuel with
  | zero => intro st nid h; exact h
  | succ f ih =>
    intro st nid h
    rw [cycDfs]
    split
    · exact foldl_pres
        (fun acc : CycSt × Bool =>
          traceInv g acc.1.nodeStates acc.1.edgeStates acc.1.steps acc.1.metrics)
        _
        (fun acc nb hacc => by
          dsimp only
          by_cases hb : acc.2 = true
          · simp only [hb, if_true]
            exact hacc
          · have hbf : acc.2 = false := by
              cases hx : acc.2
              · rfl
              · exact absurd hx hb
            simp only [hbf, Bool.false_eq_true, if_false]
            cases hedge : getEdgeBetween g nid nb.nodeId with
            | none =>
              by_cases hg : (aget acc.1.color nb.nodeId == some Color.gray) = true
              · simp only [hedge, hg, if_true]
                obtain ⟨a1, a2, a3, a4, a5⟩ := hacc
                refine ⟨nsComplete_aset g _ _ _ a1, a2, ?_⟩
                refine traceInv_snoc2 g a3 a4 a5 _ _ ?_ ?_ ?_ ?_ _ ?_
                · rw [stepComplete_eq]
                  dsimp only
                  rw [a1, a2]
                  rfl
                · rw [stepComplete_eq]
                  dsimp only
                  rw [nsComplete_aset g _ _ _ a1, a2]
                  rfl
                · exact mleB_of_le (Nat.le_refl _) (Nat.le_succ _) (Nat.le_refl _)
                    (Nat.le_succ _)
                · exact mleB_refl _
                · exact mleB_refl _
              · have hgf : (aget acc.1.color nb.nodeId == some Color.gray) = false := by
                  cases hx : (aget acc.1.color nb.nodeId == some Color.gray)
                  · rfl
                  · exact absurd hx hg
                simp only [hedge, hgf, Bool.false_eq_true, if_false]
                by_cases hw : (aget acc.1.color nb.nodeId == some Color.white) = true
                · simp only [hw, if_true]
                  apply ih
                  exact traceInv_app1 g hacc _ _ _ (fun hh => hh) (fun hh => hh) _
                    (fun hh => hh) (fun hh => hh)
                    (mleB_of_le (Nat.le_refl _) (Nat.le_succ _) (Nat.le_refl _)
                      (Nat.le_succ _))
                    (mleB_refl _)
                · have hwf : (aget acc.1.color nb.nodeId == some Color.white) = false := by
                    cases hx : (aget acc.1.color nb.nodeId == some Color.white)
                    · rfl
                    · exact absurd hx hw
                  simp only [hwf, Bool.false_eq_true, if_false]
                  exact traceInv_app1 g hacc _ _ _ (fun hh => hh) (fun hh => hh) _
                    (fun hh => hh) (fun hh => hh)
                    (mleB_of_le (Nat.le_refl _) (Nat.le_succ _) (Nat.le_refl _)
                      (Nat.le_succ _))
                    (mleB_refl _)
            | some e =>
              obtain ⟨a1, a2, a3, a4, a5⟩ := hacc
              have hesx : esComplete g (aset acc.1.edgeStates e.id EdgeState.examining) =
                  true := esComplete_aset g _ _ _ a2
              by_cases hg : (aget acc.1.color nb.nodeId == some Color.gray) = true
              · simp only [hedge, hg, if_true]
                refine ⟨nsComplete_aset g _ _ _ a1, esComplete_aset g _ _ _ hesx, ?_⟩
                refine traceInv_snoc2 g a3 a4 a5 _ _ ?_ ?_ ?_ ?_ _ ?_
                · rw [stepComplete_eq]
                  dsimp only
                  rw [a1, hesx]
                  rfl
                · rw [stepComplete_eq]
                  dsimp only
                  rw [nsComplete_aset g _ _ _ a1, esComplete_aset g _ _ _ hesx]
                  rfl
                · exact mleB_of_le (Nat.le_refl _) (Nat.le_succ _) (Nat.le_refl _)
                    (Nat.le_succ _)
                · exact mleB_refl _
                · exact mleB_refl _
              · have hgf : (aget acc.1.color nb.nodeId == some Color.gray) = false := by
                  cases hx : (aget acc.1.color nb.nodeId == some Color.gray)
                  · rfl
                  · exact absurd hx hg
                simp only [hedge, hgf, Bool.false_eq_true, if_false]
                by_cases hw : (aget acc.1.color nb.nodeId == some Color.white) = true
                · simp only [hw, if_true]
                  apply ih
                  exact traceInv_app1 g ⟨a1, a2, a3, a4, a5⟩ _ _ _ (fun hh => hh)
                    (fun hh => esComplete_aset g _ _ _ (esComplete_aset g _ _ _ hh)) _
                    (fun hh => hh) (fun hh => esComplete_aset g _ _ _ hh)
                    (mleB_of_le (Nat.le_refl _) (Nat.le_succ _) (Nat.le_refl _)
                      (Nat.le_succ _))
                    (mleB_refl _)
                · have hwf : (aget acc.1.color nb.nodeId == some Color.white) = false := by
                    cases hx : (aget acc.1.color nb.nodeId == some Color.white)
                    · rfl
                    · exact absurd hx hw
                  simp only [hwf, Bool.false_eq_true, if_false]
                  exact traceInv_app1 g ⟨a1, a2, a3, a4, a5⟩ _ _ _ (fun hh => hh)
                    (fun hh => esComplete_aset g _ _ _ (esComplete_aset g _ _ _ hh)) _
                    (fun hh => hh) (fun hh => esComplete_aset g _ _ _ hh)
                    (mleB_of_le (Nat.le_refl _) (Nat.le_succ _) (Nat.le_refl _)
                      (Nat.le_succ _))
                    (mleB_refl _))
        _ _
        (traceInv_app1 g h _ _ _
          (fun hh => nsComplete_aset g _ _ _ hh) (fun hh => hh) _
          (fun hh => nsComplete_aset g _ _ _ hh) (fun hh => hh)
          (mleB_of_le (Nat.le_succ _) (Nat.le_refl _) (Nat.le_succ _) (Nat.le_refl _))
          (mleB_refl _))
    · exact traceInv_app1 g
        (foldl_pres
          (fun acc : CycSt × Bool =>
            traceInv g acc.1.nodeStates acc.1.edgeStates acc.1.steps acc.1.metrics)
          _
          (fun acc nb hacc => by
            dsimp only
            by_cases hb : acc.2 = true
            · simp only [hb, if_true]
              exact hacc
            · have hbf : acc.2 = false := by
                cases hx : acc.2
                · rfl
                · exact absurd hx hb
              simp only [hbf, Bool.false_eq_true, if_false]
              cases hedge : getEdgeBetween g nid nb.nodeId with
              | none =>
                by_cases hg : (aget acc.1.color nb.nodeId == some Color.gray) = true
                · simp only [hedge, hg, if_true]
                  obtain ⟨a1, a2, a3, a4, a5⟩ := hacc
                  refine ⟨nsComplete_aset g _ _ _ a1, a2, ?_⟩
                  refine traceInv_snoc2 g a3 a4 a5 _ _ ?_ ?_ ?_ ?_ _ ?_
                  · rw [stepComplete_eq]
                    dsimp only
                    rw [a1, a2]
                    rfl
                  · rw [stepComplete_eq]
                    dsimp only
                    rw [nsComplete_aset g _ _ _ a1, a2]
                    rfl
                  · exact mleB_of_le (Nat.le_refl _) (Nat.le_succ _) (Nat.le_refl _)
                      (Nat.le_succ _)
                  · exact mleB_refl _
                  · exact mleB_refl _
                · have hgf : (aget acc.1.color nb.nodeId == some Color.gray) = false := by
                    cases hx : (aget acc.1.color nb.nodeId == some Color.gray)
                    · rfl
                    · exact absurd hx hg
                  simp only [hedge, hgf, Bool.false_eq_true, if_false]
                  by_cases hw : (aget acc.1.color nb.nodeId == some Color.white) = true
                  · simp only [hw, if_true]
                    apply ih
                    exact traceInv_app1 g hacc _ _ _ (fun hh => hh) (fun hh => hh) _
                      (fun hh => hh) (fun hh => hh)
                      (mleB_of_le (Nat.le_refl _) (Nat.le_succ _) (Nat.le_refl _)
                        (Nat.le_succ _))
                      (mleB_refl _)
                  · have hwf : (aget acc.1.color nb.nodeId == some Color.white) =
                        false := by
                      cases hx : (aget acc.1.color nb.nodeId == some Color.white)
                      · rfl
                      · exact absurd hx hw
                    simp only [hwf, Bool.false_eq_true, if_false]
                    exact traceInv_app1 g hacc _ _ _ (fun hh => hh) (fun hh => hh) _
                      (fun hh => hh) (fun hh => hh)
                      (mleB_of_le (Nat.le_refl _) (Nat.le_succ _) (Nat.le_refl _)
                        (Nat.le_succ _))
                      (mleB_refl _)
              | some e =>
                obtain ⟨a1, a2, a3, a4, a5⟩ := hacc
                have hesx : esComplete g (aset acc.1.edgeStates e.id EdgeState.examining)
                    = true := esComplete_aset g _ _ _ a2
                by_cases hg : (aget acc.1.color nb.nodeId == some Color.gray) = true
                · simp only [hedge, hg, if_true]
                  refine ⟨nsComplete_aset g _ _ _ a1, esComplete_aset g _ _ _ hesx, ?_⟩
                  refine traceInv_snoc2 g a3 a4 a5 _ _ ?_ ?_ ?_ ?_ _ ?_
                  · rw [stepComplete_eq]
                    dsimp only
                    rw [a1, hesx]
                    rfl
                  · rw [stepComplete_eq]
                    dsimp only
                    rw [nsComplete_aset g _ _ _ a1, esComplete_aset g _ _ _ hesx]
                    rfl
                  · exact mleB_of_le (Nat.le_refl _) (Nat.le_succ _) (Nat.le_refl _)
                      (Nat.le_succ _)
                  · exact mleB_refl _
                  · exact mleB_refl _
                · have hgf : (aget acc.1.color nb.nodeId == some Color.gray) = false := by
                    cases hx : (aget acc.1.color nb.nodeId == some Color.gray)
                    · rfl
                    · exact absurd hx hg
                  simp only [hedge, hgf, Bool.false_eq_true, if_false]
                  by_cases hw : (aget acc.1.color nb.nodeId == some Color.white) = true
                  · simp only [hw, if_true]
                    apply ih
                    exact traceInv_app1 g ⟨a1, a2, a3, a4, a5⟩ _ _ _ (fun hh => hh)
                      (fun hh => esComplete_aset g _ _ _ (esComplete_aset g _ _ _ hh)) _
                      (fun hh => hh) (fun hh => esComplete_aset g _ _ _ hh)
                      (mleB_of_le (Nat.le_refl _) (Nat.le_succ _) (Nat.le_refl _)
                        (Nat.le_succ _))
                      (mleB_refl _)
                  · have hwf : (aget acc.1.color nb.nodeId == some Color.white) =
                        false := by
                      cases hx : (aget acc.1.color nb.nodeId == some Color.white)
                      · rfl
                      · exact absurd hx hw
                    simp only [hwf, Bool.false_eq_true, if_false]
                    exact traceInv_app1 g ⟨a1, a2, a3, a4, a5⟩ _ _ _ (fun hh => hh)
                      (fun hh => esComplete_aset g _ _ _ (esComplete_aset g _ _ _ hh)) _
                      (fun hh => hh) (fun hh => esComplete_aset g _ _ _ hh)
                      (mleB_of_le (Nat.le_refl _) (Nat.le_succ _) (Nat.le_refl _)
                        (Nat.le_succ _))
                      (mleB_refl _))
          _ _
          (traceInv_app1 g h _ _ _
            (fun hh => nsComplete_aset g _ _ _ hh) (fun hh => hh) _
            (fun hh => nsComplete_aset g _ _ _ hh) (fun hh => hh)
            (mleB_of_le (Nat.le_succ _) (Nat.le_refl _) (Nat.le_succ _) (Nat.le_refl _))
            (mleB_refl _)))
        _ _ _ (fun hh => nsComplete_aset g _ _ _ hh) (fun hh => hh) _
        (fun hh => nsComplete_aset g _ _ _ hh) (fun hh => hh)
        (mleB_refl _) (mleB_refl _)

theorem cycOuter_inv (g : Graph) (adjList : AList (List AdjEntry)) :
    ∀ (l : List Node) (st : CycSt),
      traceInv g st.nodeStates st.edgeStates st.steps st.metrics →
      traceInv g (cycOuter g adjList l st).nodeStates
        (cycOuter g adjList l st).edgeStates (cycOuter g adjList l st).steps
        (cycOuter g adjList l st).metrics := by
  intro l
  induction l with
  | nil => intro st h; exact h
  | cons node rest ih =>
    intro st h
    rw [cycOuter]
    by_cases hw : (aget st.color node.id == some Color.white) = true
    · simp only [hw, if_true]
      split
      · exact cycDfs_inv g adjList _ _ _
          (traceInv_app1 g h _ _ _ (fun hh => hh) (fun hh => hh) _
            (fun hh => hh) (fun hh => hh) (mleB_refl _) (mleB_refl _))
      · exact ih _
          (cycDfs_inv g adjList _ _ _
            (traceInv_app1 g h _ _ _ (fun hh => hh) (fun hh => hh) _
              (fun hh => hh) (fun hh => hh) (mleB_refl _) (mleB_refl _)))
    · have hwf : (aget st.color node.id == some Color.white) = false := by
        cases hx : (aget st.color node.id == some Color.white)
        · rfl
        · exact absurd hx hw
      simp only [hwf, Bool.false_eq_true, if_false]
      exact ih st h

theorem executeCycleDetection_inv (g : Graph) (p : AlgorithmParams) :
    stepsComplete g (executeCycleDetection g p) = true ∧
    metricsMono (executeCycleDetection g p) = true := by
  unfold executeCycleDetection
  dsimp only
  split
  · exact exe_final g
      (cycOuter_inv g _ _ _
        (traceInv_single g _ _ (nsComplete_init g) (esComplete_init g) _ _
          (nsComplete_init g) (esComplete_init g) (mleB_refl _)))
      _ (fun hh => hh) (fun hh => hh) (mleB_refl _)
  · exact exe_final g
      (cycOuter_inv g _ _ _
        (traceInv_single g _ _ (nsComplete_init g) (esComplete_init g) _ _
          (nsComplete_init g) (esComplete_init g) (mleB_refl _)))
      _ (fun hh => nsComplete_foldl_aset_nodes g _ _ _ hh) (fun hh => hh) (mleB_refl _)

theorem ccDfs_inv (g : Graph) (adjList : AList (List AdjEntry)) (compId : Nat) :
    ∀ (fuel : Nat) (st : CCSt) (nid : String),
      traceInv g st.nodeStates st.edgeStates st.steps st.metrics →
      traceInv g (ccDfs g adjList compId fuel st nid).nodeStates
        (ccDfs g adjList compId fuel st nid).edgeStates
        (ccDfs g adjList compId fuel st nid).steps
        (ccDfs g adjList compId fuel st nid).metrics := by
  intro fuel
  induction fuel with
  | zero => intro st nid h; exact h
  | succ f ih =>
    intro st nid h
    rw [ccDfs]
    exact foldl_pres
      (fun s : CCSt => traceInv g s.nodeStates s.edgeStates s.steps s.metrics)
      _
      (fun s nb hs => by
        dsimp only
        by_cases hv : s.visited.contains nb.nodeId = true
        · simp only [hv, if_true]
          exact traceInv_upd g hs _ _ _ (fun hh => hh) (fun hh => hh)
            (mleB_of_le (Nat.le_refl _) (Nat.le_succ _) (Nat.le_refl _) (Nat.le_refl _))
        · have hvf : s.visited.contains nb.nodeId = false := by
            cases hx : s.visited.contains nb.nodeId
            · rfl
            · exact absurd hx hv
          simp only [hvf, Bool.false_eq_true, if_false]
          cases hedge : getEdgeBetween g nid nb.nodeId with
          | none =>
            apply ih
            exact traceInv_upd g hs _ _ _ (fun hh => hh) (fun hh => hh)
              (mleB_of_le (Nat.le_refl _) (Nat.le_succ _) (Nat.le_refl _) (Nat.le_refl _))
          | some e =>
            apply ih
            exact traceInv_upd g hs _ _ _ (fun hh => hh)
              (fun hh => esComplete_aset g _ _ _ hh)
              (mleB_of_le (Nat.le_refl _) (Nat.le_succ _) (Nat.le_refl _) (Nat.le_refl _)))
      _ _
      (traceInv_app1 g h _ _ _
        (fun hh => nsComplete_aset g _ _ _ hh) (fun hh => hh) _
        (fun hh => nsComplete_aset g _ _ _ hh) (fun hh => hh)
        (mleB_of_le (Nat.le_succ _) (Nat.le_refl _) (Nat.le_succ _) (Nat.le_refl _))
        (mleB_refl _))

theorem ccOuter_inv (g : Graph) (adjList : AList (List AdjEntry)) :
    ∀ (l : List Node) (cid : Nat) (st : CCSt),
      traceInv g st.nodeStates st.edgeStates st.steps st.metrics →
      traceInv g (ccOuter g adjList l cid st).1.nodeStates
        (ccOuter g adjList l cid st).1.edgeStates
        (ccOuter g adjList l cid st).1.steps
        (ccOuter g adjList l cid st).1.metrics := by
  intro l
  induction l with
  | nil => intro cid st h; exact h
  | cons node rest ih =>
    intro cid st h
    rw [ccOuter]
    by_cases hv : st.visited.contains node.id = true
    · simp only [hv, if_true]
      exact ih _ _ h
    · have hvf : st.visited.contains node.id = false := by
        cases hx : st.visited.contains node.id
        · rfl
        · exact absurd hx hv
      simp only [hvf, Bool.false_eq_true, if_false]
      exact ih _ _
        (ccDfs_inv g adjList _ _ _ _
          (traceInv_app1 g h _ _ _ (fun hh => hh) (fun hh => hh) _
            (fun hh => hh) (fun hh => hh) (mleB_refl _) (mleB_refl _)))

theorem executeConnectedComponents_inv (g : Graph) (p : AlgorithmParams) :
    stepsComplete g (executeConnectedComponents g p) = true ∧
    metricsMono (executeConnectedComponents g p) = true := by
  unfold executeConnectedComponents
  exact exe_final g
    (ccOuter_inv g _ _ _ _
      (traceInv_single g _ _ (nsComplete_init g) (esComplete_init g) _ _
        (nsComplete_init g) (esComplete_init g) (mleB_refl _)))
    _ (fun hh => hh) (fun hh => hh) (mleB_refl _)

/-- C6: in every step emitted by any of the nine executors, on any graph and
parameters, the nodeStates map has an entry for every node id of the graph and
the edgeStates map an entry for every edge id (no partial maps). -/
theorem all_executors_states_complete (g : Graph) (p : AlgorithmParams) :
    stepsComplete g (executeBFS g p) = true ∧
    stepsComplete g (executeDFS g p) = true ∧
    stepsComplete g (executeDijkstra g p) = true ∧
    stepsComplete g (executeAStar g p) = true ∧
    stepsComplete g (executeKruskal g p) = true ∧
    stepsComplete g (executePrim g p) = true ∧
    stepsComplete g (executeTopologicalSort g p) = true ∧
    stepsComplete g (executeCycleDetection g p) = true ∧
    stepsComplete g (executeConnectedComponents g p) = true :=
  ⟨(executeBFS_inv g p).1, (executeDFS_inv g p).1, (executeDijkstra_inv g p).1,
    (executeAStar_inv g p).1, (executeKruskal_inv g p).1, (executePrim_inv g p).1,
    (executeTopologicalSort_inv g p).1, (executeCycleDetection_inv g p).1,
    (executeConnectedComponents_inv g p).1⟩

/-- C7: in the step sequence returned by any of the nine executors, on any
input, each of the four metrics counters (nodesVisited, edgesExamined,
operationsCount, comparisons) is non-decreasing from each step to the next. -/
theorem all_executors_metrics_monotone (g : Graph) (p : AlgorithmParams) :
    metricsMono (executeBFS g p) = true ∧
    metricsMono (executeDFS g p) = true ∧
    metricsMono (executeDijkstra g p) = true ∧
    metricsMono (executeAStar g p) = true ∧
    metricsMono (executeKruskal g p) = true ∧
    metricsMono (executePrim g p) = true ∧
    metricsMono (executeTopologicalSort g p) = true ∧
    metricsMono (executeCycleDetection g p) = true ∧
    metricsMono (executeConnectedComponents g p) = true :=
  ⟨(executeBFS_inv g p).2, (executeDFS_inv g p).2, (executeDijkstra_inv g p).2,
    (executeAStar_inv g p).2, (executeKruskal_inv g p).2, (executePrim_inv g p).2,
    (executeTopologicalSort_inv g p).2, (executeCycleDetection_inv g p).2,
    (executeConnectedComponents_inv g p).2⟩

end GV
